import Mathlib

/-!
# N-Queens genetic algorithm: fitness, generations and the evolution engine

A shallow embedding of `src/geneticAlgorithm.cpp` / `src/geneticAlgorithm.hpp`.

* `std::vector<size_t>` is a `List Nat`; a fitness (`double`) is a `Nat`: every fitness the
  program stores is a sum of `size_t` attack counts, an integer a `double` holds exactly, and
  `DBL_MAX` is itself an integer.
* `static_cast<int>` of a `size_t` is `castInt` (reduction modulo `2^32` into the signed range).
* Reads `v[i]` are `v.getD i 0`; the theorems carry the hypotheses that keep every read in range.
* Rates (`float`) are rationals and `rate * 100` is computed exactly. The source rounds the
  product to `float` (relative error at most `2^-24`), so the theorem on the probability gates
  speaks of the draws that are not above the exact product and of those above it by at least
  `1/1000`, on which the rounded and the exact comparison agree.
* Randomness is a stream `List Nat` threaded through the calls: each `dist(gen)` takes the next
  value of the stream and brings it into the range of the distribution.
* `std::sort` and `std::exp` are parameters (`StdLib`); `Libstdcxx.sort` is the `std::sort` of
  libstdc++, which the counterexample on the order of equal individuals runs. The mutex is not
  modelled.
* The `...Checked` definitions repeat the methods with every vector read checked (`none` out of
  bounds); `run_reads_in_bounds` relates them to the unchecked ones.
-/

namespace NQueens

/-! ## Fitness evaluation -/

/-- The conversion `static_cast<int>(x)` of a `size_t`: the low 32 bits, read as two's complement. -/
def castInt (x : Nat) : Int :=
  if x % 2 ^ 32 < 2 ^ 31 then ((x % 2 ^ 32 : Nat) : Int) else ((x % 2 ^ 32 : Nat) : Int) - 2 ^ 32

/-- One iteration of the loop of `Generation::attackCount`, at loop index `i`. -/
def attackStep (row : Nat) (individual : List Nat) (attacks i : Nat) : Nat :=
  if i = row then attacks
  else
    let attacks1 :=
      if individual.getD row 0 = individual.getD i 0 then attacks + 1 else attacks
    if (castInt row - castInt i).natAbs
        = (castInt (individual.getD row 0) - castInt (individual.getD i 0)).natAbs
    then attacks1 + 1 else attacks1

/-- The method `Generation::attackCount`: the loop runs `i` from `row` to `individual.size() - 1`. -/
def attackCount (row : Nat) (individual : List Nat) : Nat :=
  (List.range' row (individual.length - row)).foldl (attackStep row individual) 0

/-- The method `Generation::getFitness`: the sum of `attackCount` over all rows. -/
def getFitness (individual : List Nat) : Nat :=
  (List.range individual.length).foldl (fun fitness i => fitness + attackCount i individual) 0

/-- Column of the queen in row `r`. -/
def col (individual : List Nat) (r : Nat) : Nat := individual.getD r 0

/-- Rows `r1 < r2` hold the same column. -/
def sameColumn (individual : List Nat) (r1 r2 : Nat) : Prop :=
  col individual r1 = col individual r2

/-- Rows `r1`, `r2` are diagonally aligned: `|r1 - r2| = |col r1 - col r2|` over the integers. -/
def diagonal (individual : List Nat) (r1 r2 : Nat) : Prop :=
  |(r1 : Int) - (r2 : Int)| = |(col individual r1 : Int) - (col individual r2 : Int)|

instance (individual : List Nat) (r1 r2 : Nat) : Decidable (sameColumn individual r1 r2) := by
  unfold sameColumn; infer_instance

instance (individual : List Nat) (r1 r2 : Nat) : Decidable (diagonal individual r1 r2) := by
  unfold diagonal; infer_instance

/-- The diagonal test of `attackCount` as the code evaluates it, on the `int` casts of the rows
and of the columns. -/
def diagonalTest (individual : List Nat) (row i : Nat) : Prop :=
  (castInt row - castInt i).natAbs
    = (castInt (individual.getD row 0) - castInt (individual.getD i 0)).natAbs

instance (individual : List Nat) (row i : Nat) : Decidable (diagonalTest individual row i) := by
  unfold diagonalTest; infer_instance

/-- Row pairs `(r1, r2)` with `r1 < r2 < N` that satisfy `P`. -/
def rowPairs (N : Nat) (P : Nat → Nat → Prop) [∀ a b, Decidable (P a b)] : Finset (Nat × Nat) :=
  (Finset.range N ×ˢ Finset.range N).filter (fun p => p.1 < p.2 ∧ P p.1 p.2)

/-- An individual for an `N`-board: `N` rows, each column in `[0, N-1]`. -/
def ValidIndividual (N : Nat) (individual : List Nat) : Prop :=
  individual.length = N ∧ ∀ x ∈ individual, x < N

instance (N : Nat) (individual : List Nat) : Decidable (ValidIndividual N individual) := by
  unfold ValidIndividual; infer_instance

/-! ## Generation -/

/-- The constant `DBL_MAX`; its value `(2^53 - 1) * 2^971` is an integer. -/
def DBL_MAX : Nat := (2 ^ 53 - 1) * 2 ^ 971

/-- The type `Individual` of the header: an encoding paired with its fitness. -/
abbrev Individual := List Nat × Nat

/-- The members of class `Generation` that the code reads (`m_highestFitness` and
`m_averageFitness` are never read nor written). Rates (`float`) are rationals. -/
structure Generation where
  m_individuals : List Individual
  m_sorted : Bool
  m_mutationRate : ℚ
  m_crossoverRate : ℚ
  m_generationIndex : Nat

/-- The library routines `Genetic` and `Generation` call.
`sort` is `std::sort` with the comparator `a.second < b.second`;
`expMutation i` is `std::exp(-static_cast<float>(i) / GENERATIONS)` and
`expCrossover i` is `std::exp(-static_cast<float>(i) / GENERATIONS * 1.0)`. -/
structure StdLib where
  sort : List Individual → List Individual
  expMutation : Nat → ℚ
  expCrossover : Nat → ℚ

/-- What the standard guarantees of `std::sort` with the comparator `a.second < b.second`:
the result is a rearrangement of the input and no later element compares less than an
earlier one. -/
def SortContract (sort : List Individual → List Individual) : Prop :=
  ∀ l, (sort l).Perm l ∧ (sort l).Pairwise (fun a b => ¬ b.2 < a.2)

/-- A sorting routine that meets `SortContract`: insertion sort by fitness. -/
def insertionSortByFitness (l : List Individual) : List Individual :=
  l.insertionSort (fun a b => a.2 ≤ b.2)

/-- A sorting routine that meets `SortContract` and does not keep equal elements in order:
insertion sort of the reversed input. -/
def tieReversingSort (l : List Individual) : List Individual :=
  insertionSortByFitness l.reverse

/-! ## The sorting routine of the C++ library

The routine `std::sort` as libstdc++ implements it (`bits/stl_algo.h` and `bits/stl_heap.h` of
GCC 12): introsort with a final insertion sort. Iterators are positions in the vector. -/

namespace Libstdcxx

/-- The comparator that `getNBest` passes to `std::sort`: `a.second < b.second`. -/
def comp (a b : Individual) : Bool := decide (a.2 < b.2)

/-- The element `*(begin + i)` of the vector. -/
def elem (v : List Individual) (i : Nat) : Individual := v.getD i ([], 0)

/-- The call `std::iter_swap(a, b)` on positions of the vector. -/
def iterSwap (v : List Individual) (a b : Nat) : List Individual :=
  (v.set a (elem v b)).set b (elem v a)

/-- The function `std::__move_median_to_first`. -/
def moveMedianToFirst (v : List Individual) (result a b c : Nat) : List Individual :=
  if comp (elem v a) (elem v b) then
    if comp (elem v b) (elem v c) then iterSwap v result b
    else if comp (elem v a) (elem v c) then iterSwap v result c
    else iterSwap v result a
  else if comp (elem v a) (elem v c) then iterSwap v result a
  else if comp (elem v b) (elem v c) then iterSwap v result c
  else iterSwap v result b

/-- The loop `while (__comp(__first, __pivot)) ++__first;` of `std::__unguarded_partition`; it
stops at the end of the vector at the latest. -/
def scanUp (v : List Individual) (pivot : Nat) : Nat → Nat → Nat
  | 0, first => first
  | fuel + 1, first =>
    if comp (elem v first) (elem v pivot) then scanUp v pivot fuel (first + 1) else first

/-- The loop `while (__comp(__pivot, __last)) --__last;` of `std::__unguarded_partition`; it
stops at the start of the vector at the latest. -/
def scanDown (v : List Individual) (pivot : Nat) : Nat → Nat
  | 0 => 0
  | last + 1 =>
    if comp (elem v pivot) (elem v (last + 1)) then scanDown v pivot last else last + 1

/-- The function `std::__unguarded_partition`; `fuel` bounds the rounds of its outer loop, each
of which moves `__first` up by at least one. -/
def unguardedPartition : Nat → List Individual → Nat → Nat → Nat → List Individual × Nat
  | 0, v, first, _, _ => (v, first)
  | fuel + 1, v, first, last, pivot =>
    let first := scanUp v pivot (v.length - first) first
    let last := last - 1
    let last := scanDown v pivot last
    if ¬ (first < last) then (v, first)
    else unguardedPartition fuel (iterSwap v first last) (first + 1) last pivot

/-- The function `std::__unguarded_partition_pivot`. -/
def unguardedPartitionPivot (v : List Individual) (first last : Nat) : List Individual × Nat :=
  let mid := first + (last - first) / 2
  let v := moveMedianToFirst v first (first + 1) mid (last - 1)
  unguardedPartition (last - first) v (first + 1) last first

/-- The constant `_S_threshold`. -/
def S_threshold : Nat := 16

/-- The function `std::__push_heap` on the heap that starts at `first`; `fuel` bounds the
rounds of its loop, each of which moves the hole to its parent. -/
def pushHeap (first topIndex : Nat) (value : Individual) :
    Nat → List Individual → Nat → List Individual
  | 0, v, holeIndex => v.set (first + holeIndex) value
  | fuel + 1, v, holeIndex =>
    let parent := (holeIndex - 1) / 2
    if holeIndex > topIndex ∧ comp (elem v (first + parent)) value then
      pushHeap first topIndex value fuel (v.set (first + holeIndex) (elem v (first + parent)))
        parent
    else v.set (first + holeIndex) value

/-- The first loop of `std::__adjust_heap`, which moves the hole down to a leaf: the vector and
`__secondChild` (which is `__holeIndex`) after it; `fuel` bounds its rounds. -/
def adjustLoop (first len : Nat) : Nat → List Individual → Nat → List Individual × Nat
  | 0, v, secondChild => (v, secondChild)
  | fuel + 1, v, holeIndex =>
    if holeIndex < (len - 1) / 2 then
      let secondChild := 2 * (holeIndex + 1)
      let secondChild :=
        if comp (elem v (first + secondChild)) (elem v (first + (secondChild - 1)))
        then secondChild - 1 else secondChild
      adjustLoop first len fuel (v.set (first + holeIndex) (elem v (first + secondChild)))
        secondChild
    else (v, holeIndex)

/-- The function `std::__adjust_heap`; `__secondChild == (__len - 2) / 2` is a comparison of
signed integers, which fails for `__len = 0`. -/
def adjustHeap (v : List Individual) (first holeIndex len : Nat) (value : Individual) :
    List Individual :=
  let topIndex := holeIndex
  let p := adjustLoop first len len v holeIndex
  let p :=
    if len % 2 = 0 ∧ 2 ≤ len ∧ p.2 = (len - 2) / 2 then
      let secondChild := 2 * (p.2 + 1)
      (p.1.set (first + p.2) (elem p.1 (first + (secondChild - 1))), secondChild - 1)
    else p
  pushHeap first topIndex value (p.2 + 1) p.1 p.2

/-- The function `std::__pop_heap`. -/
def popHeap (v : List Individual) (first last result : Nat) : List Individual :=
  let value := elem v result
  adjustHeap (v.set result (elem v first)) first 0 (last - first) value

/-- The function `std::__make_heap`: `__parent` runs from `(__len - 2) / 2` down to `0`. -/
def makeHeap (v : List Individual) (first last : Nat) : List Individual :=
  if last - first < 2 then v
  else
    let len := last - first
    (List.range ((len - 2) / 2 + 1)).reverse.foldl
      (fun v parent => adjustHeap v first parent len (elem v (first + parent))) v

/-- The function `std::__heap_select`. -/
def heapSelect (v : List Individual) (first middle last : Nat) : List Individual :=
  (List.range' middle (last - middle)).foldl
    (fun v i => if comp (elem v i) (elem v first) then popHeap v first middle i else v)
    (makeHeap v first middle)

/-- The function `std::__sort_heap`: `__last` runs down to `__first + 1`. -/
def sortHeap (v : List Individual) (first last : Nat) : List Individual :=
  (List.range' (first + 1) (last - (first + 1))).reverse.foldl
    (fun v last => popHeap v first last last) v

/-- The function `std::__partial_sort`. -/
def partialSort (v : List Individual) (first middle last : Nat) : List Individual :=
  sortHeap (heapSelect v first middle last) first middle

/-- The function `std::__introsort_loop`, by recursion on `__depth_limit`: both the recursive
call and the next round of the loop run with the decremented limit. -/
def introsortLoop : Nat → List Individual → Nat → Nat → List Individual
  | 0, v, first, last =>
    if last - first > S_threshold then partialSort v first last last else v
  | depthLimit + 1, v, first, last =>
    if last - first > S_threshold then
      let p := unguardedPartitionPivot v first last
      introsortLoop depthLimit (introsortLoop depthLimit p.1 p.2 last) first p.2
    else v

/-- The function `std::__unguarded_linear_insert(__last)` with `__val` already taken out: by
recursion on `__last`, moving `__val` down past the elements it is less than. -/
def linearInsertLoop (val : Individual) : List Individual → Nat → List Individual
  | v, 0 => v.set 0 val
  | v, next + 1 =>
    if comp val (elem v next) then linearInsertLoop val (v.set (next + 1) (elem v next)) next
    else v.set (next + 1) val

/-- The function `std::__unguarded_linear_insert`. -/
def unguardedLinearInsert (v : List Individual) (last : Nat) : List Individual :=
  linearInsertLoop (elem v last) v last

/-- The branch of `std::__insertion_sort` for an element less than the first one:
`__val = *__i; move_backward(__first, __i, __i + 1); *__first = __val`. -/
def moveToFirst (v : List Individual) (first i : Nat) : List Individual :=
  v.take first ++ [elem v i] ++ (v.drop first).take (i - first) ++ v.drop (i + 1)

/-- The function `std::__insertion_sort`. -/
def insertionSort (v : List Individual) (first last : Nat) : List Individual :=
  if first = last then v
  else
    (List.range' (first + 1) (last - (first + 1))).foldl
      (fun v i =>
        if comp (elem v i) (elem v first) then moveToFirst v first i
        else unguardedLinearInsert v i)
      v

/-- The function `std::__unguarded_insertion_sort`. -/
def unguardedInsertionSort (v : List Individual) (first last : Nat) : List Individual :=
  (List.range' first (last - first)).foldl (fun v i => unguardedLinearInsert v i) v

/-- The function `std::__final_insertion_sort`. -/
def finalInsertionSort (v : List Individual) (first last : Nat) : List Individual :=
  if last - first > S_threshold then
    unguardedInsertionSort (insertionSort v first (first + S_threshold)) (first + S_threshold) last
  else insertionSort v first last

/-- The function `std::__lg`: the position of the highest set bit. -/
def lg : Nat → Nat → Nat
  | 0, _ => 0
  | fuel + 1, n => if n ≤ 1 then 0 else lg fuel (n / 2) + 1

/-- The function `std::__sort` on the whole vector, as
`std::sort(m_individuals.begin(), m_individuals.end(), comp)` calls it. -/
def sort (v : List Individual) : List Individual :=
  if v.length = 0 then v
  else
    finalInsertionSort (introsortLoop (lg v.length v.length * 2) v 0 v.length) 0 v.length

end Libstdcxx

/-! ## Random draws -/

/-- A draw `dist(gen)` of a `std::uniform_int_distribution<int> dist(lo, hi)`: the next value of
the random stream, brought into `[lo, hi]`. An exhausted stream keeps giving `lo`. -/
def uniformInt (lo hi : Nat) (rng : List Nat) : Nat × List Nat :=
  match rng with
  | [] => (lo, [])
  | r :: rest => (lo + r % (hi - lo + 1), rest)

/-- The call `std::min(x, y, comp)` with `comp x y = x.second < y.second`: `y` only when it
compares less than `x`. -/
def stdMin (x y : Individual) : Individual := if y.2 < x.2 then y else x

namespace Generation

/-- The constructor `Generation(index, mutationRate, crossoverRate)`. -/
def new (index : Nat) (mutationRate crossoverRate : ℚ) : Generation :=
  { m_individuals := [], m_sorted := false, m_mutationRate := mutationRate,
    m_crossoverRate := crossoverRate, m_generationIndex := index }

/-- The method `Generation::addIndividual`. -/
def addIndividual (g : Generation) (individual : List Nat) : Generation :=
  { g with
    m_sorted := false
    m_individuals := g.m_individuals ++ [(individual, getFitness individual)] }

/-- The method `Generation::fitnessBest`. -/
def fitnessBest (g : Generation) : Nat :=
  g.m_individuals.foldl (fun best value => min best value.2) DBL_MAX

/-- The method `Generation::fitnessAverage`: the sum is accumulated from `0.0f` and the quotient
is taken exactly. -/
def fitnessAverage (g : Generation) : ℚ :=
  let sum : Nat := g.m_individuals.foldl (fun (sum : Nat) (value : Individual) => sum + value.2) 0
  if g.m_individuals.length ≠ 0 then (sum : ℚ) / (g.m_individuals.length : ℚ)
  else (DBL_MAX : ℚ)

/-- The method `Generation::getNBest`; it returns the list and the generation, whose individuals
it may have sorted in place. -/
def getNBest (sort : List Individual → List Individual) (g : Generation) (n : Nat) :
    List (List Nat) × Generation :=
  if n > g.m_individuals.length then ([], g)
  else
    let g1 : Generation :=
      if !g.m_sorted then { g with m_individuals := sort g.m_individuals, m_sorted := true }
      else g
    ((List.range n).foldl
      (fun returnVector i => returnVector ++ [(g1.m_individuals.getD i ([], 0)).1]) [], g1)

/-- The method `Generation::getMutationRate`. -/
def getMutationRate (g : Generation) : ℚ := g.m_mutationRate

/-- The method `Generation::getCrossoverRate`. -/
def getCrossoverRate (g : Generation) : ℚ := g.m_crossoverRate

/-- One iteration of the loop of `Generation::getRandomTournament`. -/
def tournamentStep (g : Generation) (st : Individual × List Nat) (_i : Nat) :
    Individual × List Nat :=
  let d := uniformInt 0 (g.m_individuals.length - 1) st.2
  (stdMin st.1 (g.m_individuals.getD d.1 ([], 0)), d.2)

/-- The method `Generation::getRandomTournament`, drawing from the stream `rng`; it returns the
encoding and the rest of the stream. -/
def getRandomTournament (g : Generation) (n : Nat) (rng : List Nat) : List Nat × List Nat :=
  if g.m_individuals.length = 0 then ([], rng)
  else
    let d := uniformInt 0 (g.m_individuals.length - 1) rng
    let individual := g.m_individuals.getD d.1 ([], 0)
    let st := (List.range' 1 (n - 1)).foldl (tournamentStep g) (individual, d.2)
    (st.1.1, st.2)

/-- The method `getNBest` with every read `m_individuals[i]` checked: `none` when an index is
out of bounds. -/
def getNBestChecked (sort : List Individual → List Individual) (g : Generation) (n : Nat) :
    Option (List (List Nat) × Generation) :=
  if n > g.m_individuals.length then some ([], g)
  else
    let g1 : Generation :=
      if !g.m_sorted then { g with m_individuals := sort g.m_individuals, m_sorted := true }
      else g
    ((List.range n).foldlM
      (fun returnVector i => (g1.m_individuals[i]?).map (fun p => returnVector ++ [p.1]))
      []).map (fun returnVector => (returnVector, g1))

/-- One iteration of the loop of `getRandomTournament` with the read checked. -/
def tournamentStepChecked (g : Generation) (st : Individual × List Nat) (_i : Nat) :
    Option (Individual × List Nat) :=
  let d := uniformInt 0 (g.m_individuals.length - 1) st.2
  (g.m_individuals[d.1]?).map (fun y => (stdMin st.1 y, d.2))

/-- The method `getRandomTournament` with every read `m_individuals[dist(gen)]` checked. -/
def getRandomTournamentChecked (g : Generation) (n : Nat) (rng : List Nat) :
    Option (List Nat × List Nat) :=
  if g.m_individuals.length = 0 then some ([], rng)
  else
    let d := uniformInt 0 (g.m_individuals.length - 1) rng
    (g.m_individuals[d.1]?).bind (fun individual =>
      ((List.range' 1 (n - 1)).foldlM (tournamentStepChecked g) (individual, d.2)).map
        (fun st => (st.1.1, st.2)))

/-- The individual picked by the `j`-th draw of a tournament (counting from `0`): every draw
takes one value of the stream. -/
def tournamentDraw (g : Generation) (rng : List Nat) (j : Nat) : Individual :=
  g.m_individuals.getD (uniformInt 0 (g.m_individuals.length - 1) (rng.drop j)).1 ([], 0)

/-- The generations a program can build: constructed empty, then changed only by
`addIndividual` and `getNBest`. -/
inductive Reachable (sort : List Individual → List Individual) : Generation → Prop
  | new (index : Nat) (mutationRate crossoverRate : ℚ) :
      Reachable sort (Generation.new index mutationRate crossoverRate)
  | addIndividual (g : Generation) (individual : List Nat) :
      Reachable sort g → Reachable sort (g.addIndividual individual)
  | getNBest (g : Generation) (n : Nat) :
      Reachable sort g → Reachable sort (g.getNBest sort n).2

/-- The class invariant: a set `m_sorted` flag means the individuals are in non-decreasing
fitness order, and every stored fitness is the fitness of its encoding. -/
def Inv (g : Generation) : Prop :=
  (g.m_sorted = true → g.m_individuals.Pairwise (fun a b => a.2 ≤ b.2)) ∧
    ∀ p ∈ g.m_individuals, p.2 = getFitness p.1

/-- The individuals as `getNBest` leaves them: sorted on the first call after an insertion. -/
def ranked (sort : List Individual → List Individual) (g : Generation) : List Individual :=
  if g.m_sorted then g.m_individuals else sort g.m_individuals

/-- The individuals as `addIndividual` stores them, in the order of insertion. -/
def inserted (history : List (List Nat)) : List Individual :=
  history.map (fun e => (e, getFitness e))

/-- The stable ranking of the spec: the insertion order sorted by fitness with a sort that keeps
equal elements in order (insertion sort), without the fitness. -/
def stableRanking (history : List (List Nat)) : List (List Nat) :=
  (insertionSortByFitness (inserted history)).map Prod.fst

/-- The generations a program can build, with the encodings passed to `addIndividual` so far,
in order. -/
inductive Built (sort : List Individual → List Individual) :
    List (List Nat) → Generation → Prop
  | new (index : Nat) (mutationRate crossoverRate : ℚ) :
      Built sort [] (Generation.new index mutationRate crossoverRate)
  | addIndividual (history : List (List Nat)) (g : Generation) (individual : List Nat) :
      Built sort history g → Built sort (history ++ [individual]) (g.addIndividual individual)
  | getNBest (history : List (List Nat)) (g : Generation) (n : Nat) :
      Built sort history g → Built sort history (g.getNBest sort n).2

/-- A generation of two 2-boards of equal fitness: `[0, 0]` added first, then `[1, 1]`. -/
def tied : Generation :=
  ((Generation.new 0 0 0).addIndividual [0, 0]).addIndividual [1, 1]

/-- A generation of two 4-boards: all queens in column 0, then a solution. -/
def sample : Generation :=
  ((Generation.new 0 0 0).addIndividual [0, 0, 0, 0]).addIndividual [1, 3, 0, 2]

end Generation

/-! ## The evolution engine -/

def POPULATION_SIZE : Nat := 500
def GENERATIONS : Nat := 10000
def CROSSOVER_RATE : ℚ := 85 / 100
def MUTATION_RATE : ℚ := 235 / 10000
def PREVIOUS_GEN_COUNT : Nat := 25
def PREVIOUS_GEN_CROSSOVER_COUNT : Nat := 125
def TOURNAMENT_SIZE : Nat := 10

/-- Seventeen different individuals for the 4-board, each of fitness `4`. -/
def Generation.tiedHistory : List (List Nat) :=
  [[0, 0, 0, 1], [0, 0, 0, 2], [0, 0, 0, 3], [0, 0, 1, 2], [0, 0, 2, 0], [0, 0, 2, 2],
    [0, 0, 2, 3], [0, 1, 1, 0], [0, 1, 1, 1], [0, 1, 1, 3], [0, 1, 2, 0], [0, 1, 2, 2],
    [0, 1, 3, 3], [0, 2, 0, 0], [0, 2, 1, 0], [0, 2, 2, 0], [0, 2, 2, 2]]

/-- The generation `run` starts from, with the individuals of `tiedHistory` added in order. -/
def Generation.tiedSeventeen : Generation :=
  Generation.tiedHistory.foldl Generation.addIndividual (Generation.new 0 MUTATION_RATE CROSSOVER_RATE)

/-- What `throw` raises. -/
inductive Exception where
  | out_of_range (what : String)
  deriving DecidableEq, Repr

/-- The data members of class `Genetic` (the mutex apart). -/
structure Genetic where
  m_dimension : Nat
  m_generationIndex : Nat
  m_mutationRate : ℚ
  m_crossoverRate : ℚ
  m_finished : Bool
  m_generations : List Generation

namespace Genetic

/-- The constructor `Genetic(N)` with the default member initialisers. -/
def new (N : Nat) : Genetic :=
  { m_dimension := N, m_generationIndex := 0, m_mutationRate := MUTATION_RATE,
    m_crossoverRate := CROSSOVER_RATE, m_finished := false, m_generations := [] }

/-- One iteration of the loop of `Genetic::generateIndividual`. -/
def generateStep (g : Genetic) (st : List Nat × List Nat) (_i : Nat) : List Nat × List Nat :=
  let d := uniformInt 0 (g.m_dimension - 1) st.2
  (st.1 ++ [d.1], d.2)

/-- The method `Genetic::generateIndividual`. -/
def generateIndividual (g : Genetic) (rng : List Nat) : List Nat × List Nat :=
  (List.range g.m_dimension).foldl (generateStep g) ([], rng)

/-- The loop `for (i = start; i < stop; i++) newIndividual.push_back(individual[i])`. -/
def pushGenes (individual : List Nat) (start stop : Nat) (newIndividual : List Nat) : List Nat :=
  (List.range' start (stop - start)).foldl
    (fun acc i => acc ++ [individual.getD i 0]) newIndividual

/-- The method `Genetic::crossoverIndividuals`: the first draw decides whether crossover
happens, the second is `crossoverStart`. The product `m_crossoverRate * 100` is exact here and
rounded to `float` in the source; `m_dimension - 1` is the source's value for
`m_dimension ≥ 1` only (at `0` the source builds the distribution `(0, -1)`). -/
def crossoverIndividuals (g : Genetic) (individual1 individual2 : List Nat) (rng : List Nat) :
    (List Nat × List Nat) × List Nat :=
  let p := uniformInt 0 100 rng
  if (p.1 : ℚ) > g.m_crossoverRate * 100 then ((individual1, individual2), p.2)
  else
    let c := uniformInt 0 (g.m_dimension - 1) p.2
    let crossoverStart := c.1
    -- first crossover
    let newIndividual := pushGenes individual1 0 crossoverStart []
    let newIndividual := pushGenes individual2 crossoverStart g.m_dimension newIndividual
    let first := newIndividual
    -- second crossover, after `newIndividual.clear()`
    let newIndividual := pushGenes individual1 0 crossoverStart []
    let newIndividual := pushGenes individual2 crossoverStart g.m_dimension newIndividual
    let second := newIndividual
    ((first, second), c.2)

/-- One iteration of the loop of `Genetic::mutateIndividual`, for gene `i`. The product
`m_mutationRate * 100` is exact here and rounded to `float` in the source. -/
def mutateStep (g : Genetic) (individual : List Nat) (st : List Nat × List Nat) (i : Nat) :
    List Nat × List Nat :=
  let p := uniformInt 0 100 st.2
  if (p.1 : ℚ) > g.m_mutationRate * 100 then (st.1 ++ [individual.getD i 0], p.2)
  else
    let d := uniformInt 0 (g.m_dimension - 1) p.2
    (st.1 ++ [d.1], d.2)

/-- The method `Genetic::mutateIndividual`. -/
def mutateIndividual (g : Genetic) (individual : List Nat) (rng : List Nat) :
    List Nat × List Nat :=
  (List.range g.m_dimension).foldl (mutateStep g individual) ([], rng)

/-- The random stream as `mutateIndividual` finds it when it reaches gene `i`: every gene
before it took one probability draw and, when mutated, one gene draw. -/
def streamAtGene (g : Genetic) (rng : List Nat) : Nat → List Nat
  | 0 => rng
  | i + 1 =>
    let p := uniformInt 0 100 (streamAtGene g rng i)
    if (p.1 : ℚ) > g.m_mutationRate * 100 then p.2
    else (uniformInt 0 (g.m_dimension - 1) p.2).2

/-- The `i`-th probability draw of `mutateIndividual`, the value of `distProba(gen)`. -/
def probaDraw (g : Genetic) (rng : List Nat) (i : Nat) : Nat :=
  (uniformInt 0 100 (streamAtGene g rng i)).1

/-- The value `distGene(gen)` drawn for gene `i` after its probability draw. -/
def geneDraw (g : Genetic) (rng : List Nat) (i : Nat) : Nat :=
  (uniformInt 0 (g.m_dimension - 1) (uniformInt 0 100 (streamAtGene g rng i)).2).1

/-- The `i`-th probability draw selects mutation: it is not above `m_mutationRate * 100`. -/
def selectsMutation (g : Genetic) (rng : List Nat) (i : Nat) : Prop :=
  ¬ ((probaDraw g rng i : ℚ) > g.m_mutationRate * 100)

/-- The loop body of `mutateIndividual` replaces the gene when its probability draw is `d`: run
on the one gene `1` with the gene draw `0` to follow, it pushes the drawn `0`, not the gene. -/
def replacesGene (g : Genetic) (d : Nat) : Bool :=
  (g.mutateStep [1] ([], [d, 0]) 0).1 == [0]

/-- The method `crossoverIndividuals` performs the crossover when its probability draw is `d`:
called on the parents `0 ... 0` and `1 ... 1` with the cut point draw `0` to follow, it does not
return the two parents. -/
def performsCrossover (g : Genetic) (d : Nat) : Bool :=
  (g.crossoverIndividuals (List.replicate g.m_dimension 0) (List.replicate g.m_dimension 1)
      [d, 0]).1
    != (List.replicate g.m_dimension 0, List.replicate g.m_dimension 1)

/-- The method `Genetic::getNthGeneration`: the result or the exception thrown, and the engine
after the call. -/
def getNthGeneration (g : Genetic) (N : Nat) : Except Exception Generation × Genetic :=
  if N ≥ g.m_generations.length then (.error (.out_of_range "Generation Out of range"), g)
  else (.ok (g.m_generations.getD N (Generation.new 0 0 0)), g)

/-- The method `Genetic::getGenerationsCount`. -/
def getGenerationsCount (g : Genetic) : Nat × Genetic := (g.m_generations.length, g)

/-- The method `Genetic::isFinished`. -/
def isFinished (g : Genetic) : Bool × Genetic := (g.m_finished, g)

/-- One iteration of the seeding loop of `Genetic::run`. -/
def seedStep (g : Genetic) (st : Generation × List Nat) (_i : Nat) : Generation × List Nat :=
  let individual := g.generateIndividual st.2
  (st.1.addIndividual individual.1, individual.2)

/-- One iteration of the elitism loop of `Genetic::run`, for one of the best individuals. -/
def eliteStep (g : Genetic) (st : Generation × List Nat) (individual : List Nat) :
    Generation × List Nat :=
  let m := g.mutateIndividual individual st.2
  (st.1.addIndividual m.1, m.2)

/-- Crossover of two parents followed by `addIndividual` of both mutated children. -/
def addOffspring (g : Genetic) (parent1 parent2 : List Nat) (newGen : Generation)
    (rng : List Nat) : Generation × List Nat :=
  let newIndividuals := g.crossoverIndividuals parent1 parent2 rng
  let m1 := g.mutateIndividual newIndividuals.1.1 newIndividuals.2
  let newGen1 := newGen.addIndividual m1.1
  let m2 := g.mutateIndividual newIndividuals.1.2 m1.2
  (newGen1.addIndividual m2.1, m2.2)

/-- One iteration of the elite-crossover loop of `Genetic::run`; the two parent draws are taken
left to right. -/
def eliteCrossoverStep (g : Genetic) (individuals : List (List Nat))
    (st : Generation × List Nat) (_j : Nat) : Generation × List Nat :=
  let d1 := uniformInt 0 (PREVIOUS_GEN_COUNT - 1) st.2
  let d2 := uniformInt 0 (PREVIOUS_GEN_COUNT - 1) d1.2
  addOffspring g (individuals.getD d1.1 []) (individuals.getD d2.1 []) st.1 d2.2

/-- One iteration of the tournament-fill loop of `Genetic::run`; the two tournaments are run
left to right. -/
def tournamentFillStep (g : Genetic) (prevGen : Generation)
    (st : Generation × List Nat) (_j : Nat) : Generation × List Nat :=
  let t1 := prevGen.getRandomTournament TOURNAMENT_SIZE st.2
  let t2 := prevGen.getRandomTournament TOURNAMENT_SIZE t1.2
  addOffspring g t1.1 t2.1 st.1 t2.2

/-- The body of the main loop of `Genetic::run` for loop index `i`, up to and including the
`push_back` of the new generation: the engine after it, the new generation, the stream. -/
def evolve (lib : StdLib) (i : Nat) (g : Genetic) (rng : List Nat) :
    Genetic × Generation × List Nat :=
  let g1 : Genetic :=
    { g with
      m_mutationRate := MUTATION_RATE * lib.expMutation i
      m_crossoverRate := CROSSOVER_RATE * lib.expCrossover i }
  let prevGen := g1.m_generations.getD (g1.m_generationIndex - 1) (Generation.new 0 0 0)
  let newGen := Generation.new g1.m_generationIndex g1.m_mutationRate g1.m_crossoverRate
  let g2 : Genetic := { g1 with m_generationIndex := g1.m_generationIndex + 1 }
  let best := prevGen.getNBest lib.sort PREVIOUS_GEN_COUNT
  let st1 := best.1.foldl (eliteStep g2) (newGen, rng)
  let best2 := best.2.getNBest lib.sort PREVIOUS_GEN_COUNT
  let individuals := best2.1
  let st2 := (List.range (PREVIOUS_GEN_CROSSOVER_COUNT / 2)).foldl
    (eliteCrossoverStep g2 individuals) st1
  let st3 := (List.range
    (POPULATION_SIZE - 2 * PREVIOUS_GEN_COUNT - 2 * (PREVIOUS_GEN_CROSSOVER_COUNT / 2))).foldl
    (tournamentFillStep g2 best2.2) st2
  ({ g2 with m_generations := g2.m_generations ++ [st3.1] }, st3.1, st3.2)

/-- The main loop of `Genetic::run` with `remaining` iterations left, at loop index `i`:
the value returned by `run`, the engine and the stream. -/
def runLoop (lib : StdLib) : (remaining : Nat) → (i : Nat) → Genetic → List Nat →
    Bool × Genetic × List Nat
  | 0, _, g, rng => (false, g, rng)
  | remaining + 1, i, g, rng =>
    let e := evolve lib i g rng
    if e.2.1.fitnessBest = 0 then (true, { e.1 with m_finished := true }, e.2.2)
    else runLoop lib remaining (i + 1) e.1 e.2.2

/-- The engine after `run` has published generation 0, and the stream. -/
def seed (g : Genetic) (rng : List Nat) : Genetic × List Nat :=
  let gen := Generation.new g.m_generationIndex MUTATION_RATE CROSSOVER_RATE
  let g1 : Genetic := { g with m_generationIndex := g.m_generationIndex + 1 }
  let st := (List.range POPULATION_SIZE).foldl (seedStep g1) (gen, rng)
  ({ g1 with m_generations := g1.m_generations ++ [st.1] }, st.2)

/-- The method `Genetic::run`: the loop index runs from `1` to `GENERATIONS - 1`. -/
def run (lib : StdLib) (g : Genetic) (rng : List Nat) : Bool × Genetic × List Nat :=
  let s := seed g rng
  runLoop lib (GENERATIONS - 1) 1 s.1 s.2

/-- The loop `pushGenes` with every read `individual[i]` checked. -/
def pushGenesChecked (individual : List Nat) (start stop : Nat) (newIndividual : List Nat) :
    Option (List Nat) :=
  (List.range' start (stop - start)).foldlM
    (fun acc i => (individual[i]?).map (fun x => acc ++ [x])) newIndividual

/-- The method `crossoverIndividuals` with every read of a parent gene checked. -/
def crossoverIndividualsChecked (g : Genetic) (individual1 individual2 : List Nat)
    (rng : List Nat) : Option ((List Nat × List Nat) × List Nat) :=
  let p := uniformInt 0 100 rng
  if (p.1 : ℚ) > g.m_crossoverRate * 100 then some ((individual1, individual2), p.2)
  else
    let c := uniformInt 0 (g.m_dimension - 1) p.2
    let crossoverStart := c.1
    (pushGenesChecked individual1 0 crossoverStart []).bind (fun newIndividual =>
    (pushGenesChecked individual2 crossoverStart g.m_dimension newIndividual).bind (fun first =>
    (pushGenesChecked individual1 0 crossoverStart []).bind (fun newIndividual =>
    (pushGenesChecked individual2 crossoverStart g.m_dimension newIndividual).bind
      (fun second => some ((first, second), c.2)))))

/-- One iteration of the loop of `mutateIndividual` with the read `individual[i]` checked. -/
def mutateStepChecked (g : Genetic) (individual : List Nat) (st : List Nat × List Nat)
    (i : Nat) : Option (List Nat × List Nat) :=
  let p := uniformInt 0 100 st.2
  if (p.1 : ℚ) > g.m_mutationRate * 100 then
    (individual[i]?).map (fun x => (st.1 ++ [x], p.2))
  else
    let d := uniformInt 0 (g.m_dimension - 1) p.2
    some (st.1 ++ [d.1], d.2)

/-- The method `mutateIndividual` with every read checked. -/
def mutateIndividualChecked (g : Genetic) (individual : List Nat) (rng : List Nat) :
    Option (List Nat × List Nat) :=
  (List.range g.m_dimension).foldlM (mutateStepChecked g individual) ([], rng)

/-- The step `eliteStep` with every read checked. -/
def eliteStepChecked (g : Genetic) (st : Generation × List Nat) (individual : List Nat) :
    Option (Generation × List Nat) :=
  (g.mutateIndividualChecked individual st.2).map (fun m => (st.1.addIndividual m.1, m.2))

/-- The step `addOffspring` with every read checked. -/
def addOffspringChecked (g : Genetic) (parent1 parent2 : List Nat) (newGen : Generation)
    (rng : List Nat) : Option (Generation × List Nat) :=
  (g.crossoverIndividualsChecked parent1 parent2 rng).bind (fun newIndividuals =>
  (g.mutateIndividualChecked newIndividuals.1.1 newIndividuals.2).bind (fun m1 =>
  (g.mutateIndividualChecked newIndividuals.1.2 m1.2).bind (fun m2 =>
    some ((newGen.addIndividual m1.1).addIndividual m2.1, m2.2))))

/-- The step `eliteCrossoverStep` with the elite picks `individuals[dist(gen)]` and every read
below them checked. -/
def eliteCrossoverStepChecked (g : Genetic) (individuals : List (List Nat))
    (st : Generation × List Nat) (_j : Nat) : Option (Generation × List Nat) :=
  let d1 := uniformInt 0 (PREVIOUS_GEN_COUNT - 1) st.2
  let d2 := uniformInt 0 (PREVIOUS_GEN_COUNT - 1) d1.2
  (individuals[d1.1]?).bind (fun parent1 =>
  (individuals[d2.1]?).bind (fun parent2 =>
    addOffspringChecked g parent1 parent2 st.1 d2.2))

/-- The step `tournamentFillStep` with every read checked. -/
def tournamentFillStepChecked (g : Genetic) (prevGen : Generation)
    (st : Generation × List Nat) (_j : Nat) : Option (Generation × List Nat) :=
  (prevGen.getRandomTournamentChecked TOURNAMENT_SIZE st.2).bind (fun t1 =>
  (prevGen.getRandomTournamentChecked TOURNAMENT_SIZE t1.2).bind (fun t2 =>
    addOffspringChecked g t1.1 t2.1 st.1 t2.2))

/-- The three loops of the body of the main loop of `run` (elitism, elite crossover, tournament
fill) with every vector read checked, for the engine `g2`, the copy `prevGen` of the previous
generation and the generation `newGen` under construction. -/
def evolveBodyChecked (lib : StdLib) (g2 : Genetic) (prevGen newGen : Generation)
    (rng : List Nat) : Option (Generation × List Nat) :=
  (prevGen.getNBestChecked lib.sort PREVIOUS_GEN_COUNT).bind (fun best =>
  (best.1.foldlM (eliteStepChecked g2) (newGen, rng)).bind (fun st1 =>
  (best.2.getNBestChecked lib.sort PREVIOUS_GEN_COUNT).bind (fun best2 =>
  ((List.range (PREVIOUS_GEN_CROSSOVER_COUNT / 2)).foldlM
    (eliteCrossoverStepChecked g2 best2.1) st1).bind (fun st2 =>
  (List.range
    (POPULATION_SIZE - 2 * PREVIOUS_GEN_COUNT - 2 * (PREVIOUS_GEN_CROSSOVER_COUNT / 2))).foldlM
    (tournamentFillStepChecked g2 best2.2) st2))))

/-- The body `evolve` of the main loop with every vector read checked; with
`m_generationIndex = 0` the index `m_generationIndex - 1` wraps around to `SIZE_MAX`, which is
out of bounds. -/
def evolveChecked (lib : StdLib) (i : Nat) (g : Genetic) (rng : List Nat) :
    Option (Genetic × Generation × List Nat) :=
  let g1 : Genetic :=
    { g with
      m_mutationRate := MUTATION_RATE * lib.expMutation i
      m_crossoverRate := CROSSOVER_RATE * lib.expCrossover i }
  (if g1.m_generationIndex = 0 then none
    else g1.m_generations[g1.m_generationIndex - 1]?).bind (fun prevGen =>
  let newGen := Generation.new g1.m_generationIndex g1.m_mutationRate g1.m_crossoverRate
  let g2 : Genetic := { g1 with m_generationIndex := g1.m_generationIndex + 1 }
  (evolveBodyChecked lib g2 prevGen newGen rng).map (fun st3 =>
    ({ g2 with m_generations := g2.m_generations ++ [st3.1] }, st3.1, st3.2)))

/-- The main loop `runLoop` with every vector read checked. -/
def runLoopChecked (lib : StdLib) : (remaining : Nat) → (i : Nat) → Genetic → List Nat →
    Option (Bool × Genetic × List Nat)
  | 0, _, g, rng => some (false, g, rng)
  | remaining + 1, i, g, rng =>
    (evolveChecked lib i g rng).bind (fun e =>
      if e.2.1.fitnessBest = 0 then some (true, { e.1 with m_finished := true }, e.2.2)
      else runLoopChecked lib remaining (i + 1) e.1 e.2.2)

/-- The method `run` with every vector read checked: `none` as soon as an index is out of
bounds, otherwise the result of `run`. Seeding reads no vector. -/
def runChecked (lib : StdLib) (g : Genetic) (rng : List Nat) :
    Option (Bool × Genetic × List Nat) :=
  let s := seed g rng
  runLoopChecked lib (GENERATIONS - 1) 1 s.1 s.2

/-- Every individual of the generation is an individual for the `N`-board, stored with its
fitness. -/
def AllValid (N : Nat) (gen : Generation) : Prop :=
  ∀ p ∈ gen.m_individuals, ValidIndividual N p.1 ∧ p.2 = getFitness p.1

/-- The state of the engine between two iterations of the main loop of `run`: the counter is
the number of published generations, and the last published generation holds at least
`PREVIOUS_GEN_COUNT` individuals, all of them for the board of the engine. -/
def LoopInv (g : Genetic) : Prop :=
  0 < g.m_dimension ∧
  g.m_generationIndex = g.m_generations.length ∧
  ∃ gens last, g.m_generations = gens ++ [last] ∧
    PREVIOUS_GEN_COUNT ≤ last.m_individuals.length ∧ AllValid g.m_dimension last

end Genetic

/-! ## Fitness: lemmas -/

theorem castInt_of_lt {x : Nat} (h : x < 2 ^ 31) : castInt x = (x : Int) := by
  unfold castInt
  have h1 : x % 2 ^ 32 = x := Nat.mod_eq_of_lt (by omega)
  rw [h1, if_pos h]

/-- The attack loop over rows different from `row` adds one per column hit and one per diagonal hit. -/
theorem foldl_attackStep (row : Nat) (individual : List Nat) (P Q : Nat → Prop)
    [DecidablePred P] [DecidablePred Q] :
    ∀ (l : List Nat) (acc : Nat), (∀ i ∈ l, i ≠ row) →
      (∀ i ∈ l, (individual.getD row 0 = individual.getD i 0 ↔ P i)) →
      (∀ i ∈ l, ((castInt row - castInt i).natAbs
        = (castInt (individual.getD row 0) - castInt (individual.getD i 0)).natAbs ↔ Q i)) →
      l.foldl (attackStep row individual) acc = acc + l.countP P + l.countP Q := by
  intro l
  induction l with
  | nil => intro acc _ _ _; simp
  | cons i l ih =>
    intro acc hne hP hQ
    have hi : i ≠ row := hne i (List.mem_cons_self _ _)
    have hPi := hP i (List.mem_cons_self _ _)
    have hQi := hQ i (List.mem_cons_self _ _)
    rw [List.foldl_cons, ih _ (fun j hj => hne j (List.mem_cons_of_mem _ hj))
      (fun j hj => hP j (List.mem_cons_of_mem _ hj))
      (fun j hj => hQ j (List.mem_cons_of_mem _ hj))]
    rw [List.countP_cons, List.countP_cons]
    unfold attackStep
    rw [if_neg hi]
    simp only [decide_eq_true_eq]
    by_cases h1 : P i <;> by_cases h2 : Q i
    · rw [if_pos (hQi.mpr h2), if_pos (hPi.mpr h1), if_pos h1, if_pos h2]; omega
    · rw [if_neg (fun h => h2 (hQi.mp h)), if_pos (hPi.mpr h1), if_pos h1, if_neg h2]; omega
    · rw [if_pos (hQi.mpr h2), if_neg (fun h => h1 (hPi.mp h)), if_neg h1, if_pos h2]; omega
    · rw [if_neg (fun h => h2 (hQi.mp h)), if_neg (fun h => h1 (hPi.mp h)), if_neg h1,
        if_neg h2]
      omega

/-- Summing with `foldl` is the sum of the mapped list. -/
theorem foldl_add_eq_sum (g : Nat → Nat) :
    ∀ (l : List Nat) (acc : Nat), l.foldl (fun s i => s + g i) acc = acc + (l.map g).sum := by
  intro l
  induction l with
  | nil => intro acc; simp
  | cons a l ih => intro acc; rw [List.foldl_cons, ih]; simp [Nat.add_assoc]

theorem sum_map_range_eq (g : Nat → Nat) (n : Nat) :
    ((List.range n).map g).sum = ∑ i in Finset.range n, g i := by
  induction n with
  | zero => simp
  | succ n ih => rw [List.range_succ, List.map_append, List.sum_append, ih,
      Finset.sum_range_succ]; simp

/-- Counting over the rows after `r` is counting the later rows below `N`. -/
theorem countP_range_after (N r : Nat) (P : Nat → Prop) [DecidablePred P] (hr : r < N) :
    (List.range' (r + 1) (N - r - 1)).countP P
      = ((Finset.range N).filter (fun r2 => r < r2 ∧ P r2)).card := by
  rw [List.countP_eq_length_filter]
  have hnd : ((List.range' (r + 1) (N - r - 1)).filter (fun b => decide (P b))).Nodup :=
    (List.nodup_range' _ _).filter _
  rw [← List.toFinset_card_of_nodup hnd]
  congr 1
  ext x
  simp only [List.mem_toFinset, List.mem_filter, List.mem_range'_1, Finset.mem_filter,
    Finset.mem_range, decide_eq_true_eq]
  constructor
  · rintro ⟨⟨h1, h2⟩, h3⟩; exact ⟨by omega, by omega, h3⟩
  · rintro ⟨h1, h2, h3⟩; exact ⟨⟨by omega, by omega⟩, h3⟩

theorem card_rowPairs (N : Nat) (P : Nat → Nat → Prop) [∀ a b, Decidable (P a b)] :
    (rowPairs N P).card
      = ∑ r in Finset.range N, ((Finset.range N).filter (fun r2 => r < r2 ∧ P r r2)).card := by
  unfold rowPairs
  rw [Finset.card_filter, Finset.sum_product]
  refine Finset.sum_congr rfl (fun r _ => ?_)
  rw [Finset.card_filter]

/-- On a valid individual below the `int` range the casts are exact. -/
theorem col_lt_of_valid {N : Nat} {individual : List Nat} (h : ValidIndividual N individual)
    {r : Nat} (hr : r < N) : col individual r < N := by
  unfold col
  obtain ⟨hlen, hval⟩ := h
  have hr2 : r < individual.length := by omega
  rw [List.getD_eq_getElem _ _ hr2]
  exact hval _ (List.getElem_mem _)

theorem attackCount_eq {N : Nat} {individual : List Nat} (h : ValidIndividual N individual)
    (hN : N ≤ 2 ^ 31) {r : Nat} (hr : r < N) :
    attackCount r individual
      = ((Finset.range N).filter (fun r2 => r < r2 ∧ sameColumn individual r r2)).card
        + ((Finset.range N).filter (fun r2 => r < r2 ∧ diagonal individual r r2)).card := by
  have hlen := h.1
  unfold attackCount
  have hsplit : List.range' r (individual.length - r)
      = r :: List.range' (r + 1) (N - r - 1) := by
    have : individual.length - r = (N - r - 1) + 1 := by omega
    rw [this, List.range'_succ]
  rw [hsplit, List.foldl_cons]
  have h0 : attackStep r individual 0 r = 0 := by unfold attackStep; simp
  rw [h0, foldl_attackStep r individual (fun r2 => sameColumn individual r r2)
    (fun r2 => diagonal individual r r2)]
  · rw [countP_range_after N r _ hr, countP_range_after N r _ hr]; omega
  · intro i hi; rw [List.mem_range'_1] at hi; omega
  · intro i _; exact Iff.rfl
  · intro i hi
    rw [List.mem_range'_1] at hi
    have hi2 : i < N := by omega
    have c1 := col_lt_of_valid h hr
    have c2 := col_lt_of_valid h hi2
    unfold col at c1 c2
    rw [castInt_of_lt (by omega : r < 2 ^ 31), castInt_of_lt (by omega : i < 2 ^ 31),
      castInt_of_lt (by omega : individual.getD r 0 < 2 ^ 31),
      castInt_of_lt (by omega : individual.getD i 0 < 2 ^ 31)]
    unfold diagonal col
    rw [Int.abs_eq_natAbs, Int.abs_eq_natAbs]
    exact Int.natCast_inj.symm

theorem getFitness_eq_sum (individual : List Nat) :
    getFitness individual
      = ∑ r in Finset.range individual.length, attackCount r individual := by
  unfold getFitness
  rw [foldl_add_eq_sum (fun i => attackCount i individual), Nat.zero_add, sum_map_range_eq]

theorem rowPairs_card_eq_zero_iff (N : Nat) (P : Nat → Nat → Prop) [∀ a b, Decidable (P a b)] :
    (rowPairs N P).card = 0 ↔ ∀ r1 r2, r1 < r2 → r2 < N → ¬ P r1 r2 := by
  unfold rowPairs
  rw [Finset.card_eq_zero, Finset.filter_eq_empty_iff]
  constructor
  · intro h r1 r2 h12 h2 hP
    exact h (x := (r1, r2)) (by simp; omega) ⟨h12, hP⟩
  · rintro h ⟨r1, r2⟩ hmem ⟨h12, hP⟩
    simp only [Finset.mem_product, Finset.mem_range] at hmem
    exact h r1 r2 h12 hmem.2 hP

theorem diagonal_symm (individual : List Nat) (r1 r2 : Nat) :
    diagonal individual r1 r2 ↔ diagonal individual r2 r1 := by
  unfold diagonal
  rw [abs_sub_comm (r1 : Int), abs_sub_comm (col individual r1 : Int)]

/-! ## Fitness: the claims -/

/-- The fitness as two counts of row pairs. -/
theorem getFitness_pairs {N : Nat} {individual : List Nat}
    (h : ValidIndividual N individual) (hN : N ≤ 2 ^ 31) :
    getFitness individual
      = (rowPairs N (sameColumn individual)).card + (rowPairs N (diagonal individual)).card := by
  rw [getFitness_eq_sum, h.1, card_rowPairs, card_rowPairs, ← Finset.sum_add_distrib]
  refine Finset.sum_congr rfl (fun r hr => ?_)
  exact attackCount_eq h hN (Finset.mem_range.mp hr)

/-- C1: on an individual for an `N`-board (length `N`, columns in `[0, N-1]`, `N` within the
range of `int`), `getFitness` is the number of row pairs `r1 < r2` with equal columns plus the
number of row pairs `r1 < r2` with `|r1 - r2| = |col r1 - col r2|`. -/
theorem getFitness_eq_pair_counts (N : Nat) (individual : List Nat)
    (h : ValidIndividual N individual) (hN : N ≤ 2 ^ 31) :
    getFitness individual
      = ((Finset.range N ×ˢ Finset.range N).filter
          (fun p => p.1 < p.2 ∧ col individual p.1 = col individual p.2)).card
        + ((Finset.range N ×ˢ Finset.range N).filter
          (fun p => p.1 < p.2 ∧
            |(p.1 : Int) - (p.2 : Int)|
              = |(col individual p.1 : Int) - (col individual p.2 : Int)|)).card :=
  getFitness_pairs h hN

theorem getFitness_eq_pair_counts_witness :
    ValidIndividual 4 [1, 1, 2, 0] ∧ 4 ≤ 2 ^ 31 ∧ getFitness [1, 1, 2, 0] = 2 ∧
      getFitness [1, 1, 2, 0]
        = ((Finset.range 4 ×ˢ Finset.range 4).filter
            (fun p => p.1 < p.2 ∧ col [1, 1, 2, 0] p.1 = col [1, 1, 2, 0] p.2)).card
          + ((Finset.range 4 ×ˢ Finset.range 4).filter
            (fun p => p.1 < p.2 ∧
              |(p.1 : Int) - (p.2 : Int)|
                = |(col [1, 1, 2, 0] p.1 : Int) - (col [1, 1, 2, 0] p.2 : Int)|)).card :=
  ⟨by decide, by decide, by decide,
    getFitness_eq_pair_counts 4 [1, 1, 2, 0] (by decide) (by decide)⟩

/-- C2: on an individual for an `N`-board, `getFitness` is `0` exactly when the placement is a
valid N-queens placement: no two distinct rows share a column and no two distinct rows are
diagonally aligned. -/
theorem getFitness_eq_zero_iff (N : Nat) (individual : List Nat)
    (h : ValidIndividual N individual) (hN : N ≤ 2 ^ 31) :
    getFitness individual = 0 ↔
      ∀ r1 r2, r1 < N → r2 < N → r1 ≠ r2 →
        col individual r1 ≠ col individual r2 ∧ ¬ diagonal individual r1 r2 := by
  rw [getFitness_pairs h hN, Nat.add_eq_zero_iff,
    rowPairs_card_eq_zero_iff, rowPairs_card_eq_zero_iff]
  constructor
  · rintro ⟨hc, hd⟩ r1 r2 h1 h2 hne
    rcases Nat.lt_or_gt_of_ne hne with hlt | hgt
    · exact ⟨hc r1 r2 hlt h2, hd r1 r2 hlt h2⟩
    · exact ⟨fun e => hc r2 r1 hgt h1 e.symm,
        fun e => hd r2 r1 hgt h1 ((diagonal_symm individual r1 r2).mp e)⟩
  · intro hall
    exact ⟨fun r1 r2 h12 h2 => (hall r1 r2 (by omega) h2 (by omega)).1,
      fun r1 r2 h12 h2 => (hall r1 r2 (by omega) h2 (by omega)).2⟩

theorem getFitness_eq_zero_iff_witness :
    ValidIndividual 4 [1, 3, 0, 2] ∧ 4 ≤ 2 ^ 31 ∧
      (getFitness [1, 3, 0, 2] = 0 ↔
        ∀ r1 r2, r1 < 4 → r2 < 4 → r1 ≠ r2 →
          col [1, 3, 0, 2] r1 ≠ col [1, 3, 0, 2] r2 ∧ ¬ diagonal [1, 3, 0, 2] r1 r2) :=
  ⟨by decide, by decide, getFitness_eq_zero_iff 4 [1, 3, 0, 2] (by decide) (by decide)⟩

/-! ## Lists built by `push_back` loops -/

theorem foldl_push_eq {α : Type} (f : Nat → α) :
    ∀ (l : List Nat) (acc : List α),
      l.foldl (fun acc i => acc ++ [f i]) acc = acc ++ l.map f := by
  intro l
  induction l with
  | nil => intro acc; simp
  | cons a l ih => intro acc; rw [List.foldl_cons, ih]; simp

theorem map_getD_range' {α : Type} (d : α) (l : List α) :
    ∀ (k s : Nat), s + k ≤ l.length →
      (List.range' s k).map (fun i => l.getD i d) = (l.drop s).take k := by
  intro k
  induction k with
  | zero => intro s _; simp
  | succ k ih =>
    intro s hs
    have hlt : s < l.length := by omega
    rw [List.range'_succ, List.map_cons, ih (s + 1) (by omega), List.getD_eq_getElem _ _ hlt,
      List.drop_eq_getElem_cons hlt, List.take_succ_cons]

theorem map_getD_range {α : Type} (d : α) (l : List α) (n : Nat) (hn : n ≤ l.length) :
    (List.range n).map (fun i => l.getD i d) = l.take n := by
  rw [List.range_eq_range', map_getD_range' d l n 0 (by omega), List.drop_zero]

/-! ## Generation: ranking -/

namespace Generation

theorem getNBest_of_gt (sort : List Individual → List Individual) (g : Generation) (n : Nat)
    (h : n > g.m_individuals.length) : g.getNBest sort n = ([], g) := by
  unfold getNBest; rw [if_pos h]

theorem getNBest_of_le (sort : List Individual → List Individual) (g : Generation) (n : Nat)
    (h : n ≤ g.m_individuals.length) (hs : SortContract sort) :
    g.getNBest sort n
      = (((ranked sort g).take n).map Prod.fst,
          { g with m_individuals := ranked sort g, m_sorted := true }) := by
  unfold getNBest ranked
  rw [if_neg (by omega)]
  cases hsd : g.m_sorted
  · have hl : n ≤ (sort g.m_individuals).length := by rw [(hs _).1.length_eq]; exact h
    simp only [Bool.not_false, if_true, Bool.false_eq_true, if_false]
    rw [foldl_push_eq (fun i => ((sort g.m_individuals).getD i ([], 0)).1), List.nil_append,
      ← map_getD_range ([], 0) _ n hl, List.map_map]
    rfl
  · simp only [Bool.not_true, Bool.false_eq_true, if_false, if_true]
    rw [foldl_push_eq (fun i => (g.m_individuals.getD i ([], 0)).1), List.nil_append,
      ← map_getD_range ([], 0) _ n h, List.map_map]
    congr 1
    cases g; simp_all

theorem ranked_perm (sort : List Individual → List Individual) (hs : SortContract sort)
    (g : Generation) : (ranked sort g).Perm g.m_individuals := by
  unfold ranked
  split
  · exact List.Perm.refl _
  · exact (hs _).1

theorem inv_ranked_sorted {sort : List Individual → List Individual} (hs : SortContract sort)
    {g : Generation} (hg : g.Inv) : (ranked sort g).Pairwise (fun a b => a.2 ≤ b.2) := by
  unfold ranked
  split
  · next h => exact hg.1 h
  · exact ((hs _).2).imp (fun h => Nat.le_of_not_lt h)

theorem inv_new (index : Nat) (m c : ℚ) : (Generation.new index m c).Inv := by
  constructor
  · intro h; simp [Generation.new] at h
  · intro p hp; simp [Generation.new] at hp

theorem inv_addIndividual {g : Generation} (hg : g.Inv) (individual : List Nat) :
    (g.addIndividual individual).Inv := by
  constructor
  · intro h; simp [Generation.addIndividual] at h
  · intro p hp
    simp only [Generation.addIndividual, List.mem_append, List.mem_singleton] at hp
    rcases hp with hp | hp
    · exact hg.2 p hp
    · rw [hp]

theorem inv_getNBest {sort : List Individual → List Individual} (hs : SortContract sort)
    {g : Generation} (hg : g.Inv) (n : Nat) : (g.getNBest sort n).2.Inv := by
  by_cases h : n > g.m_individuals.length
  · rw [getNBest_of_gt sort g n h]; exact hg
  · rw [getNBest_of_le sort g n (by omega) hs]
    constructor
    · intro _; exact inv_ranked_sorted hs hg
    · intro p hp; exact hg.2 p ((ranked_perm sort hs g).mem_iff.mp hp)

theorem reachable_inv {sort : List Individual → List Individual} (hs : SortContract sort)
    {g : Generation} (hg : g.Reachable sort) : g.Inv := by
  induction hg with
  | new index m c => exact inv_new index m c
  | addIndividual g individual _ ih => exact inv_addIndividual ih individual
  | getNBest g n _ ih => exact inv_getNBest hs ih n

end Generation

theorem insertionSortByFitness_contract : SortContract insertionSortByFitness := by
  intro l
  refine ⟨List.perm_insertionSort _ l, ?_⟩
  have hsorted : (insertionSortByFitness l).Pairwise (fun a b : Individual => a.2 ≤ b.2) := by
    have : IsTotal Individual (fun a b => a.2 ≤ b.2) := ⟨fun a b => Nat.le_total a.2 b.2⟩
    have : IsTrans Individual (fun a b => a.2 ≤ b.2) := ⟨fun a b c h1 h2 => Nat.le_trans h1 h2⟩
    exact List.sorted_insertionSort (fun a b : Individual => a.2 ≤ b.2) l
  exact hsorted.imp (fun h => Nat.not_lt.mpr h)

/-- C3: on a generation of size `P` (built by the constructor, `addIndividual` and `getNBest`),
`getNBest n` is empty when `n > P`; when `n ≤ P` it has exactly `n` encodings, they are `n`
individuals of the population (with the rest they make up the population), every returned
one has fitness at most that of every one left out, and they are listed in non-decreasing
fitness order. -/
theorem getNBest_lowest_sorted (sort : List Individual → List Individual)
    (hs : SortContract sort) (g : Generation) (hg : g.Reachable sort) (n : Nat) :
    (n > g.m_individuals.length → (g.getNBest sort n).1 = []) ∧
    (n ≤ g.m_individuals.length →
      (g.getNBest sort n).1.length = n ∧
      (∃ rest : List (List Nat),
        ((g.getNBest sort n).1 ++ rest).Perm (g.m_individuals.map Prod.fst) ∧
        ∀ a ∈ (g.getNBest sort n).1, ∀ b ∈ rest, getFitness a ≤ getFitness b) ∧
      (g.getNBest sort n).1.Pairwise (fun a b => getFitness a ≤ getFitness b)) := by
  have hinv := Generation.reachable_inv hs hg
  refine ⟨fun h => by rw [Generation.getNBest_of_gt sort g n h], fun h => ?_⟩
  rw [Generation.getNBest_of_le sort g n h hs]
  have hperm := Generation.ranked_perm sort hs g
  have hsorted := Generation.inv_ranked_sorted hs hinv
  have hfit : ∀ p ∈ Generation.ranked sort g, p.2 = getFitness p.1 :=
    fun p hp => hinv.2 p (hperm.mem_iff.mp hp)
  have hlen : n ≤ (Generation.ranked sort g).length := by rw [hperm.length_eq]; exact h
  rw [← List.take_append_drop n (Generation.ranked sort g)] at hsorted
  rw [List.pairwise_append] at hsorted
  obtain ⟨hs1, _, hs3⟩ := hsorted
  refine ⟨?_, ⟨((Generation.ranked sort g).drop n).map Prod.fst, ?_, ?_⟩, ?_⟩
  · simp only [List.length_map, List.length_take]; omega
  · rw [← List.map_append, List.take_append_drop]
    exact hperm.map _
  · intro a ha b hb
    simp only [List.mem_map] at ha hb
    obtain ⟨pa, hpa, rfl⟩ := ha
    obtain ⟨pb, hpb, rfl⟩ := hb
    rw [← hfit pa (List.mem_of_mem_take hpa), ← hfit pb (List.mem_of_mem_drop hpb)]
    exact hs3 pa hpa pb hpb
  · rw [List.pairwise_map]
    refine List.Pairwise.imp_of_mem ?_ hs1
    intro pa pb hpa hpb hle
    rw [← hfit pa (List.mem_of_mem_take hpa), ← hfit pb (List.mem_of_mem_take hpb)]
    exact hle

theorem getNBest_lowest_sorted_witness :
    SortContract insertionSortByFitness ∧
    Generation.Reachable insertionSortByFitness Generation.sample ∧
    (Generation.sample.getNBest insertionSortByFitness 1).1 = [[1, 3, 0, 2]] ∧
    ((1 > Generation.sample.m_individuals.length →
        (Generation.sample.getNBest insertionSortByFitness 1).1 = []) ∧
    (1 ≤ Generation.sample.m_individuals.length →
      (Generation.sample.getNBest insertionSortByFitness 1).1.length = 1 ∧
      (∃ rest : List (List Nat),
        ((Generation.sample.getNBest insertionSortByFitness 1).1 ++ rest).Perm
          (Generation.sample.m_individuals.map Prod.fst) ∧
        ∀ a ∈ (Generation.sample.getNBest insertionSortByFitness 1).1, ∀ b ∈ rest,
          getFitness a ≤ getFitness b) ∧
      (Generation.sample.getNBest insertionSortByFitness 1).1.Pairwise
        (fun a b => getFitness a ≤ getFitness b))) :=
  ⟨insertionSortByFitness_contract,
    Generation.Reachable.addIndividual _ _
      (Generation.Reachable.addIndividual _ _ (Generation.Reachable.new 0 0 0)),
    by decide,
    getNBest_lowest_sorted insertionSortByFitness insertionSortByFitness_contract
      Generation.sample
      (Generation.Reachable.addIndividual _ _
        (Generation.Reachable.addIndividual _ _ (Generation.Reachable.new 0 0 0))) 1⟩

/-! ## The engine: readers -/

/-- C4: `getNthGeneration i` throws the out-of-range exception exactly when
`i ≥ getGenerationsCount()`; otherwise it returns the generation at position `i` of the
published sequence; in both cases the engine, its published sequence included, is unchanged. -/
theorem getNthGeneration_spec (g : Genetic) (i : Nat) :
    ((∃ e, (g.getNthGeneration i).1 = Except.error e) ↔ i ≥ g.getGenerationsCount.1) ∧
    ((g.getNthGeneration i).1 = Except.error (Exception.out_of_range "Generation Out of range")
      ↔ i ≥ g.getGenerationsCount.1) ∧
    (∀ h : i < g.m_generations.length,
      (g.getNthGeneration i).1 = Except.ok (g.m_generations.get ⟨i, h⟩)) ∧
    (g.getNthGeneration i).2 = g ∧
    (g.getNthGeneration i).2.m_generations = g.m_generations := by
  unfold Genetic.getNthGeneration Genetic.getGenerationsCount
  by_cases h : i ≥ g.m_generations.length
  · rw [if_pos h]
    refine ⟨⟨fun _ => h, fun _ => ⟨_, rfl⟩⟩, ⟨fun _ => h, fun _ => rfl⟩, ?_, rfl, rfl⟩
    intro h2; omega
  · rw [if_neg h]
    refine ⟨⟨?_, fun h2 => absurd h2 h⟩, ⟨?_, fun h2 => absurd h2 h⟩, ?_, rfl, rfl⟩
    · rintro ⟨e, he⟩; cases he
    · intro he; cases he
    · intro h2
      rw [List.getD_eq_getElem _ _ h2]
      rfl

/-! ## Crossover -/

theorem uniformInt_le (lo hi : Nat) (h : lo ≤ hi) (rng : List Nat) :
    lo ≤ (uniformInt lo hi rng).1 ∧ (uniformInt lo hi rng).1 ≤ hi := by
  unfold uniformInt
  cases rng with
  | nil => exact ⟨Nat.le_refl _, h⟩
  | cons r rest =>
    have := Nat.mod_lt r (by omega : hi - lo + 1 > 0)
    constructor <;> simp only <;> omega

theorem uniformInt_snd (lo hi : Nat) (rng : List Nat) : (uniformInt lo hi rng).2 = rng.drop 1 := by
  unfold uniformInt
  cases rng <;> rfl

theorem pushGenes_eq (individual : List Nat) (start stop : Nat) (acc : List Nat)
    (h : stop ≤ individual.length) :
    Genetic.pushGenes individual start stop acc
      = acc ++ (individual.drop start).take (stop - start) := by
  unfold Genetic.pushGenes
  rw [foldl_push_eq (fun i => individual.getD i 0)]
  by_cases hs : start ≤ stop
  · rw [map_getD_range' 0 individual (stop - start) start (by omega)]
  · have : stop - start = 0 := by omega
    rw [this]; simp

/-- Both children built by the crossover branch, as slices of the parents. -/
theorem crossoverIndividuals_branch (g : Genetic) (a b : List Nat) (rng : List Nat)
    (ha : a.length = g.m_dimension) (hb : b.length = g.m_dimension) (hN : 0 < g.m_dimension)
    (hbranch : ¬ (((uniformInt 0 100 rng).1 : ℚ) > g.m_crossoverRate * 100)) (c : Nat)
    (hc : (uniformInt 0 (g.m_dimension - 1) (uniformInt 0 100 rng).2).1 = c) :
    c ≤ g.m_dimension - 1 ∧
    (g.crossoverIndividuals a b rng).1 = (a.take c ++ b.drop c, a.take c ++ b.drop c) := by
  have hcle : c ≤ g.m_dimension - 1 := by
    rw [← hc]; exact (uniformInt_le 0 _ (Nat.zero_le _) _).2
  refine ⟨hcle, ?_⟩
  unfold Genetic.crossoverIndividuals
  rw [if_neg hbranch]
  simp only [hc]
  rw [pushGenes_eq a 0 c [] (by omega), pushGenes_eq b c g.m_dimension _ (by omega)]
  have h1 : (b.drop c).take (g.m_dimension - c) = b.drop c := by
    apply List.take_of_length_le
    rw [List.length_drop]; omega
  rw [h1]; simp

/-- C5: when `crossoverIndividuals` takes the crossover branch with cut point `c`
(`0 ≤ c ≤ N-1`) on parents `a`, `b` of length `N`, the first child is `a[0:c] ++ b[c:N]`:
its length is `N`, row `i < c` is `a[i]` and row `i ≥ c` is `b[i]`. -/
theorem crossover_first_child (g : Genetic) (a b : List Nat) (rng : List Nat)
    (ha : a.length = g.m_dimension) (hb : b.length = g.m_dimension) (hN : 0 < g.m_dimension)
    (hbranch : ¬ (((uniformInt 0 100 rng).1 : ℚ) > g.m_crossoverRate * 100)) (c : Nat)
    (hc : (uniformInt 0 (g.m_dimension - 1) (uniformInt 0 100 rng).2).1 = c) :
    c ≤ g.m_dimension - 1 ∧
    (g.crossoverIndividuals a b rng).1.1 = a.take c ++ b.drop c ∧
    (g.crossoverIndividuals a b rng).1.1.length = g.m_dimension ∧
    (∀ i, i < c → (g.crossoverIndividuals a b rng).1.1.getD i 0 = a.getD i 0) ∧
    (∀ i, c ≤ i → i < g.m_dimension →
      (g.crossoverIndividuals a b rng).1.1.getD i 0 = b.getD i 0) := by
  obtain ⟨hcle, heq⟩ := crossoverIndividuals_branch g a b rng ha hb hN hbranch c hc
  rw [heq]
  have hlt : (a.take c).length = c := by rw [List.length_take]; omega
  refine ⟨hcle, rfl, ?_, ?_, ?_⟩
  · simp only [List.length_append, List.length_take, List.length_drop]; omega
  · intro i hi
    simp only [List.getD_eq_getElem?_getD]
    rw [List.getElem?_append_left (by omega), List.getElem?_take_of_lt hi]
  · intro i hci hi
    simp only [List.getD_eq_getElem?_getD]
    rw [List.getElem?_append_right (by omega), hlt, List.getElem?_drop]
    congr 2
    omega

theorem sample_crossover_branch :
    ¬ (((uniformInt 0 100 [0, 2]).1 : ℚ) > (Genetic.new 4).m_crossoverRate * 100) := by
  simp only [uniformInt, Genetic.new, CROSSOVER_RATE]
  norm_num

theorem crossover_first_child_witness :
    [0, 0, 0, 0].length = (Genetic.new 4).m_dimension ∧
    [1, 1, 1, 1].length = (Genetic.new 4).m_dimension ∧
    (uniformInt 0 ((Genetic.new 4).m_dimension - 1) (uniformInt 0 100 [0, 2]).2).1 = 2 ∧
    2 ≤ (Genetic.new 4).m_dimension - 1 ∧
    ((Genetic.new 4).crossoverIndividuals [0, 0, 0, 0] [1, 1, 1, 1] [0, 2]).1.1
      = [0, 0, 0, 0].take 2 ++ [1, 1, 1, 1].drop 2 ∧
    ((Genetic.new 4).crossoverIndividuals [0, 0, 0, 0] [1, 1, 1, 1] [0, 2]).1.1.length
      = (Genetic.new 4).m_dimension ∧
    (∀ i, i < 2 →
      ((Genetic.new 4).crossoverIndividuals [0, 0, 0, 0] [1, 1, 1, 1] [0, 2]).1.1.getD i 0
        = [0, 0, 0, 0].getD i 0) ∧
    (∀ i, 2 ≤ i → i < (Genetic.new 4).m_dimension →
      ((Genetic.new 4).crossoverIndividuals [0, 0, 0, 0] [1, 1, 1, 1] [0, 2]).1.1.getD i 0
        = [1, 1, 1, 1].getD i 0) :=
  ⟨rfl, rfl, by decide,
    crossover_first_child (Genetic.new 4) [0, 0, 0, 0] [1, 1, 1, 1] [0, 2] rfl rfl
      (by decide) sample_crossover_branch 2 (by decide)⟩

/-- C6 (the code differs): on the 4-board with parents `a = [0,0,0,0]`, `b = [1,1,1,1]`, the
crossover branch taken (probability draw `0`) and cut point `2`, the second child built by
`crossoverIndividuals` is `a[0:2] ++ b[2:4] = [0,0,1,1]`, the same as the first child, and not
the symmetric `b[0:2] ++ a[2:4] = [1,1,0,0]`. -/
theorem crossover_second_child_repeats_first :
    ((Genetic.new 4).crossoverIndividuals [0, 0, 0, 0] [1, 1, 1, 1] [0, 2]).1.2 = [0, 0, 1, 1] ∧
    ((Genetic.new 4).crossoverIndividuals [0, 0, 0, 0] [1, 1, 1, 1] [0, 2]).1.1 = [0, 0, 1, 1] ∧
    [1, 1, 1, 1].take 2 ++ [0, 0, 0, 0].drop 2 = [1, 1, 0, 0] ∧
    ((Genetic.new 4).crossoverIndividuals [0, 0, 0, 0] [1, 1, 1, 1] [0, 2]).1.2
      ≠ [1, 1, 1, 1].take 2 ++ [0, 0, 0, 0].drop 2 := by
  have h := (crossoverIndividuals_branch (Genetic.new 4) [0, 0, 0, 0] [1, 1, 1, 1] [0, 2] rfl rfl
    (by decide) sample_crossover_branch 2 (by decide)).2
  rw [h]
  decide

/-! ## Mutation -/

/-- The state of the loop of `mutateIndividual` after `n` genes. -/
theorem mutate_loop (g : Genetic) (individual : List Nat) (rng : List Nat) :
    ∀ n : Nat,
      ((List.range n).foldl (g.mutateStep individual) ([], rng)).1.length = n ∧
      ((List.range n).foldl (g.mutateStep individual) ([], rng)).2 = g.streamAtGene rng n ∧
      ∀ i, i < n →
        (((List.range n).foldl (g.mutateStep individual) ([], rng)).1.getD i 0
          = if (g.probaDraw rng i : ℚ) > g.m_mutationRate * 100 then individual.getD i 0
            else g.geneDraw rng i) := by
  intro n
  induction n with
  | zero => exact ⟨rfl, rfl, fun i hi => absurd hi (Nat.not_lt_zero i)⟩
  | succ n ih =>
    obtain ⟨hlen, hrng, hget⟩ := ih
    rw [List.range_succ, List.foldl_append, List.foldl_cons, List.foldl_nil]
    generalize (List.range n).foldl (g.mutateStep individual) ([], rng) = st at hlen hrng hget
    have hstep : g.mutateStep individual st n
        = (st.1 ++ [if (g.probaDraw rng n : ℚ) > g.m_mutationRate * 100
            then individual.getD n 0 else g.geneDraw rng n], g.streamAtGene rng (n + 1)) := by
      unfold Genetic.mutateStep Genetic.probaDraw Genetic.geneDraw
      rw [Genetic.streamAtGene, ← hrng]
      dsimp only
      by_cases h : ((uniformInt 0 100 st.2).1 : ℚ) > g.m_mutationRate * 100
      · rw [if_pos h, if_pos h, if_pos h]
      · rw [if_neg h, if_neg h, if_neg h]
    rw [hstep]
    refine ⟨by simp [hlen], rfl, ?_⟩
    intro i hi
    simp only [List.getD_eq_getElem?_getD]
    by_cases hin : i < n
    · rw [List.getElem?_append_left (by omega)]
      have := hget i hin
      simp only [List.getD_eq_getElem?_getD] at this
      exact this
    · have : i = n := by omega
      subst this
      rw [List.getElem?_append_right (by omega), hlen]
      simp

/-- C7: for an individual of length `N` and every random stream, `mutateIndividual` returns
`N` genes; gene `i` is the freshly drawn value, which lies in `[0, N-1]`, when the `i`-th
probability draw selects mutation, and is `individual[i]` otherwise. (The argument is passed
by value: the caller's vector is the same after the call.) -/
theorem mutateIndividual_genes (g : Genetic) (individual : List Nat) (rng : List Nat)
    (hlen : individual.length = g.m_dimension) :
    (g.mutateIndividual individual rng).1.length = g.m_dimension ∧
    ∀ i, i < g.m_dimension →
      (g.selectsMutation rng i →
        (g.mutateIndividual individual rng).1.getD i 0 = g.geneDraw rng i ∧
        g.geneDraw rng i < g.m_dimension) ∧
      (¬ g.selectsMutation rng i →
        (g.mutateIndividual individual rng).1.getD i 0 = individual.getD i 0 ∧
        i < individual.length) := by
  obtain ⟨h1, _, h3⟩ := mutate_loop g individual rng g.m_dimension
  unfold Genetic.mutateIndividual
  refine ⟨h1, fun i hi => ⟨fun hsel => ?_, fun hsel => ?_⟩⟩
  · unfold Genetic.selectsMutation at hsel
    rw [h3 i hi, if_neg hsel]
    refine ⟨rfl, ?_⟩
    have := (uniformInt_le 0 (g.m_dimension - 1) (Nat.zero_le _)
      (uniformInt 0 100 (g.streamAtGene rng i)).2).2
    unfold Genetic.geneDraw
    omega
  · unfold Genetic.selectsMutation at hsel
    rw [h3 i hi, if_pos (not_not.mp hsel)]
    exact ⟨rfl, by omega⟩

theorem mutateIndividual_genes_witness :
    [1, 3, 0, 2].length = (Genetic.new 4).m_dimension ∧
    ((Genetic.new 4).mutateIndividual [1, 3, 0, 2] [0, 3, 50, 50, 50]).1.length
      = (Genetic.new 4).m_dimension ∧
    ∀ i, i < (Genetic.new 4).m_dimension →
      ((Genetic.new 4).selectsMutation [0, 3, 50, 50, 50] i →
        ((Genetic.new 4).mutateIndividual [1, 3, 0, 2] [0, 3, 50, 50, 50]).1.getD i 0
          = (Genetic.new 4).geneDraw [0, 3, 50, 50, 50] i ∧
        (Genetic.new 4).geneDraw [0, 3, 50, 50, 50] i < (Genetic.new 4).m_dimension) ∧
      (¬ (Genetic.new 4).selectsMutation [0, 3, 50, 50, 50] i →
        ((Genetic.new 4).mutateIndividual [1, 3, 0, 2] [0, 3, 50, 50, 50]).1.getD i 0
          = [1, 3, 0, 2].getD i 0 ∧
        i < [1, 3, 0, 2].length) :=
  ⟨rfl, mutateIndividual_genes (Genetic.new 4) [1, 3, 0, 2] [0, 3, 50, 50, 50] rfl⟩

/-! ## Tournament selection -/

/-- The state of the tournament loop after `m` iterations: the best of the first `m + 1` draws,
the earliest one among equals. -/
theorem tournament_loop (g : Generation) (rng : List Nat) :
    ∀ m : Nat, ∃ k, k ≤ m ∧
      (List.range' 1 m).foldl (g.tournamentStep) (g.tournamentDraw rng 0, rng.drop 1)
        = (g.tournamentDraw rng k, rng.drop (m + 1)) ∧
      (∀ j, j ≤ m → (g.tournamentDraw rng k).2 ≤ (g.tournamentDraw rng j).2) ∧
      (∀ j, j < k → (g.tournamentDraw rng k).2 < (g.tournamentDraw rng j).2) := by
  intro m
  induction m with
  | zero =>
    refine ⟨0, Nat.le_refl _, rfl, ?_, ?_⟩
    · intro j hj
      have : j = 0 := by omega
      rw [this]
    · intro j hj; omega
  | succ m ih =>
    obtain ⟨k, hk, hfold, hmin, hfirst⟩ := ih
    rw [List.range'_concat, List.foldl_append, List.foldl_cons, List.foldl_nil, hfold]
    have hstep : ∀ x, g.tournamentStep (g.tournamentDraw rng k, rng.drop (m + 1)) x
        = (stdMin (g.tournamentDraw rng k) (g.tournamentDraw rng (m + 1)),
            rng.drop (m + 1 + 1)) := by
      intro x
      unfold Generation.tournamentStep Generation.tournamentDraw
      simp only [uniformInt_snd, List.drop_drop]
    rw [hstep]
    unfold stdMin
    by_cases hlt : (g.tournamentDraw rng (m + 1)).2 < (g.tournamentDraw rng k).2
    · rw [if_pos hlt]
      refine ⟨m + 1, Nat.le_refl _, rfl, ?_, ?_⟩
      · intro j hj
        by_cases hjm : j ≤ m
        · have := hmin j hjm; omega
        · have : j = m + 1 := by omega
          rw [this]
      · intro j hj
        have := hmin j (by omega); omega
    · rw [if_neg hlt]
      refine ⟨k, by omega, rfl, ?_, hfirst⟩
      intro j hj
      by_cases hjm : j ≤ m
      · exact hmin j hjm
      · have : j = m + 1 := by omega
        rw [this]; omega

theorem tournamentDraw_mem (gen : Generation) (rng : List Nat) (k : Nat)
    (hne : gen.m_individuals ≠ []) : gen.tournamentDraw rng k ∈ gen.m_individuals := by
  have hpos : 0 < gen.m_individuals.length := List.length_pos.mpr hne
  unfold Generation.tournamentDraw
  have hle := (uniformInt_le 0 (gen.m_individuals.length - 1) (Nat.zero_le _) (rng.drop k)).2
  rw [List.getD_eq_getElem _ _ (by omega)]
  exact List.getElem_mem _

theorem getRandomTournament_eq_draw (gen : Generation) (n : Nat) (rng : List Nat)
    (hne : gen.m_individuals ≠ []) :
    ∃ k, k ≤ n - 1 ∧
      (gen.getRandomTournament n rng).1 = (gen.tournamentDraw rng k).1 ∧
      (∀ j, j ≤ n - 1 → (gen.tournamentDraw rng k).2 ≤ (gen.tournamentDraw rng j).2) ∧
      (∀ j, j < k → (gen.tournamentDraw rng k).2 < (gen.tournamentDraw rng j).2) := by
  have hpos : 0 < gen.m_individuals.length := List.length_pos.mpr hne
  obtain ⟨k, hk, hfold, hmin, hfirst⟩ := tournament_loop gen rng (n - 1)
  refine ⟨k, hk, ?_, hmin, hfirst⟩
  unfold Generation.getRandomTournament
  rw [if_neg (by omega)]
  have h0 : gen.m_individuals.getD (uniformInt 0 (gen.m_individuals.length - 1) rng).1 ([], 0)
      = gen.tournamentDraw rng 0 := by
    unfold Generation.tournamentDraw; rw [List.drop_zero]
  simp only [h0, uniformInt_snd, hfold]

/-- C8: on a non-empty generation, for `n ≥ 1` and every random stream,
`getRandomTournament n` returns the encoding of a drawn individual `k < n` whose fitness is
the lowest of the `n` draws and strictly lower than that of every individual drawn before it:
the lowest fitness among the draws, the first drawn among equals. -/
theorem getRandomTournament_lowest_first (g : Generation) (n : Nat) (rng : List Nat)
    (hne : g.m_individuals ≠ []) (hn : 1 ≤ n) :
    ∃ k, k < n ∧
      (g.getRandomTournament n rng).1 = (g.tournamentDraw rng k).1 ∧
      g.tournamentDraw rng k ∈ g.m_individuals ∧
      (∀ j, j < n → (g.tournamentDraw rng k).2 ≤ (g.tournamentDraw rng j).2) ∧
      (∀ j, j < k → (g.tournamentDraw rng k).2 < (g.tournamentDraw rng j).2) := by
  obtain ⟨k, hk, heq, hmin, hfirst⟩ := getRandomTournament_eq_draw g n rng hne
  exact ⟨k, by omega, heq, tournamentDraw_mem g rng k hne, fun j hj => hmin j (by omega),
    hfirst⟩

theorem getRandomTournament_lowest_first_witness :
    Generation.sample.m_individuals ≠ [] ∧ 1 ≤ 3 ∧
    (Generation.sample.getRandomTournament 3 [0, 1, 0]).1 = [1, 3, 0, 2] ∧
    ∃ k, k < 3 ∧
      (Generation.sample.getRandomTournament 3 [0, 1, 0]).1
        = (Generation.sample.tournamentDraw [0, 1, 0] k).1 ∧
      Generation.sample.tournamentDraw [0, 1, 0] k ∈ Generation.sample.m_individuals ∧
      (∀ j, j < 3 → (Generation.sample.tournamentDraw [0, 1, 0] k).2
        ≤ (Generation.sample.tournamentDraw [0, 1, 0] j).2) ∧
      (∀ j, j < k → (Generation.sample.tournamentDraw [0, 1, 0] k).2
        < (Generation.sample.tournamentDraw [0, 1, 0] j).2) :=
  ⟨by decide, by decide, by decide,
    getRandomTournament_lowest_first Generation.sample 3 [0, 1, 0] (by decide) (by decide)⟩

/-! ## The run loop -/

theorem evolve_generations (lib : StdLib) (i : Nat) (g : Genetic) (rng : List Nat) :
    (Genetic.evolve lib i g rng).1.m_generations
      = g.m_generations ++ [(Genetic.evolve lib i g rng).2.1] ∧
    (Genetic.evolve lib i g rng).1.m_finished = g.m_finished ∧
    (Genetic.evolve lib i g rng).1.m_dimension = g.m_dimension ∧
    (Genetic.evolve lib i g rng).1.m_generationIndex = g.m_generationIndex + 1 :=
  ⟨rfl, rfl, rfl, rfl⟩

/-- What the main loop publishes and returns, for any number of iterations `k`. -/
theorem runLoop_spec (lib : StdLib) :
    ∀ (k i : Nat) (g : Genetic) (rng : List Nat), ∃ news : List Generation,
      (Genetic.runLoop lib k i g rng).2.1.m_generations = g.m_generations ++ news ∧
      ((Genetic.runLoop lib k i g rng).1 = true →
        (Genetic.runLoop lib k i g rng).2.1.m_finished = true ∧
        ∃ init last, news = init ++ [last] ∧ last.fitnessBest = 0 ∧
          (∀ x ∈ init, x.fitnessBest ≠ 0) ∧ init.length < k) ∧
      ((Genetic.runLoop lib k i g rng).1 = false →
        (Genetic.runLoop lib k i g rng).2.1.m_finished = g.m_finished ∧
        news.length = k ∧ ∀ x ∈ news, x.fitnessBest ≠ 0) := by
  intro k
  induction k with
  | zero =>
    intro i g rng
    refine ⟨[], by simp [Genetic.runLoop], fun h => ?_, fun _ => ⟨rfl, rfl, ?_⟩⟩
    · simp [Genetic.runLoop] at h
    · intro x hx; cases hx
  | succ k ih =>
    intro i g rng
    obtain ⟨hgen, hfin, _, _⟩ := evolve_generations lib i g rng
    rw [Genetic.runLoop]
    dsimp only
    by_cases hbest : (Genetic.evolve lib i g rng).2.1.fitnessBest = 0
    · rw [if_pos hbest]
      refine ⟨[(Genetic.evolve lib i g rng).2.1], hgen, fun _ => ⟨rfl, [], _, rfl, hbest, ?_, ?_⟩,
        fun h => ?_⟩
      · intro x hx; cases hx
      · simp
      · cases h
    · rw [if_neg hbest]
      obtain ⟨news, h1, h2, h3⟩ := ih (i + 1) (Genetic.evolve lib i g rng).1
        (Genetic.evolve lib i g rng).2.2
      refine ⟨(Genetic.evolve lib i g rng).2.1 :: news, ?_, fun h => ?_, fun h => ?_⟩
      · rw [h1, hgen]; simp
      · obtain ⟨hf, init, last, hn, hl, hi, hlen⟩ := h2 h
        refine ⟨hf, (Genetic.evolve lib i g rng).2.1 :: init, last, by rw [hn]; rfl, hl, ?_, ?_⟩
        · intro x hx
          rcases List.mem_cons.mp hx with rfl | hx
          · exact hbest
          · exact hi x hx
        · simp only [List.length_cons]; omega
      · obtain ⟨hf, hlen, hall⟩ := h3 h
        refine ⟨hf.trans hfin, by simp [hlen], ?_⟩
        intro x hx
        rcases List.mem_cons.mp hx with rfl | hx
        · exact hbest
        · exact hall x hx

theorem seed_generations (g : Genetic) (rng : List Nat) :
    ∃ gen0, (Genetic.seed g rng).1.m_generations = g.m_generations ++ [gen0] ∧
      (Genetic.seed g rng).1.m_finished = g.m_finished :=
  ⟨_, rfl, rfl⟩

theorem GENERATIONS_pos : GENERATIONS - 1 + 1 = GENERATIONS := by
  unfold GENERATIONS; norm_num

theorem run_eq (lib : StdLib) (g : Genetic) (rng : List Nat) :
    Genetic.run lib g rng
      = Genetic.runLoop lib (GENERATIONS - 1) 1 (Genetic.seed g rng).1 (Genetic.seed g rng).2 := by
  unfold Genetic.run
  rfl

/-- The published sequence after `run` on a fresh engine: generation 0, then what the loop
published. -/
theorem run_generations (lib : StdLib) (N : Nat) (rng : List Nat) :
    ∃ (gen0 : Generation) (news : List Generation),
      (Genetic.run lib (Genetic.new N) rng).2.1.m_generations = gen0 :: news ∧
      ((Genetic.run lib (Genetic.new N) rng).1 = true →
        (Genetic.run lib (Genetic.new N) rng).2.1.m_finished = true ∧
        ∃ init last, news = init ++ [last] ∧ last.fitnessBest = 0 ∧
          (∀ x ∈ init, x.fitnessBest ≠ 0) ∧ init.length < GENERATIONS - 1) ∧
      ((Genetic.run lib (Genetic.new N) rng).1 = false →
        (Genetic.run lib (Genetic.new N) rng).2.1.m_finished = false ∧
        news.length = GENERATIONS - 1 ∧ ∀ x ∈ news, x.fitnessBest ≠ 0) := by
  obtain ⟨gen0, hseed, hfin⟩ := seed_generations (Genetic.new N) rng
  obtain ⟨news, h1, h2, h3⟩ := runLoop_spec lib (GENERATIONS - 1) 1
    (Genetic.seed (Genetic.new N) rng).1 (Genetic.seed (Genetic.new N) rng).2
  rw [run_eq]
  refine ⟨gen0, news, ?_, h2, fun h => ?_⟩
  · rw [h1, hseed]; rfl
  · obtain ⟨hf, hl, ha⟩ := h3 h
    exact ⟨by rw [hf, hfin]; rfl, hl, ha⟩

/-- The return value of `run` on a fresh engine against the best fitness of the generations it
has published. -/
theorem run_returns_spec (lib : StdLib) (N : Nat) (rng : List Nat) :
    ((Genetic.run lib (Genetic.new N) rng).1 = true ↔
      ∃ k gen, 1 ≤ k ∧
        (Genetic.run lib (Genetic.new N) rng).2.1.m_generations[k]? = some gen ∧
        gen.fitnessBest = 0) ∧
    ((Genetic.run lib (Genetic.new N) rng).1 = true →
      ∀ k gen, 1 ≤ k →
        (Genetic.run lib (Genetic.new N) rng).2.1.m_generations[k]? = some gen →
        (gen.fitnessBest = 0 ↔
          k + 1 = (Genetic.run lib (Genetic.new N) rng).2.1.m_generations.length)) ∧
    ((Genetic.run lib (Genetic.new N) rng).1 = false ↔
      (Genetic.run lib (Genetic.new N) rng).2.1.m_generations.length = GENERATIONS ∧
      ∀ k gen, 1 ≤ k → k < GENERATIONS →
        (Genetic.run lib (Genetic.new N) rng).2.1.m_generations[k]? = some gen →
        gen.fitnessBest ≠ 0) := by
  obtain ⟨gen0, news, hgens, htrue, hfalse⟩ := run_generations lib N rng
  rw [hgens]
  have hidx : ∀ k gen, 1 ≤ k → (gen0 :: news)[k]? = some gen → news[k - 1]? = some gen := by
    intro k gen hk h
    obtain ⟨j, rfl⟩ : ∃ j, k = j + 1 := ⟨k - 1, by omega⟩
    simpa using h
  cases hret : (Genetic.run lib (Genetic.new N) rng).1
  · obtain ⟨_, hlen, hall⟩ := hfalse hret
    refine ⟨⟨fun h => (by cases h), ?_⟩, fun h => (by cases h), ⟨fun _ => ⟨?_, ?_⟩, fun _ => rfl⟩⟩
    · rintro ⟨k, gen, hk, hget, hz⟩
      exact absurd hz (hall gen (List.getElem?_mem (hidx k gen hk hget)))
    · rw [List.length_cons, hlen, GENERATIONS_pos]
    · intro k gen hk _ hget
      exact hall gen (List.getElem?_mem (hidx k gen hk hget))
  · obtain ⟨_, init, last, hnews, hlast, hinit, hlen⟩ := htrue hret
    have hlastidx : (gen0 :: news)[init.length + 1]? = some last := by
      rw [hnews]; simp
    refine ⟨⟨fun _ => ⟨init.length + 1, last, by omega, hlastidx, hlast⟩, fun _ => rfl⟩, ?_,
      ⟨fun h => (by cases h), ?_⟩⟩
    · intro _ k gen hk hget
      have hget2 := hidx k gen hk hget
      rw [hnews] at hget2
      have hlen2 : (gen0 :: news).length = init.length + 2 := by rw [hnews]; simp
      rw [hlen2]
      by_cases hki : k - 1 < init.length
      · rw [List.getElem?_append_left hki] at hget2
        constructor
        · intro hz; exact absurd hz (hinit gen (List.getElem?_mem hget2))
        · intro h; omega
      · rw [List.getElem?_append_right (by omega)] at hget2
        have hk0 : k - 1 - init.length = 0 := by
          by_contra hne
          have h1 : 1 ≤ k - 1 - init.length := by omega
          rw [List.getElem?_eq_none (by simp; omega)] at hget2
          cases hget2
        rw [hk0] at hget2
        simp only [List.getElem?_cons_zero, Option.some.injEq] at hget2
        rw [← hget2]
        exact ⟨fun _ => by omega, fun _ => hlast⟩
    · rintro ⟨hl, hall⟩
      have hlen2 : (gen0 :: news).length = init.length + 2 := by rw [hnews]; simp
      exact absurd hlast (hall (init.length + 1) last (by omega) (by omega) hlastidx)

/-! ## The individuals of the published generations -/

theorem valid_of_getD {N : Nat} {l : List Nat} (hlen : l.length = N)
    (h : ∀ i, i < N → l.getD i 0 < N) : ValidIndividual N l := by
  refine ⟨hlen, fun x hx => ?_⟩
  obtain ⟨i, hi, rfl⟩ := List.mem_iff_getElem.mp hx
  have := h i (by omega)
  rwa [List.getD_eq_getElem _ _ hi] at this

theorem validIndividual_getD_lt {N : Nat} {l : List Nat} (h : ValidIndividual N l) {i : Nat}
    (hi : i < N) : l.getD i 0 < N := col_lt_of_valid h hi

theorem generateIndividual_valid (g : Genetic) (rng : List Nat) (hN : 0 < g.m_dimension) :
    ValidIndividual g.m_dimension (g.generateIndividual rng).1 := by
  unfold Genetic.generateIndividual
  have key : ∀ n : Nat,
      ((List.range n).foldl (g.generateStep) ([], rng)).1.length = n ∧
      ∀ x ∈ ((List.range n).foldl (g.generateStep) ([], rng)).1, x < g.m_dimension := by
    intro n
    induction n with
    | zero => exact ⟨rfl, fun x hx => by cases hx⟩
    | succ n ih =>
      rw [List.range_succ, List.foldl_append, List.foldl_cons, List.foldl_nil]
      obtain ⟨h1, h2⟩ := ih
      generalize (List.range n).foldl (g.generateStep) ([], rng) = st at h1 h2
      unfold Genetic.generateStep
      dsimp only
      refine ⟨by simp [h1], fun x hx => ?_⟩
      rcases List.mem_append.mp hx with hx | hx
      · exact h2 x hx
      · rw [List.mem_singleton] at hx
        have := (uniformInt_le 0 (g.m_dimension - 1) (Nat.zero_le _) st.2).2
        omega
  exact key g.m_dimension

theorem mutateIndividual_valid (g : Genetic) (individual : List Nat) (rng : List Nat)
    (h : ValidIndividual g.m_dimension individual) :
    ValidIndividual g.m_dimension (g.mutateIndividual individual rng).1 := by
  obtain ⟨h1, _, h3⟩ := mutate_loop g individual rng g.m_dimension
  unfold Genetic.mutateIndividual
  refine valid_of_getD h1 (fun i hi => ?_)
  rw [h3 i hi]
  split
  · exact validIndividual_getD_lt h hi
  · have := (uniformInt_le 0 (g.m_dimension - 1) (Nat.zero_le _)
      (uniformInt 0 100 (g.streamAtGene rng i)).2).2
    unfold Genetic.geneDraw
    omega

theorem crossoverIndividuals_valid (g : Genetic) (a b : List Nat) (rng : List Nat)
    (hN : 0 < g.m_dimension)
    (ha : ValidIndividual g.m_dimension a) (hb : ValidIndividual g.m_dimension b) :
    ValidIndividual g.m_dimension (g.crossoverIndividuals a b rng).1.1 ∧
    ValidIndividual g.m_dimension (g.crossoverIndividuals a b rng).1.2 := by
  by_cases hbranch : ((uniformInt 0 100 rng).1 : ℚ) > g.m_crossoverRate * 100
  · unfold Genetic.crossoverIndividuals
    rw [if_pos hbranch]
    exact ⟨ha, hb⟩
  · obtain ⟨hc, heq⟩ := crossoverIndividuals_branch g a b rng ha.1 hb.1 hN hbranch _ rfl
    rw [heq]
    have hv : ValidIndividual g.m_dimension
        (a.take (uniformInt 0 (g.m_dimension - 1) (uniformInt 0 100 rng).2).1
          ++ b.drop (uniformInt 0 (g.m_dimension - 1) (uniformInt 0 100 rng).2).1) := by
      refine ⟨?_, fun x hx => ?_⟩
      · simp only [List.length_append, List.length_take, List.length_drop, ha.1, hb.1]; omega
      · rcases List.mem_append.mp hx with hx | hx
        · exact ha.2 x (List.mem_of_mem_take hx)
        · exact hb.2 x (List.mem_of_mem_drop hx)
    exact ⟨hv, hv⟩

theorem allValid_addIndividual {N : Nat} {gen : Generation} (h : Genetic.AllValid N gen)
    {individual : List Nat} (hv : ValidIndividual N individual) :
    Genetic.AllValid N (gen.addIndividual individual) := by
  intro p hp
  simp only [Generation.addIndividual, List.mem_append, List.mem_singleton] at hp
  rcases hp with hp | hp
  · exact h p hp
  · rw [hp]; exact ⟨hv, rfl⟩

theorem addIndividual_length (gen : Generation) (individual : List Nat) :
    (gen.addIndividual individual).m_individuals.length = gen.m_individuals.length + 1 := by
  simp [Generation.addIndividual]

/-- A loop that adds `c` valid individuals per iteration. -/
theorem foldl_grow {α : Type} (N c : Nat)
    (f : Generation × List Nat → α → Generation × List Nat) :
    ∀ (l : List α) (st : Generation × List Nat),
      (∀ st a, a ∈ l → Genetic.AllValid N st.1 →
        Genetic.AllValid N (f st a).1 ∧
        (f st a).1.m_individuals.length = st.1.m_individuals.length + c) →
      Genetic.AllValid N st.1 →
      Genetic.AllValid N (l.foldl f st).1 ∧
      (l.foldl f st).1.m_individuals.length = st.1.m_individuals.length + c * l.length := by
  intro l
  induction l with
  | nil => intro st _ h; exact ⟨h, by simp⟩
  | cons a l ih =>
    intro st hstep h
    rw [List.foldl_cons]
    obtain ⟨h1, h2⟩ := hstep st a (List.mem_cons_self _ _) h
    obtain ⟨h3, h4⟩ := ih (f st a) (fun st b hb => hstep st b (List.mem_cons_of_mem _ hb)) h1
    refine ⟨h3, ?_⟩
    rw [h4, h2, List.length_cons, Nat.mul_succ]
    omega

theorem seedStep_grow (g : Genetic) (hN : 0 < g.m_dimension) (st : Generation × List Nat)
    (i : Nat) (h : Genetic.AllValid g.m_dimension st.1) :
    Genetic.AllValid g.m_dimension (g.seedStep st i).1 ∧
    (g.seedStep st i).1.m_individuals.length = st.1.m_individuals.length + 1 := by
  unfold Genetic.seedStep
  exact ⟨allValid_addIndividual h (generateIndividual_valid g st.2 hN),
    addIndividual_length _ _⟩

theorem eliteStep_grow (g : Genetic) (st : Generation × List Nat) (individual : List Nat)
    (hv : ValidIndividual g.m_dimension individual)
    (h : Genetic.AllValid g.m_dimension st.1) :
    Genetic.AllValid g.m_dimension (g.eliteStep st individual).1 ∧
    (g.eliteStep st individual).1.m_individuals.length = st.1.m_individuals.length + 1 := by
  unfold Genetic.eliteStep
  exact ⟨allValid_addIndividual h (mutateIndividual_valid g individual st.2 hv),
    addIndividual_length _ _⟩

theorem addOffspring_grow (g : Genetic) (hN : 0 < g.m_dimension) (a b : List Nat)
    (newGen : Generation) (rng : List Nat)
    (ha : ValidIndividual g.m_dimension a) (hb : ValidIndividual g.m_dimension b)
    (h : Genetic.AllValid g.m_dimension newGen) :
    Genetic.AllValid g.m_dimension (g.addOffspring a b newGen rng).1 ∧
    (g.addOffspring a b newGen rng).1.m_individuals.length
      = newGen.m_individuals.length + 2 := by
  unfold Genetic.addOffspring
  obtain ⟨h1, h2⟩ := crossoverIndividuals_valid g a b rng hN ha hb
  dsimp only
  refine ⟨allValid_addIndividual (allValid_addIndividual h (mutateIndividual_valid g _ _ h1))
    (mutateIndividual_valid g _ _ h2), ?_⟩
  rw [addIndividual_length, addIndividual_length]

theorem getNBest_members (sort : List Individual → List Individual) (hs : SortContract sort)
    (gen : Generation) (n : Nat) (hn : n ≤ gen.m_individuals.length) :
    (gen.getNBest sort n).1.length = n ∧
    (∀ e ∈ (gen.getNBest sort n).1, ∃ p ∈ gen.m_individuals, p.1 = e) ∧
    (gen.getNBest sort n).2.m_individuals.Perm gen.m_individuals := by
  rw [Generation.getNBest_of_le sort gen n hn hs]
  have hperm := Generation.ranked_perm sort hs gen
  refine ⟨?_, ?_, hperm⟩
  · simp only [List.length_map, List.length_take]
    rw [hperm.length_eq]; omega
  · intro e he
    obtain ⟨p, hp, rfl⟩ := List.mem_map.mp he
    exact ⟨p, hperm.mem_iff.mp (List.mem_of_mem_take hp), rfl⟩

theorem allValid_of_perm {N : Nat} {gen gen2 : Generation}
    (hp : gen2.m_individuals.Perm gen.m_individuals) (h : Genetic.AllValid N gen) :
    Genetic.AllValid N gen2 :=
  fun p hmem => h p (hp.mem_iff.mp hmem)

theorem getRandomTournament_valid {N : Nat} (gen : Generation) (n : Nat) (rng : List Nat)
    (hne : gen.m_individuals ≠ []) (h : Genetic.AllValid N gen) :
    ValidIndividual N (gen.getRandomTournament n rng).1 := by
  obtain ⟨k, _, heq, _, _⟩ := getRandomTournament_eq_draw gen n rng hne
  rw [heq]
  exact (h _ (tournamentDraw_mem gen rng k hne)).1

theorem eliteCrossoverStep_grow (g : Genetic) (hN : 0 < g.m_dimension)
    (individuals : List (List Nat)) (hlen : individuals.length = PREVIOUS_GEN_COUNT)
    (hv : ∀ e ∈ individuals, ValidIndividual g.m_dimension e)
    (st : Generation × List Nat) (j : Nat) (h : Genetic.AllValid g.m_dimension st.1) :
    Genetic.AllValid g.m_dimension (g.eliteCrossoverStep individuals st j).1 ∧
    (g.eliteCrossoverStep individuals st j).1.m_individuals.length
      = st.1.m_individuals.length + 2 := by
  unfold Genetic.eliteCrossoverStep
  have pick : ∀ r : List Nat, ValidIndividual g.m_dimension
      (individuals.getD (uniformInt 0 (PREVIOUS_GEN_COUNT - 1) r).1 []) := by
    intro r
    have hle := (uniformInt_le 0 (PREVIOUS_GEN_COUNT - 1) (Nat.zero_le _) r).2
    have hpos : 0 < PREVIOUS_GEN_COUNT := by unfold PREVIOUS_GEN_COUNT; omega
    rw [List.getD_eq_getElem _ _ (by omega)]
    exact hv _ (List.getElem_mem _)
  exact addOffspring_grow g hN _ _ st.1 _ (pick _) (pick _) h

theorem tournamentFillStep_grow (g : Genetic) (hN : 0 < g.m_dimension) (prevGen : Generation)
    (hne : prevGen.m_individuals ≠ []) (hprev : Genetic.AllValid g.m_dimension prevGen)
    (st : Generation × List Nat) (j : Nat) (h : Genetic.AllValid g.m_dimension st.1) :
    Genetic.AllValid g.m_dimension (g.tournamentFillStep prevGen st j).1 ∧
    (g.tournamentFillStep prevGen st j).1.m_individuals.length
      = st.1.m_individuals.length + 2 := by
  unfold Genetic.tournamentFillStep
  exact addOffspring_grow g hN _ _ st.1 _
    (getRandomTournament_valid prevGen _ _ hne hprev)
    (getRandomTournament_valid prevGen _ _ hne hprev) h

theorem loopInv_prevGen {g : Genetic} {gens : List Generation} {last : Generation}
    (hidx : g.m_generationIndex = g.m_generations.length)
    (hgens : g.m_generations = gens ++ [last]) :
    g.m_generations.getD (g.m_generationIndex - 1) (Generation.new 0 0 0) = last := by
  rw [hidx, hgens]
  simp

/-- One iteration of the main loop: the new generation holds `801` individuals
(`25` elites, `2 * 62` elite-crossover children, `2 * 326` tournament children), all of them for
the board of the engine, and the loop invariant holds again. -/
theorem evolve_inv (lib : StdLib) (hs : SortContract lib.sort) (i : Nat) (g : Genetic)
    (rng : List Nat) (h : g.LoopInv) :
    (Genetic.evolve lib i g rng).1.LoopInv ∧
    Genetic.AllValid g.m_dimension (Genetic.evolve lib i g rng).2.1 ∧
    (Genetic.evolve lib i g rng).2.1.m_individuals.length
      = PREVIOUS_GEN_COUNT + 2 * (PREVIOUS_GEN_CROSSOVER_COUNT / 2)
        + 2 * (POPULATION_SIZE - 2 * PREVIOUS_GEN_COUNT
          - 2 * (PREVIOUS_GEN_CROSSOVER_COUNT / 2)) := by
  obtain ⟨hN, hidx, gens, last, hgens, hsize, hvalid⟩ := h
  have hprev := loopInv_prevGen hidx hgens
  have key : Genetic.AllValid g.m_dimension (Genetic.evolve lib i g rng).2.1 ∧
      (Genetic.evolve lib i g rng).2.1.m_individuals.length
        = PREVIOUS_GEN_COUNT + 2 * (PREVIOUS_GEN_CROSSOVER_COUNT / 2)
          + 2 * (POPULATION_SIZE - 2 * PREVIOUS_GEN_COUNT
            - 2 * (PREVIOUS_GEN_CROSSOVER_COUNT / 2)) := by
    have b1 := getNBest_members lib.sort hs last PREVIOUS_GEN_COUNT hsize
    have b2 := getNBest_members lib.sort hs (last.getNBest lib.sort PREVIOUS_GEN_COUNT).2
      PREVIOUS_GEN_COUNT (by rw [b1.2.2.length_eq]; exact hsize)
    have v1 : Genetic.AllValid g.m_dimension (last.getNBest lib.sort PREVIOUS_GEN_COUNT).2 :=
      allValid_of_perm b1.2.2 hvalid
    have v2 : Genetic.AllValid g.m_dimension
        ((last.getNBest lib.sort PREVIOUS_GEN_COUNT).2.getNBest lib.sort
          PREVIOUS_GEN_COUNT).2 := allValid_of_perm b2.2.2 v1
    have hne2 : ((last.getNBest lib.sort PREVIOUS_GEN_COUNT).2.getNBest lib.sort
        PREVIOUS_GEN_COUNT).2.m_individuals ≠ [] := by
      intro he
      have hl := b2.2.2.length_eq
      rw [he, b1.2.2.length_eq] at hl
      have hpos : 0 < PREVIOUS_GEN_COUNT := by unfold PREVIOUS_GEN_COUNT; omega
      simp only [List.length_nil] at hl
      omega
    have e1 : ∀ e ∈ (last.getNBest lib.sort PREVIOUS_GEN_COUNT).1,
        ValidIndividual g.m_dimension e := by
      intro e he
      obtain ⟨p, hp, rfl⟩ := b1.2.1 e he
      exact (hvalid p hp).1
    have e2 : ∀ e ∈ ((last.getNBest lib.sort PREVIOUS_GEN_COUNT).2.getNBest lib.sort
        PREVIOUS_GEN_COUNT).1, ValidIndividual g.m_dimension e := by
      intro e he
      obtain ⟨p, hp, rfl⟩ := b2.2.1 e he
      exact (v1 p hp).1
    unfold Genetic.evolve
    dsimp only
    rw [hprev]
    have hempty : ∀ (idx : Nat) (m c : ℚ),
        Genetic.AllValid g.m_dimension (Generation.new idx m c) := by
      intro idx m c p hp; cases hp
    have hN2 : 0 < (Genetic.mk g.m_dimension (g.m_generationIndex + 1)
        (MUTATION_RATE * lib.expMutation i) (CROSSOVER_RATE * lib.expCrossover i)
        g.m_finished g.m_generations).m_dimension := hN
    have s1 := foldl_grow g.m_dimension 1
      (Genetic.eliteStep (Genetic.mk g.m_dimension (g.m_generationIndex + 1)
        (MUTATION_RATE * lib.expMutation i) (CROSSOVER_RATE * lib.expCrossover i)
        g.m_finished g.m_generations))
      (last.getNBest lib.sort PREVIOUS_GEN_COUNT).1
      (Generation.new g.m_generationIndex (MUTATION_RATE * lib.expMutation i)
        (CROSSOVER_RATE * lib.expCrossover i), rng)
      (fun st a ha hst => eliteStep_grow _ st a (e1 a ha) hst) (hempty _ _ _)
    have s2 := foldl_grow g.m_dimension 2
      (Genetic.eliteCrossoverStep (Genetic.mk g.m_dimension (g.m_generationIndex + 1)
        (MUTATION_RATE * lib.expMutation i) (CROSSOVER_RATE * lib.expCrossover i)
        g.m_finished g.m_generations)
        ((last.getNBest lib.sort PREVIOUS_GEN_COUNT).2.getNBest lib.sort PREVIOUS_GEN_COUNT).1)
      (List.range (PREVIOUS_GEN_CROSSOVER_COUNT / 2)) _
      (fun st j _ hst => eliteCrossoverStep_grow _ hN2 _ b2.1 e2 st j hst) s1.1
    have s3 := foldl_grow g.m_dimension 2
      (Genetic.tournamentFillStep (Genetic.mk g.m_dimension (g.m_generationIndex + 1)
        (MUTATION_RATE * lib.expMutation i) (CROSSOVER_RATE * lib.expCrossover i)
        g.m_finished g.m_generations)
        ((last.getNBest lib.sort PREVIOUS_GEN_COUNT).2.getNBest lib.sort PREVIOUS_GEN_COUNT).2)
      (List.range (POPULATION_SIZE - 2 * PREVIOUS_GEN_COUNT
        - 2 * (PREVIOUS_GEN_CROSSOVER_COUNT / 2))) _
      (fun st j _ hst => tournamentFillStep_grow _ hN2 _ hne2 v2 st j hst) s2.1
    refine ⟨s3.1, ?_⟩
    rw [s3.2, s2.2, s1.2, b1.1, List.length_range, List.length_range]
    simp only [Generation.new, List.length_nil]
    omega
  refine ⟨⟨hN, ?_, g.m_generations, (Genetic.evolve lib i g rng).2.1, rfl, ?_, key.1⟩, key⟩
  · show g.m_generationIndex + 1 = (g.m_generations ++ [(Genetic.evolve lib i g rng).2.1]).length
    rw [List.length_append, hidx]; rfl
  · rw [key.2]
    unfold PREVIOUS_GEN_COUNT; omega

/-- Generation 0: `POPULATION_SIZE` individuals, all of them for the board of the engine. -/
theorem seed_spec (g : Genetic) (hN : 0 < g.m_dimension) (rng : List Nat) :
    ∃ gen0 : Generation,
      (Genetic.seed g rng).1.m_generations = g.m_generations ++ [gen0] ∧
      Genetic.AllValid g.m_dimension gen0 ∧
      gen0.m_individuals.length = POPULATION_SIZE := by
  have hN1 : 0 < (Genetic.mk g.m_dimension (g.m_generationIndex + 1) g.m_mutationRate
      g.m_crossoverRate g.m_finished g.m_generations).m_dimension := hN
  have s := foldl_grow g.m_dimension 1
    (Genetic.seedStep (Genetic.mk g.m_dimension (g.m_generationIndex + 1) g.m_mutationRate
      g.m_crossoverRate g.m_finished g.m_generations))
    (List.range POPULATION_SIZE)
    (Generation.new g.m_generationIndex MUTATION_RATE CROSSOVER_RATE, rng)
    (fun st i _ hst => seedStep_grow _ hN1 st i hst)
    (fun p hp => by cases hp)
  refine ⟨_, rfl, s.1, ?_⟩
  rw [s.2, List.length_range]
  simp [Generation.new]

theorem seed_fields (g : Genetic) (rng : List Nat) :
    (Genetic.seed g rng).1.m_dimension = g.m_dimension ∧
    (Genetic.seed g rng).1.m_finished = g.m_finished ∧
    (Genetic.seed g rng).1.m_generationIndex = g.m_generationIndex + 1 :=
  ⟨rfl, rfl, rfl⟩

theorem seed_inv (N : Nat) (hN : 0 < N) (rng : List Nat) :
    (Genetic.seed (Genetic.new N) rng).1.LoopInv ∧
    (Genetic.seed (Genetic.new N) rng).1.m_dimension = N ∧
    (Genetic.seed (Genetic.new N) rng).1.m_finished = false := by
  obtain ⟨gen0, hgens, hvalid, hlen⟩ := seed_spec (Genetic.new N) hN rng
  obtain ⟨hd, hf, hi⟩ := seed_fields (Genetic.new N) rng
  refine ⟨⟨by rw [hd]; exact hN, ?_, [], gen0, hgens, ?_, by rw [hd]; exact hvalid⟩, hd, hf⟩
  · rw [hi, hgens]; rfl
  · rw [hlen]; unfold PREVIOUS_GEN_COUNT POPULATION_SIZE; omega

theorem fitnessBest_ne_zero (gen : Generation) (h : ∀ p ∈ gen.m_individuals, p.2 ≠ 0) :
    gen.fitnessBest ≠ 0 := by
  unfold Generation.fitnessBest
  have key : ∀ (l : List Individual) (best : Nat), best ≠ 0 → (∀ p ∈ l, p.2 ≠ 0) →
      l.foldl (fun best value => min best value.2) best ≠ 0 := by
    intro l
    induction l with
    | nil => intro best hb _; exact hb
    | cons a l ih =>
      intro best hb hl
      rw [List.foldl_cons]
      refine ih _ ?_ (fun p hp => hl p (List.mem_cons_of_mem _ hp))
      have := hl a (List.mem_cons_self _ _)
      omega
  exact key _ _ (by unfold DBL_MAX; positivity) h

/-- On a board without solution the main loop runs out of iterations: it returns `false` and
never writes `m_finished`. -/
theorem runLoop_exhausts (lib : StdLib) (hs : SortContract lib.sort) (N : Nat)
    (hno : ∀ ind, ValidIndividual N ind → getFitness ind ≠ 0) :
    ∀ (k i : Nat) (g : Genetic) (rng : List Nat), g.LoopInv → g.m_dimension = N →
      (Genetic.runLoop lib k i g rng).1 = false ∧
      (Genetic.runLoop lib k i g rng).2.1.m_finished = g.m_finished ∧
      (Genetic.runLoop lib k i g rng).2.1.m_generations.length = g.m_generations.length + k := by
  intro k
  induction k with
  | zero => intro i g rng _ _; exact ⟨rfl, rfl, rfl⟩
  | succ k ih =>
    intro i g rng hinv hdim
    obtain ⟨hinv2, hvalid, _⟩ := evolve_inv lib hs i g rng hinv
    obtain ⟨hgen, hfin, hd, _⟩ := evolve_generations lib i g rng
    have hbest : (Genetic.evolve lib i g rng).2.1.fitnessBest ≠ 0 := by
      apply fitnessBest_ne_zero
      intro p hp
      obtain ⟨hv, hf⟩ := hvalid p hp
      rw [hf]
      exact hno _ (hdim ▸ hv)
    rw [Genetic.runLoop]
    dsimp only
    rw [if_neg hbest]
    obtain ⟨h1, h2, h3⟩ := ih (i + 1) _ (Genetic.evolve lib i g rng).2.2 hinv2 (hd.trans hdim)
    refine ⟨h1, h2.trans hfin, ?_⟩
    rw [h3, hgen, List.length_append, List.length_singleton]
    omega

/-- The 2-board has no solution: every individual has a conflict. -/
theorem no_solution_two (ind : List Nat) (h : ValidIndividual 2 ind) : getFitness ind ≠ 0 := by
  obtain ⟨hlen, hval⟩ := h
  match ind, hlen, hval with
  | [a, b], _, hval =>
    have ha : a < 2 := hval a (by simp)
    have hb : b < 2 := hval b (by simp)
    interval_cases a <;> interval_cases b <;> decide

/-- C9 (the code differs): on the 2-board, for every random stream and whatever the decay
factors, `run` (with insertion sort for `std::sort`) returns `false` after publishing all
`GENERATIONS` generations, and `isFinished()` still returns `false` afterwards. -/
theorem run_exhausted_not_finished (expMutation expCrossover : Nat → ℚ) (rng : List Nat) :
    (Genetic.run ⟨insertionSortByFitness, expMutation, expCrossover⟩ (Genetic.new 2) rng).1
      = false ∧
    (Genetic.run ⟨insertionSortByFitness, expMutation, expCrossover⟩
      (Genetic.new 2) rng).2.1.m_generations.length = GENERATIONS ∧
    (Genetic.run ⟨insertionSortByFitness, expMutation, expCrossover⟩
      (Genetic.new 2) rng).2.1.isFinished.1 = false := by
  obtain ⟨hinv, hdim, hfin⟩ := seed_inv 2 (by decide) rng
  obtain ⟨gen0, hgens, _, _⟩ := seed_spec (Genetic.new 2) (by decide) rng
  obtain ⟨h1, h2, h3⟩ := runLoop_exhausts ⟨insertionSortByFitness, expMutation, expCrossover⟩
    insertionSortByFitness_contract 2 no_solution_two (GENERATIONS - 1) 1
    (Genetic.seed (Genetic.new 2) rng).1 (Genetic.seed (Genetic.new 2) rng).2 hinv hdim
  rw [run_eq]
  refine ⟨h1, ?_, ?_⟩
  · rw [h3, hgens]
    show 0 + 1 + (GENERATIONS - 1) = GENERATIONS
    unfold GENERATIONS; norm_num
  · unfold Genetic.isFinished
    rw [h2, hfin]

/-! ## What `run` publishes -/

/-- The size of every generation built by the main loop, as the three loops add it up. -/
theorem evolved_size :
    PREVIOUS_GEN_COUNT + 2 * (PREVIOUS_GEN_CROSSOVER_COUNT / 2)
      + 2 * (POPULATION_SIZE - 2 * PREVIOUS_GEN_COUNT - 2 * (PREVIOUS_GEN_CROSSOVER_COUNT / 2))
      = 801 := by
  unfold PREVIOUS_GEN_COUNT PREVIOUS_GEN_CROSSOVER_COUNT POPULATION_SIZE
  norm_num

/-- Every generation the main loop publishes holds `801` individuals, all of them for the
board of the engine, and the loop publishes at least one generation per iteration it is
given, until it stops. -/
theorem runLoop_published (lib : StdLib) (hs : SortContract lib.sort) :
    ∀ (k i : Nat) (g : Genetic) (rng : List Nat), g.LoopInv →
      ∃ news : List Generation,
        (Genetic.runLoop lib k i g rng).2.1.m_generations = g.m_generations ++ news ∧
        (0 < k → news ≠ []) ∧
        ∀ x ∈ news, Genetic.AllValid g.m_dimension x ∧ x.m_individuals.length = 801 := by
  intro k
  induction k with
  | zero =>
    intro i g rng _
    exact ⟨[], by simp [Genetic.runLoop], fun h => absurd h (Nat.lt_irrefl 0),
      fun x hx => by cases hx⟩
  | succ k ih =>
    intro i g rng hinv
    obtain ⟨hinv2, hvalid, hsize⟩ := evolve_inv lib hs i g rng hinv
    obtain ⟨hgen, _, hd, _⟩ := evolve_generations lib i g rng
    rw [evolved_size] at hsize
    rw [Genetic.runLoop]
    dsimp only
    by_cases hbest : (Genetic.evolve lib i g rng).2.1.fitnessBest = 0
    · rw [if_pos hbest]
      refine ⟨[(Genetic.evolve lib i g rng).2.1], hgen, fun _ => by simp, ?_⟩
      intro x hx
      rw [List.mem_singleton] at hx
      rw [hx]
      exact ⟨hvalid, hsize⟩
    · rw [if_neg hbest]
      obtain ⟨news, h1, _, h3⟩ := ih (i + 1) _ (Genetic.evolve lib i g rng).2.2 hinv2
      refine ⟨(Genetic.evolve lib i g rng).2.1 :: news, ?_, fun _ => by simp, ?_⟩
      · rw [h1, hgen]; simp
      · intro x hx
        rcases List.mem_cons.mp hx with rfl | hx
        · exact ⟨hvalid, hsize⟩
        · rw [← hd]; exact h3 x hx

/-- What `run` publishes on a fresh engine for an `N`-board, `N ≥ 1`: generation 0 with
`POPULATION_SIZE` individuals, then at least one generation, each with `801` individuals; all
individuals are individuals for the `N`-board. -/
theorem run_published (lib : StdLib) (hs : SortContract lib.sort) (N : Nat) (hN : 0 < N)
    (rng : List Nat) :
    ∃ (gen0 : Generation) (news : List Generation),
      (Genetic.run lib (Genetic.new N) rng).2.1.m_generations = gen0 :: news ∧
      news ≠ [] ∧
      Genetic.AllValid N gen0 ∧ gen0.m_individuals.length = POPULATION_SIZE ∧
      ∀ x ∈ news, Genetic.AllValid N x ∧ x.m_individuals.length = 801 := by
  obtain ⟨hinv, hdim, _⟩ := seed_inv N hN rng
  obtain ⟨gen0, hgens, hvalid, hlen⟩ := seed_spec (Genetic.new N) hN rng
  obtain ⟨news, h1, h2, h3⟩ := runLoop_published lib hs (GENERATIONS - 1) 1
    (Genetic.seed (Genetic.new N) rng).1 (Genetic.seed (Genetic.new N) rng).2 hinv
  rw [run_eq]
  refine ⟨gen0, news, ?_, h2 (by unfold GENERATIONS; norm_num), hvalid, hlen, ?_⟩
  · rw [h1, hgens]; rfl
  · intro x hx
    rw [← hdim]
    exact h3 x hx

/-- C11 (the code differs): on the 8-board, for every random stream and whatever the decay
factors, `run` (with insertion sort for `std::sort`) publishes generation 0 with exactly
`POPULATION_SIZE = 500` individuals, and then at least one more generation; every generation
after generation 0 holds `801` individuals (`25` elites, `124` elite-crossover children and
`652` tournament children), which is not within one of `500`. -/
theorem run_population_sizes (expMutation expCrossover : Nat → ℚ) (rng : List Nat) :
    ∃ (gen0 gen1 : Generation) (rest : List Generation),
      (Genetic.run ⟨insertionSortByFitness, expMutation, expCrossover⟩
        (Genetic.new 8) rng).2.1.m_generations = gen0 :: gen1 :: rest ∧
      gen0.m_individuals.length = 500 ∧
      gen1.m_individuals.length = 801 ∧
      (∀ x ∈ rest, x.m_individuals.length = 801) ∧
      ¬ (POPULATION_SIZE - 1 ≤ gen1.m_individuals.length ∧
        gen1.m_individuals.length ≤ POPULATION_SIZE + 1) := by
  obtain ⟨gen0, news, hgens, hne, _, hlen0, hall⟩ :=
    run_published ⟨insertionSortByFitness, expMutation, expCrossover⟩
      insertionSortByFitness_contract 8 (by decide) rng
  obtain ⟨gen1, rest, hnews⟩ := List.exists_cons_of_ne_nil hne
  rw [hnews] at hgens hall
  have h1 := (hall gen1 (List.mem_cons_self _ _)).2
  have h0 : gen0.m_individuals.length = 500 := hlen0
  refine ⟨gen0, gen1, rest, hgens, h0, h1,
    fun x hx => (hall x (List.mem_cons_of_mem _ hx)).2, ?_⟩
  rw [h1]
  unfold POPULATION_SIZE
  omega

/-- C19: for `N ≥ 1` and every random stream, every individual of every generation published
by `run` is a sequence of exactly `N` columns, each in `[0, N-1]`; `generateIndividual`
produces such sequences, and `crossoverIndividuals` and `mutateIndividual` return such
sequences whenever their arguments are such sequences. -/
theorem published_individuals_valid (lib : StdLib) (hs : SortContract lib.sort) (N : Nat)
    (hN : 1 ≤ N) (rng : List Nat) :
    (∀ gen ∈ (Genetic.run lib (Genetic.new N) rng).2.1.m_generations,
      ∀ p ∈ gen.m_individuals, p.1.length = N ∧ ∀ x ∈ p.1, x < N) ∧
    (∀ (g : Genetic) (r : List Nat), g.m_dimension = N →
      ValidIndividual N (g.generateIndividual r).1) ∧
    (∀ (g : Genetic) (a b r : List Nat), g.m_dimension = N →
      ValidIndividual N a → ValidIndividual N b →
      ValidIndividual N (g.crossoverIndividuals a b r).1.1 ∧
      ValidIndividual N (g.crossoverIndividuals a b r).1.2) ∧
    (∀ (g : Genetic) (a r : List Nat), g.m_dimension = N →
      ValidIndividual N a → ValidIndividual N (g.mutateIndividual a r).1) := by
  refine ⟨?_, ?_, ?_, ?_⟩
  · obtain ⟨gen0, news, hgens, _, hv0, _, hall⟩ := run_published lib hs N hN rng
    rw [hgens]
    intro gen hgen p hp
    rcases List.mem_cons.mp hgen with rfl | hgen
    · exact (hv0 p hp).1
    · exact ((hall gen hgen).1 p hp).1
  · intro g r hg
    subst hg
    exact generateIndividual_valid g r hN
  · intro g a b r hg ha hb
    subst hg
    exact crossoverIndividuals_valid g a b r hN ha hb
  · intro g a r hg ha
    subst hg
    exact mutateIndividual_valid g a r ha

theorem published_individuals_valid_witness :
    SortContract insertionSortByFitness ∧ 1 ≤ 4 ∧
    ((∀ gen ∈ (Genetic.run ⟨insertionSortByFitness, fun _ => 1, fun _ => 1⟩
        (Genetic.new 4) [3, 1, 4, 1, 5, 9, 2, 6]).2.1.m_generations,
      ∀ p ∈ gen.m_individuals, p.1.length = 4 ∧ ∀ x ∈ p.1, x < 4) ∧
    (∀ (g : Genetic) (r : List Nat), g.m_dimension = 4 →
      ValidIndividual 4 (g.generateIndividual r).1) ∧
    (∀ (g : Genetic) (a b r : List Nat), g.m_dimension = 4 →
      ValidIndividual 4 a → ValidIndividual 4 b →
      ValidIndividual 4 (g.crossoverIndividuals a b r).1.1 ∧
      ValidIndividual 4 (g.crossoverIndividuals a b r).1.2) ∧
    (∀ (g : Genetic) (a r : List Nat), g.m_dimension = 4 →
      ValidIndividual 4 a → ValidIndividual 4 (g.mutateIndividual a r).1)) :=
  ⟨insertionSortByFitness_contract, by decide,
    published_individuals_valid ⟨insertionSortByFitness, fun _ => 1, fun _ => 1⟩
      insertionSortByFitness_contract 4 (by decide) [3, 1, 4, 1, 5, 9, 2, 6]⟩

/-! ## The published sequence only grows -/

theorem foldl_generationIndex {α : Type}
    (f : Generation × List Nat → α → Generation × List Nat)
    (h : ∀ st a, (f st a).1.m_generationIndex = st.1.m_generationIndex) :
    ∀ (l : List α) (st : Generation × List Nat),
      (l.foldl f st).1.m_generationIndex = st.1.m_generationIndex := by
  intro l
  induction l with
  | nil => intro st; rfl
  | cons a l ih => intro st; rw [List.foldl_cons, ih, h]

theorem evolve_generationIndex (lib : StdLib) (i : Nat) (g : Genetic) (rng : List Nat) :
    (Genetic.evolve lib i g rng).2.1.m_generationIndex = g.m_generationIndex := by
  unfold Genetic.evolve
  dsimp only
  rw [foldl_generationIndex, foldl_generationIndex, foldl_generationIndex]
  · rfl
  · intro st a; rfl
  · intro st a; rfl
  · intro st a; rfl

theorem seed_generationIndex (g : Genetic) (rng : List Nat) :
    ∃ gen0 : Generation,
      (Genetic.seed g rng).1.m_generations = g.m_generations ++ [gen0] ∧
      gen0.m_generationIndex = g.m_generationIndex := by
  refine ⟨_, rfl, ?_⟩
  rw [foldl_generationIndex]
  · rfl
  · intro st a; rfl

/-- Appending a generation constructed with the next index keeps positions and indices
aligned. -/
theorem indices_append (gens : List Generation) (gen : Generation)
    (h : ∀ (j : Nat) (x : Generation), gens[j]? = some x → x.m_generationIndex = j)
    (hgen : gen.m_generationIndex = gens.length) :
    ∀ (j : Nat) (x : Generation), (gens ++ [gen])[j]? = some x → x.m_generationIndex = j := by
  intro j x hx
  by_cases hj : j < gens.length
  · rw [List.getElem?_append_left hj] at hx
    exact h j x hx
  · rw [List.getElem?_append_right (by omega)] at hx
    by_cases h0 : j - gens.length = 0
    · rw [h0] at hx
      simp only [List.getElem?_cons_zero, Option.some.injEq] at hx
      rw [← hx, hgen]; omega
    · rw [List.getElem?_eq_none (by simp; omega)] at hx
      cases hx

theorem runLoop_indices (lib : StdLib) :
    ∀ (k i : Nat) (g : Genetic) (rng : List Nat),
      g.m_generationIndex = g.m_generations.length →
      (∀ (j : Nat) (x : Generation), g.m_generations[j]? = some x → x.m_generationIndex = j) →
      ∀ (j : Nat) (x : Generation),
        (Genetic.runLoop lib k i g rng).2.1.m_generations[j]? = some x →
        x.m_generationIndex = j := by
  intro k
  induction k with
  | zero => intro i g rng _ h; exact h
  | succ k ih =>
    intro i g rng hidx h
    obtain ⟨hgen, _, _, hi⟩ := evolve_generations lib i g rng
    have hnew := evolve_generationIndex lib i g rng
    have happ := indices_append g.m_generations (Genetic.evolve lib i g rng).2.1 h
      (hnew.trans hidx)
    rw [← hgen] at happ
    rw [Genetic.runLoop]
    dsimp only
    by_cases hbest : (Genetic.evolve lib i g rng).2.1.fitnessBest = 0
    · rw [if_pos hbest]; exact happ
    · rw [if_neg hbest]
      refine ih (i + 1) _ _ ?_ happ
      rw [hi, hgen, hidx]; simp

/-- C12: for a board of size `N ≥ 1`, every step of `run` changes the published sequence only
by appending exactly one generation. Seeding, and each iteration of the main loop from a state
the loop can be in (`LoopInv`, which seeding establishes and each iteration keeps), leave the
generations already published as they were (same individuals, same order) and add one at the
end, so `getGenerationsCount()` grows by one; the loop as a whole only extends the sequence;
and on a fresh engine the generation stored at position `k` is the one constructed with
generation index `k`. -/
theorem run_appends_in_order (lib : StdLib) (hs : SortContract lib.sort) (N : Nat)
    (hN : 1 ≤ N) (rng : List Nat) :
    (∀ (g : Genetic) (r : List Nat), 0 < g.m_dimension → ∃ gen0 : Generation,
      (Genetic.seed g r).1.m_generations = g.m_generations ++ [gen0] ∧
      (Genetic.seed g r).1.getGenerationsCount.1 = g.getGenerationsCount.1 + 1) ∧
    (Genetic.seed (Genetic.new N) rng).1.LoopInv ∧
    (∀ (i : Nat) (g : Genetic) (r : List Nat), g.LoopInv →
      (Genetic.evolve lib i g r).1.m_generations
        = g.m_generations ++ [(Genetic.evolve lib i g r).2.1] ∧
      (Genetic.evolve lib i g r).1.getGenerationsCount.1 = g.getGenerationsCount.1 + 1 ∧
      (Genetic.evolve lib i g r).1.LoopInv) ∧
    (∀ (k i : Nat) (g : Genetic) (r : List Nat), g.LoopInv → ∃ news : List Generation,
      (Genetic.runLoop lib k i g r).2.1.m_generations = g.m_generations ++ news ∧
      g.getGenerationsCount.1 ≤ (Genetic.runLoop lib k i g r).2.1.getGenerationsCount.1) ∧
    (∀ (k : Nat) (gen : Generation),
      (Genetic.run lib (Genetic.new N) rng).2.1.m_generations[k]? = some gen →
      gen.m_generationIndex = k) := by
  refine ⟨?_, (seed_inv N hN rng).1, ?_, ?_, ?_⟩
  · intro g r _
    obtain ⟨gen0, h, _⟩ := seed_generationIndex g r
    refine ⟨gen0, h, ?_⟩
    unfold Genetic.getGenerationsCount
    rw [h]; simp
  · intro i g r hinv
    obtain ⟨h, _⟩ := evolve_generations lib i g r
    refine ⟨h, ?_, (evolve_inv lib hs i g r hinv).1⟩
    unfold Genetic.getGenerationsCount
    rw [h]; simp
  · intro k i g r _
    obtain ⟨news, h, _⟩ := runLoop_spec lib k i g r
    refine ⟨news, h, ?_⟩
    unfold Genetic.getGenerationsCount
    rw [h]; simp
  · obtain ⟨gen0, hgens, hidx0⟩ := seed_generationIndex (Genetic.new N) rng
    obtain ⟨_, _, hi⟩ := seed_fields (Genetic.new N) rng
    rw [run_eq]
    refine runLoop_indices lib (GENERATIONS - 1) 1 _ _ ?_ ?_
    · rw [hi, hgens]; rfl
    · rw [hgens]
      exact indices_append [] gen0 (fun j x hx => by simp at hx) hidx0

theorem run_appends_in_order_witness :
    SortContract insertionSortByFitness ∧ 1 ≤ 4 ∧
    (
    (∀ (g : Genetic) (r : List Nat), 0 < g.m_dimension → ∃ gen0 : Generation,
      (Genetic.seed g r).1.m_generations = g.m_generations ++ [gen0] ∧
      (Genetic.seed g r).1.getGenerationsCount.1 = g.getGenerationsCount.1 + 1) ∧
    (Genetic.seed (Genetic.new 4) [1, 4, 1, 4, 2, 1, 3, 5]).1.LoopInv ∧
    (∀ (i : Nat) (g : Genetic) (r : List Nat), g.LoopInv →
      (Genetic.evolve ⟨insertionSortByFitness, fun _ => 1, fun _ => 1⟩ i g r).1.m_generations
        = g.m_generations ++ [(Genetic.evolve ⟨insertionSortByFitness, fun _ => 1, fun _ => 1⟩ i g r).2.1] ∧
      (Genetic.evolve ⟨insertionSortByFitness, fun _ => 1, fun _ => 1⟩ i g r).1.getGenerationsCount.1 = g.getGenerationsCount.1 + 1 ∧
      (Genetic.evolve ⟨insertionSortByFitness, fun _ => 1, fun _ => 1⟩ i g r).1.LoopInv) ∧
    (∀ (k i : Nat) (g : Genetic) (r : List Nat), g.LoopInv → ∃ news : List Generation,
      (Genetic.runLoop ⟨insertionSortByFitness, fun _ => 1, fun _ => 1⟩ k i g r).2.1.m_generations = g.m_generations ++ news ∧
      g.getGenerationsCount.1 ≤ (Genetic.runLoop ⟨insertionSortByFitness, fun _ => 1, fun _ => 1⟩ k i g r).2.1.getGenerationsCount.1) ∧
    (∀ (k : Nat) (gen : Generation),
      (Genetic.run ⟨insertionSortByFitness, fun _ => 1, fun _ => 1⟩ (Genetic.new 4) [1, 4, 1, 4, 2, 1, 3, 5]).2.1.m_generations[k]? = some gen →
      gen.m_generationIndex = k)) :=
  ⟨insertionSortByFitness_contract, by decide,
    run_appends_in_order ⟨insertionSortByFitness, fun _ => 1, fun _ => 1⟩
      insertionSortByFitness_contract 4 (by decide) [1, 4, 1, 4, 2, 1, 3, 5]⟩

/-! ## Ranking and insertion order -/

theorem tieReversingSort_contract : SortContract tieReversingSort := by
  intro l
  obtain ⟨h1, h2⟩ := insertionSortByFitness_contract l.reverse
  exact ⟨h1.trans (List.reverse_perm l), h2⟩

theorem built_reachable {sort : List Individual → List Individual}
    {history : List (List Nat)} {g : Generation} (h : Generation.Built sort history g) :
    Generation.Reachable sort g := by
  induction h with
  | new index m c => exact Generation.Reachable.new index m c
  | addIndividual history g individual _ ih =>
    exact Generation.Reachable.addIndividual g individual ih
  | getNBest history g n _ ih => exact Generation.Reachable.getNBest g n ih

/-- The stored individuals are the inserted ones, possibly rearranged. -/
theorem built_perm {sort : List Individual → List Individual} (hs : SortContract sort)
    {history : List (List Nat)} {g : Generation} (h : Generation.Built sort history g) :
    g.m_individuals.Perm (Generation.inserted history) := by
  induction h with
  | new index m c => exact List.Perm.refl _
  | addIndividual history g individual _ ih =>
    unfold Generation.inserted
    rw [List.map_append]
    exact List.Perm.append ih (List.Perm.refl _)
  | getNBest history g n _ ih =>
    by_cases hn : n > g.m_individuals.length
    · rw [Generation.getNBest_of_gt sort g n hn]; exact ih
    · rw [Generation.getNBest_of_le sort g n (by omega) hs]
      exact (Generation.ranked_perm sort hs g).trans ih

/-- Two fitness-sorted arrangements of individuals with pairwise distinct fitness are equal. -/
theorem sorted_perm_unique {l1 l2 : List Individual} (hp : l1.Perm l2)
    (h1 : l1.Pairwise (fun a b => a.2 ≤ b.2)) (h2 : l2.Pairwise (fun a b => a.2 ≤ b.2))
    (hnd : (l2.map Prod.snd).Nodup) : l1 = l2 := by
  have hnd1 : (l1.map Prod.snd).Nodup := (hp.map Prod.snd).nodup_iff.mpr hnd
  have strict : ∀ l : List Individual, l.Pairwise (fun a b => a.2 ≤ b.2) →
      (l.map Prod.snd).Nodup → l.Pairwise (fun a b => a.2 < b.2) := by
    intro l hl hn
    have hne : l.Pairwise (fun a b => a.2 ≠ b.2) := by
      unfold List.Nodup at hn
      exact List.pairwise_map.mp hn
    exact (hl.and hne).imp (fun h => Nat.lt_of_le_of_ne h.1 h.2)
  have : IsAntisymm Individual (fun a b => a.2 < b.2) :=
    ⟨fun a b hab hba => absurd hab (Nat.lt_asymm hba)⟩
  exact List.eq_of_perm_of_sorted hp (strict l1 h1 hnd1) (strict l2 h2 hnd)

/-- Adding individuals one after the other extends the insertion history by them. -/
theorem built_foldl (sort : List Individual → List Individual) :
    ∀ (es history : List (List Nat)) (g : Generation), Generation.Built sort history g →
      Generation.Built sort (history ++ es) (es.foldl Generation.addIndividual g) := by
  intro es
  induction es with
  | nil => intro history g h; rw [List.append_nil]; exact h
  | cons e es ih =>
    intro history g h
    have h2 := ih (history ++ [e]) (g.addIndividual e)
      (Generation.Built.addIndividual history g e h)
    rw [List.append_assoc] at h2
    exact h2

set_option maxRecDepth 100000 in
/-- What `getNBest(17)` returns on the seventeen tied individuals with the `std::sort` of
libstdc++. -/
theorem tiedSeventeen_ranking :
    (Generation.tiedSeventeen.getNBest Libstdcxx.sort 17).1
      = [[0, 1, 1, 1], [0, 2, 2, 2], [0, 2, 2, 0], [0, 2, 1, 0], [0, 2, 0, 0], [0, 1, 3, 3],
          [0, 1, 2, 2], [0, 1, 2, 0], [0, 1, 1, 3], [0, 0, 0, 1], [0, 1, 1, 0], [0, 0, 2, 3],
          [0, 0, 2, 2], [0, 0, 2, 0], [0, 0, 1, 2], [0, 0, 0, 3], [0, 0, 0, 2]] := by
  rfl

set_option maxRecDepth 100000 in
theorem tiedSeventeen_best :
    (Generation.tiedSeventeen.getNBest Libstdcxx.sort 1).1 = [[0, 1, 1, 1]] := by
  rfl

/-- C13, counterexample: seventeen different individuals for the 4-board, all of fitness `4`,
are added to a new generation in the order of `tiedHistory`. With the `std::sort` of libstdc++,
`getNBest(17)` returns them in the order 8, 16, 15, ..., 9, 0, 7, 6, ..., 1 of their insertion:
`getNBest(1)` is the ninth individual added, `[0, 1, 1, 1]`, where the stable sort of the
insertion order has the first one added, `[0, 0, 0, 1]`. -/
theorem getNBest_ties_not_in_insertion_order :
    Generation.Built Libstdcxx.sort Generation.tiedHistory Generation.tiedSeventeen ∧
    Generation.tiedHistory.Nodup ∧
    Generation.tiedSeventeen.m_individuals
      = Generation.tiedHistory.map (fun e => (e, 4)) ∧
    17 ≤ Generation.tiedSeventeen.m_individuals.length ∧
    (Generation.tiedSeventeen.getNBest Libstdcxx.sort 17).1
      = [[0, 1, 1, 1], [0, 2, 2, 2], [0, 2, 2, 0], [0, 2, 1, 0], [0, 2, 0, 0], [0, 1, 3, 3],
          [0, 1, 2, 2], [0, 1, 2, 0], [0, 1, 1, 3], [0, 0, 0, 1], [0, 1, 1, 0], [0, 0, 2, 3],
          [0, 0, 2, 2], [0, 0, 2, 0], [0, 0, 1, 2], [0, 0, 0, 3], [0, 0, 0, 2]] ∧
    (Generation.stableRanking Generation.tiedHistory).take 17 = Generation.tiedHistory ∧
    (Generation.tiedSeventeen.getNBest Libstdcxx.sort 1).1 = [[0, 1, 1, 1]] ∧
    (Generation.stableRanking Generation.tiedHistory).take 1 = [[0, 0, 0, 1]] ∧
    (Generation.tiedSeventeen.getNBest Libstdcxx.sort 1).1
      ≠ (Generation.stableRanking Generation.tiedHistory).take 1 := by
  have h := built_foldl Libstdcxx.sort Generation.tiedHistory [] _
    (Generation.Built.new 0 MUTATION_RATE CROSSOVER_RATE)
  rw [List.nil_append] at h
  have h1 := tiedSeventeen_best
  have h2 : (Generation.stableRanking Generation.tiedHistory).take 1 = [[0, 0, 0, 1]] := by rfl
  refine ⟨h, by decide, by rfl, by decide, tiedSeventeen_ranking, by rfl, h1, h2, ?_⟩
  rw [h1, h2]
  decide

/-- C13, amended: for every generation and every `n ≤ P`, `getNBest n` lists the first `n`
encodings of a rearrangement of the insertion order that is in non-decreasing fitness order;
when no two individuals have the same fitness this is the stable sort of the insertion order
by fitness. The order among individuals of equal fitness is left to `std::sort`. -/
theorem getNBest_ranks_insertions (sort : List Individual → List Individual)
    (hs : SortContract sort) (history : List (List Nat)) (g : Generation)
    (hg : Generation.Built sort history g) (n : Nat) (hn : n ≤ g.m_individuals.length) :
    (∃ ranking : List Individual,
      ranking.Perm (Generation.inserted history) ∧
      ranking.Pairwise (fun a b => a.2 ≤ b.2) ∧
      (g.getNBest sort n).1 = (ranking.map Prod.fst).take n) ∧
    (((Generation.inserted history).map Prod.snd).Nodup →
      (g.getNBest sort n).1 = (Generation.stableRanking history).take n) := by
  have hinv := Generation.reachable_inv hs (built_reachable hg)
  have hperm := (Generation.ranked_perm sort hs g).trans (built_perm hs hg)
  have hsorted := Generation.inv_ranked_sorted hs hinv
  have hres := Generation.getNBest_of_le sort g n hn hs
  refine ⟨⟨Generation.ranked sort g, hperm, hsorted, ?_⟩, fun hnd => ?_⟩
  · rw [hres, List.map_take]
  · have hstable : (insertionSortByFitness (Generation.inserted history)).Pairwise
        (fun a b => a.2 ≤ b.2) :=
      ((insertionSortByFitness_contract _).2).imp (fun h => Nat.le_of_not_lt h)
    have hp2 := hperm.trans (insertionSortByFitness_contract (Generation.inserted history)).1.symm
    have hnd2 : ((insertionSortByFitness (Generation.inserted history)).map Prod.snd).Nodup :=
      (((insertionSortByFitness_contract (Generation.inserted history)).1).map
        Prod.snd).nodup_iff.mpr hnd
    have heq := sorted_perm_unique hp2 hsorted hstable hnd2
    unfold Generation.stableRanking
    rw [hres, heq, List.map_take]

theorem getNBest_ranks_insertions_witness :
    SortContract insertionSortByFitness ∧
    Generation.Built insertionSortByFitness [[0, 0, 0, 0], [1, 3, 0, 2]] Generation.sample ∧
    1 ≤ Generation.sample.m_individuals.length ∧
    ((∃ ranking : List Individual,
      ranking.Perm (Generation.inserted [[0, 0, 0, 0], [1, 3, 0, 2]]) ∧
      ranking.Pairwise (fun a b => a.2 ≤ b.2) ∧
      (Generation.sample.getNBest insertionSortByFitness 1).1 = (ranking.map Prod.fst).take 1) ∧
    (((Generation.inserted [[0, 0, 0, 0], [1, 3, 0, 2]]).map Prod.snd).Nodup →
      (Generation.sample.getNBest insertionSortByFitness 1).1
        = (Generation.stableRanking [[0, 0, 0, 0], [1, 3, 0, 2]]).take 1)) :=
  ⟨insertionSortByFitness_contract,
    Generation.Built.addIndividual [[0, 0, 0, 0]] _ [1, 3, 0, 2]
      (Generation.Built.addIndividual [] _ [0, 0, 0, 0] (Generation.Built.new 0 0 0)),
    by decide,
    getNBest_ranks_insertions insertionSortByFitness insertionSortByFitness_contract
      [[0, 0, 0, 0], [1, 3, 0, 2]] Generation.sample
      (Generation.Built.addIndividual [[0, 0, 0, 0]] _ [1, 3, 0, 2]
        (Generation.Built.addIndividual [] _ [0, 0, 0, 0] (Generation.Built.new 0 0 0)))
      1 (by decide)⟩

/-! ## Memoized ranking -/

/-- C14: two consecutive calls of `getNBest n` with no `addIndividual` in between return the
same list, and the second call leaves the stored individuals in the same order; a call with
`n ≤ P` sets the `m_sorted` flag, the second call keeps it, and `addIndividual` resets it. -/
theorem getNBest_twice (sort : List Individual → List Individual) (hs : SortContract sort)
    (g : Generation) (n : Nat) :
    ((g.getNBest sort n).2.getNBest sort n).1 = (g.getNBest sort n).1 ∧
    ((g.getNBest sort n).2.getNBest sort n).2.m_individuals
      = (g.getNBest sort n).2.m_individuals ∧
    ((g.getNBest sort n).2.getNBest sort n).2.m_sorted = (g.getNBest sort n).2.m_sorted ∧
    (n ≤ g.m_individuals.length → (g.getNBest sort n).2.m_sorted = true) ∧
    (∀ individual, (g.addIndividual individual).m_sorted = false) := by
  by_cases hn : n > g.m_individuals.length
  · rw [Generation.getNBest_of_gt sort g n hn, Generation.getNBest_of_gt sort g n hn]
    exact ⟨rfl, rfl, rfl, fun h => by omega, fun _ => rfl⟩
  · have hle : n ≤ g.m_individuals.length := by omega
    rw [Generation.getNBest_of_le sort g n hle hs]
    have hlen : n ≤ (Generation.ranked sort g).length := by
      rw [(Generation.ranked_perm sort hs g).length_eq]; exact hle
    rw [Generation.getNBest_of_le sort _ n hlen hs]
    have hranked : Generation.ranked sort
        { g with m_individuals := Generation.ranked sort g, m_sorted := true }
        = Generation.ranked sort g := by
      simp [Generation.ranked]
    rw [hranked]
    exact ⟨rfl, rfl, rfl, fun _ => rfl, fun _ => rfl⟩

theorem getNBest_twice_witness :
    SortContract tieReversingSort ∧
    ((Generation.tied.getNBest tieReversingSort 1).2.getNBest tieReversingSort 1).1
      = (Generation.tied.getNBest tieReversingSort 1).1 ∧
    ((Generation.tied.getNBest tieReversingSort 1).2.getNBest tieReversingSort 1).2.m_individuals
      = (Generation.tied.getNBest tieReversingSort 1).2.m_individuals ∧
    ((Generation.tied.getNBest tieReversingSort 1).2.getNBest tieReversingSort 1).2.m_sorted
      = (Generation.tied.getNBest tieReversingSort 1).2.m_sorted ∧
    (1 ≤ Generation.tied.m_individuals.length →
      (Generation.tied.getNBest tieReversingSort 1).2.m_sorted = true) ∧
    (∀ individual, (Generation.tied.addIndividual individual).m_sorted = false) :=
  ⟨tieReversingSort_contract, getNBest_twice tieReversingSort tieReversingSort_contract
    Generation.tied 1⟩

/-! ## Fitness statistics -/

/-- The running minimum is below its start value and below every fitness met, and it is the
start value or one of the fitness values met. -/
theorem foldl_min_spec :
    ∀ (l : List Individual) (best : Nat),
      l.foldl (fun best value => min best value.2) best ≤ best ∧
      (∀ p ∈ l, l.foldl (fun best value => min best value.2) best ≤ p.2) ∧
      (l.foldl (fun best value => min best value.2) best = best ∨
        ∃ p ∈ l, p.2 = l.foldl (fun best value => min best value.2) best) := by
  intro l
  induction l with
  | nil => intro best; exact ⟨Nat.le_refl _, fun p hp => (by cases hp), Or.inl rfl⟩
  | cons a l ih =>
    intro best
    rw [List.foldl_cons]
    obtain ⟨h1, h2, h3⟩ := ih (min best a.2)
    refine ⟨Nat.le_trans h1 (Nat.min_le_left _ _), ?_, ?_⟩
    · intro p hp
      rcases List.mem_cons.mp hp with rfl | hp
      · exact Nat.le_trans h1 (Nat.min_le_right _ _)
      · exact h2 p hp
    · rcases h3 with h3 | ⟨p, hp, h3⟩
      · by_cases hle : best ≤ a.2
        · left; rw [h3]; exact Nat.min_eq_left hle
        · right
          exact ⟨a, List.mem_cons_self _ _, by rw [h3]; exact (Nat.min_eq_right (by omega)).symm⟩
      · right; exact ⟨p, List.mem_cons_of_mem _ hp, h3⟩

/-- C15: on a non-empty generation (every fitness a finite `double`, so at most `DBL_MAX`),
`fitnessBest()` is the minimum of the fitness values: it is the fitness of some individual of
the generation and it is at most the fitness of every individual. -/
theorem fitnessBest_is_minimum (g : Generation) (hne : g.m_individuals ≠ [])
    (hfinite : ∀ p ∈ g.m_individuals, p.2 ≤ DBL_MAX) :
    (∃ p ∈ g.m_individuals, p.2 = g.fitnessBest) ∧
    (∀ p ∈ g.m_individuals, g.fitnessBest ≤ p.2) := by
  unfold Generation.fitnessBest
  obtain ⟨h1, h2, h3⟩ := foldl_min_spec g.m_individuals DBL_MAX
  refine ⟨?_, h2⟩
  rcases h3 with h3 | h3
  · obtain ⟨p, hp⟩ := List.exists_mem_of_ne_nil _ hne
    refine ⟨p, hp, ?_⟩
    have := h2 p hp
    have := hfinite p hp
    omega
  · exact h3

theorem sample_finite : ∀ p ∈ Generation.sample.m_individuals, p.2 ≤ DBL_MAX := by
  have hpow : ∀ k : Nat, 6 ≤ (2 ^ 53 - 1) * 2 ^ k := fun k =>
    Nat.le_trans (by norm_num : 6 ≤ 2 ^ 53 - 1) (Nat.le_mul_of_pos_right _ (Nat.two_pow_pos k))
  have hbig : 6 ≤ DBL_MAX := hpow 971
  have hsmall : ∀ p ∈ Generation.sample.m_individuals, p.2 ≤ 6 := by decide
  exact fun p hp => Nat.le_trans (hsmall p hp) hbig

theorem fitnessBest_is_minimum_witness :
    Generation.sample.m_individuals ≠ [] ∧
    (∀ p ∈ Generation.sample.m_individuals, p.2 ≤ DBL_MAX) ∧
    (∃ p ∈ Generation.sample.m_individuals, p.2 = Generation.sample.fitnessBest) ∧
    (∀ p ∈ Generation.sample.m_individuals, Generation.sample.fitnessBest ≤ p.2) :=
  ⟨by decide, sample_finite, fitnessBest_is_minimum Generation.sample (by decide) sample_finite⟩

/-- C16: on a generation with no individuals, `fitnessAverage()` and `fitnessBest()` return
`DBL_MAX`, `getNBest n` returns an empty list for every `n`, and `getRandomTournament n`
returns an empty encoding for every `n` (and draws nothing). -/
theorem empty_generation_sentinels (g : Generation) (hempty : g.m_individuals = []) :
    g.fitnessAverage = (DBL_MAX : ℚ) ∧
    g.fitnessBest = DBL_MAX ∧
    (∀ (sort : List Individual → List Individual) (n : Nat), (g.getNBest sort n).1 = []) ∧
    (∀ (n : Nat) (rng : List Nat), g.getRandomTournament n rng = ([], rng)) := by
  refine ⟨?_, ?_, ?_, ?_⟩
  · unfold Generation.fitnessAverage
    simp [hempty]
  · unfold Generation.fitnessBest
    rw [hempty]; rfl
  · intro sort n
    unfold Generation.getNBest
    by_cases hn : n > g.m_individuals.length
    · rw [if_pos hn]
    · rw [if_neg hn]
      have h0 : n = 0 := by rw [hempty] at hn; simpa using hn
      rw [h0]; rfl
  · intro n rng
    unfold Generation.getRandomTournament
    rw [if_pos (by rw [hempty]; rfl)]

theorem empty_generation_sentinels_witness :
    (Generation.new 3 0 0).m_individuals = [] ∧
    (Generation.new 3 0 0).fitnessAverage = (DBL_MAX : ℚ) ∧
    (Generation.new 3 0 0).fitnessBest = DBL_MAX ∧
    (∀ (sort : List Individual → List Individual) (n : Nat),
      ((Generation.new 3 0 0).getNBest sort n).1 = []) ∧
    (∀ (n : Nat) (rng : List Nat), (Generation.new 3 0 0).getRandomTournament n rng = ([], rng)) :=
  ⟨rfl, empty_generation_sentinels (Generation.new 3 0 0) rfl⟩

/-- C17: exhaustively for the small boards. The only individual for the 1-board is `[0]` and
its fitness is `0`; the individuals for the 2-board are `[0,0]`, `[0,1]`, `[1,0]` and `[1,1]`,
and each has fitness exactly `1`. -/
theorem small_boards_fitness :
    getFitness [0] = 0 ∧
    (∀ ind, ValidIndividual 1 ind → ind = [0]) ∧
    getFitness [0, 0] = 1 ∧ getFitness [0, 1] = 1 ∧
    getFitness [1, 0] = 1 ∧ getFitness [1, 1] = 1 ∧
    (∀ ind, ValidIndividual 2 ind →
      ind = [0, 0] ∨ ind = [0, 1] ∨ ind = [1, 0] ∨ ind = [1, 1]) := by
  refine ⟨by decide, ?_, by decide, by decide, by decide, by decide, ?_⟩
  · rintro ind ⟨hlen, hval⟩
    match ind, hlen, hval with
    | [a], _, hval =>
      have ha : a < 1 := hval a (by simp)
      interval_cases a
      rfl
  · rintro ind ⟨hlen, hval⟩
    match ind, hlen, hval with
    | [a, b], _, hval =>
      have ha : a < 2 := hval a (by simp)
      have hb : b < 2 := hval b (by simp)
      interval_cases a <;> interval_cases b <;> simp

/-! ## The probability gates -/

theorem uniformInt_cons_of_le (hi d : Nat) (rest : List Nat) (h : d ≤ hi) :
    uniformInt 0 hi (d :: rest) = (d, rest) := by
  unfold uniformInt
  simp only [Nat.sub_zero, Nat.zero_add]
  rw [Nat.mod_eq_of_lt (by omega)]

/-- What one gene of `mutateIndividual` does with the probability draw `d`. -/
theorem mutateStep_of_draw (g : Genetic) (individual acc rest : List Nat) (d i : Nat)
    (hd : d ≤ 100) :
    ((d : ℚ) > g.m_mutationRate * 100 →
      g.mutateStep individual (acc, d :: rest) i = (acc ++ [individual.getD i 0], rest)) ∧
    (¬ ((d : ℚ) > g.m_mutationRate * 100) →
      g.mutateStep individual (acc, d :: rest) i
        = (acc ++ [(uniformInt 0 (g.m_dimension - 1) rest).1],
            (uniformInt 0 (g.m_dimension - 1) rest).2)) := by
  unfold Genetic.mutateStep
  dsimp only
  rw [uniformInt_cons_of_le 100 d rest hd]
  exact ⟨fun h => by rw [if_pos h], fun h => by rw [if_neg h]⟩

/-- What `crossoverIndividuals` does with the probability draw `d`. -/
theorem crossover_of_draw (g : Genetic) (a b rest : List Nat) (d : Nat) (hd : d ≤ 100) :
    ((d : ℚ) > g.m_crossoverRate * 100 →
      g.crossoverIndividuals a b (d :: rest) = ((a, b), rest)) ∧
    (¬ ((d : ℚ) > g.m_crossoverRate * 100) →
      (g.crossoverIndividuals a b (d :: rest)).1.1
        = Genetic.pushGenes b (uniformInt 0 (g.m_dimension - 1) rest).1 g.m_dimension
            (Genetic.pushGenes a 0 (uniformInt 0 (g.m_dimension - 1) rest).1 []) ∧
      (g.crossoverIndividuals a b (d :: rest)).2
        = (uniformInt 0 (g.m_dimension - 1) rest).2) := by
  unfold Genetic.crossoverIndividuals
  dsimp only
  rw [uniformInt_cons_of_le 100 d rest hd]
  exact ⟨fun h => by rw [if_pos h], fun h => by rw [if_neg h]; exact ⟨rfl, rfl⟩⟩

/-- Among the draws `1 .. 100`, those not above `100 * r` are `⌊100 * r⌋` in number. -/
theorem card_draws_le (r : ℚ) (h0 : 0 ≤ r) (h1 : r ≤ 1) :
    ((Finset.Icc 1 100).filter (fun d : Nat => ¬ ((d : ℚ) > r * 100))).card
      = ⌊r * 100⌋₊ := by
  have hfloor : ⌊r * 100⌋₊ ≤ 100 := by
    apply Nat.floor_le_of_le
    push_cast
    nlinarith
  have hset : (Finset.Icc 1 100).filter (fun d : Nat => ¬ ((d : ℚ) > r * 100))
      = Finset.Icc 1 ⌊r * 100⌋₊ := by
    ext d
    simp only [Finset.mem_filter, Finset.mem_Icc, not_lt, gt_iff_lt]
    rw [← Nat.le_floor_iff (by positivity)]
    constructor
    · rintro ⟨⟨h1, _⟩, h3⟩; exact ⟨h1, h3⟩
    · rintro ⟨h1, h3⟩; exact ⟨⟨h1, by omega⟩, h3⟩
  rw [hset, Nat.card_Icc]
  omega

/-- The probe `replacesGene` follows the gate of `mutateIndividual`. -/
theorem replacesGene_iff (g : Genetic) (d : Nat) (hd : d ≤ 100) :
    g.replacesGene d = true ↔ ¬ ((d : ℚ) > g.m_mutationRate * 100) := by
  obtain ⟨h1, h2⟩ := mutateStep_of_draw g [1] [] [0] d 0 hd
  unfold Genetic.replacesGene
  by_cases h : (d : ℚ) > g.m_mutationRate * 100
  · rw [h1 h]
    simp only [h, not_true_eq_false, iff_false]
    decide
  · rw [h2 h, uniformInt_cons_of_le (g.m_dimension - 1) 0 [] (Nat.zero_le _)]
    simp only [h, not_false_eq_true, iff_true]
    decide

/-- The probe `performsCrossover` follows the gate of `crossoverIndividuals`. -/
theorem performsCrossover_iff (g : Genetic) (hN : 0 < g.m_dimension) (d : Nat) (hd : d ≤ 100) :
    g.performsCrossover d = true ↔ ¬ ((d : ℚ) > g.m_crossoverRate * 100) := by
  unfold Genetic.performsCrossover
  by_cases h : (d : ℚ) > g.m_crossoverRate * 100
  · rw [(crossover_of_draw g _ _ [0] d hd).1 h]
    simp [h]
  · have hp : uniformInt 0 100 [d, 0] = (d, [0]) := uniformInt_cons_of_le 100 d [0] hd
    have hb : ¬ (((uniformInt 0 100 [d, 0]).1 : ℚ) > g.m_crossoverRate * 100) := by
      rw [hp]; exact h
    have hc : (uniformInt 0 (g.m_dimension - 1) (uniformInt 0 100 [d, 0]).2).1 = 0 := by
      rw [hp, uniformInt_cons_of_le (g.m_dimension - 1) 0 [] (Nat.zero_le _)]
    obtain ⟨_, hch⟩ := crossoverIndividuals_branch g (List.replicate g.m_dimension 0)
      (List.replicate g.m_dimension 1) [d, 0] (List.length_replicate _ _)
      (List.length_replicate _ _) hN hb 0 hc
    rw [hch]
    simp only [h, not_false_eq_true, iff_true, List.take_zero, List.drop_zero, List.nil_append,
      bne_iff_ne, ne_eq, Prod.mk.injEq, and_true]
    intro heq
    have := congrArg (fun l => l.getD 0 0) heq
    obtain ⟨n, hn⟩ := Nat.exists_eq_succ_of_ne_zero (Nat.pos_iff_ne_zero.mp hN)
    rw [hn] at this
    simp [List.replicate_succ] at this

/-- Among the draws `1 .. 100`, those at which the gene is replaced are `⌊100 * rate⌋`. -/
theorem card_replacesGene (g : Genetic)
    (hm0 : 0 ≤ g.m_mutationRate) (hm1 : g.m_mutationRate ≤ 1) :
    ((Finset.Icc 1 100).filter (fun d => g.replacesGene d = true)).card
      = ⌊g.m_mutationRate * 100⌋₊ := by
  rw [← card_draws_le g.m_mutationRate hm0 hm1]
  congr 1
  apply Finset.filter_congr
  intro d hd
  exact replacesGene_iff g d (Finset.mem_Icc.mp hd).2

/-- Among the draws `1 .. 100`, those at which crossover is performed are `⌊100 * rate⌋`. -/
theorem card_performsCrossover (g : Genetic) (hN : 0 < g.m_dimension)
    (hc0 : 0 ≤ g.m_crossoverRate) (hc1 : g.m_crossoverRate ≤ 1) :
    ((Finset.Icc 1 100).filter (fun d => g.performsCrossover d = true)).card
      = ⌊g.m_crossoverRate * 100⌋₊ := by
  rw [← card_draws_le g.m_crossoverRate hc0 hc1]
  congr 1
  apply Finset.filter_congr
  intro d hd
  exact performsCrossover_iff g hN d (Finset.mem_Icc.mp hd).2

/-- The draws at which the fresh engine for the 4-board replaces a gene and performs the
crossover. -/
theorem default_gate_draws :
    (Finset.range 101).filter (fun d => (Genetic.new 4).replacesGene d = true) = {0, 1, 2} ∧
    (Finset.range 101).filter (fun d => (Genetic.new 4).performsCrossover d = true)
      = Finset.range 86 := by
  constructor
  · ext d
    simp only [Finset.mem_filter, Finset.mem_range, Finset.mem_insert, Finset.mem_singleton]
    constructor
    · rintro ⟨hd, h⟩
      rw [replacesGene_iff _ d (by omega)] at h
      have h2 : (d : ℚ) ≤ 235 / 10000 * 100 := not_lt.mp h
      have h3 : (d : ℚ) < 3 := by linarith
      have h4 : d < 3 := by exact_mod_cast h3
      omega
    · intro hd
      have hd3 : d < 3 := by omega
      refine ⟨by omega, ?_⟩
      rw [replacesGene_iff _ d (by omega)]
      have h3 : (d : ℚ) ≤ 2 := by exact_mod_cast (by omega : d ≤ 2)
      show ¬ ((d : ℚ) > 235 / 10000 * 100)
      linarith
  · ext d
    simp only [Finset.mem_filter, Finset.mem_range]
    constructor
    · rintro ⟨hd, h⟩
      rw [performsCrossover_iff _ (by decide) d (by omega)] at h
      have h2 : (d : ℚ) ≤ 85 / 100 * 100 := not_lt.mp h
      have h3 : (d : ℚ) < 86 := by linarith
      exact_mod_cast h3
    · intro hd
      refine ⟨by omega, ?_⟩
      rw [performsCrossover_iff _ (by decide) d (by omega)]
      have h3 : (d : ℚ) ≤ 85 := by exact_mod_cast (by omega : d ≤ 85)
      show ¬ ((d : ℚ) > 85 / 100 * 100)
      linarith

/-- C20, counterexample: the fresh engine `Genetic(4)` holds the rates `MUTATION_RATE = 0.0235`
and `CROSSOVER_RATE = 0.85`. Of the 101 probability draws `0 .. 100` exactly the three draws
`0, 1, 2` make `mutateIndividual` replace a gene (draw `2` replaces gene `0` below, the draws
`3` keep the others), and `3/101` is not the mutation rate; also among the draws `1 .. 100`
the proportion `2/100` is not the mutation rate. Exactly the 86 draws `0 .. 85` make
`crossoverIndividuals` perform the crossover, and `86/101` is not the crossover rate. -/
theorem default_rates_not_proportions :
    (Genetic.new 4).m_mutationRate = MUTATION_RATE ∧
    (Genetic.new 4).m_crossoverRate = CROSSOVER_RATE ∧
    (Genetic.new 4).mutateIndividual [1, 1, 1, 1] [2, 0, 3, 3, 3] = ([0, 1, 1, 1], []) ∧
    (Genetic.new 4).crossoverIndividuals [0, 0, 0, 0] [1, 1, 1, 1] [85, 2]
      = (([0, 0, 1, 1], [0, 0, 1, 1]), []) ∧
    (Genetic.new 4).crossoverIndividuals [0, 0, 0, 0] [1, 1, 1, 1] [86, 2]
      = (([0, 0, 0, 0], [1, 1, 1, 1]), [2]) ∧
    (Finset.range 101).filter (fun d => (Genetic.new 4).replacesGene d = true) = {0, 1, 2} ∧
    (((Finset.range 101).filter (fun d => (Genetic.new 4).replacesGene d = true)).card : ℚ)
      / 101 ≠ (Genetic.new 4).m_mutationRate ∧
    (((Finset.Icc 1 100).filter (fun d => (Genetic.new 4).replacesGene d = true)).card : ℚ)
      / 100 ≠ (Genetic.new 4).m_mutationRate ∧
    (Finset.range 101).filter (fun d => (Genetic.new 4).performsCrossover d = true)
      = Finset.range 86 ∧
    (((Finset.range 101).filter (fun d => (Genetic.new 4).performsCrossover d = true)).card : ℚ)
      / 101 ≠ (Genetic.new 4).m_crossoverRate := by
  obtain ⟨hm, hc⟩ := default_gate_draws
  have hrm : (Genetic.new 4).m_mutationRate = 235 / 10000 := rfl
  have hrc : (Genetic.new 4).m_crossoverRate = 85 / 100 := rfl
  have hk2 : ¬ (((2 : Nat) : ℚ) > (Genetic.new 4).m_mutationRate * 100) := by
    rw [hrm]; norm_num
  have hk3 : (((3 : Nat) : ℚ) > (Genetic.new 4).m_mutationRate * 100) := by
    rw [hrm]; norm_num
  have hc85 : ¬ (((85 : Nat) : ℚ) > (Genetic.new 4).m_crossoverRate * 100) := by
    rw [hrc]; norm_num
  have hc86 : (((86 : Nat) : ℚ) > (Genetic.new 4).m_crossoverRate * 100) := by
    rw [hrc]; norm_num
  refine ⟨rfl, rfl, ?_, ?_, ?_, hm, ?_, ?_, hc, ?_⟩
  · have hr : List.range (Genetic.new 4).m_dimension = [0, 1, 2, 3] := by decide
    unfold Genetic.mutateIndividual
    rw [hr]
    simp only [List.foldl_cons, List.foldl_nil]
    rw [(mutateStep_of_draw _ [1, 1, 1, 1] [] [0, 3, 3, 3] 2 0 (by decide)).2 hk2]
    have hd : uniformInt 0 ((Genetic.new 4).m_dimension - 1) [0, 3, 3, 3] = (0, [3, 3, 3]) := by
      decide
    rw [hd, (mutateStep_of_draw _ [1, 1, 1, 1] _ [3, 3] 3 1 (by decide)).1 hk3,
      (mutateStep_of_draw _ [1, 1, 1, 1] _ [3] 3 2 (by decide)).1 hk3,
      (mutateStep_of_draw _ [1, 1, 1, 1] _ [] 3 3 (by decide)).1 hk3]
    rfl
  · have hp : uniformInt 0 100 [85, 2] = (85, [2]) := by decide
    have hb : ¬ (((uniformInt 0 100 [85, 2]).1 : ℚ) > (Genetic.new 4).m_crossoverRate * 100) := by
      rw [hp]; exact hc85
    have h1 := (crossoverIndividuals_branch (Genetic.new 4) [0, 0, 0, 0] [1, 1, 1, 1] [85, 2]
      rfl rfl (by decide) hb 2 (by decide)).2
    have h2 := ((crossover_of_draw (Genetic.new 4) [0, 0, 0, 0] [1, 1, 1, 1] [2] 85
      (by decide)).2 hc85).2
    exact Prod.ext h1 h2
  · exact (crossover_of_draw (Genetic.new 4) [0, 0, 0, 0] [1, 1, 1, 1] [2] 86 (by decide)).1 hc86
  · rw [hm, hrm]; norm_num
  · rw [card_replacesGene _ (by rw [hrm]; norm_num) (by rw [hrm]; norm_num), hrm]
    have hf : ⌊(235 / 10000 : ℚ) * 100⌋₊ = 2 := by
      rw [Nat.floor_eq_iff (by norm_num)]; norm_num
    rw [hf]; norm_num
  · rw [hc, hrc]; norm_num

/-- C20, amended: on an engine for a board of size at least 1 with rates in `[0, 1]`, a
probability draw `d` with `1 ≤ d ≤ 100 * rate` makes `mutateIndividual` replace the gene by a
fresh gene draw and `crossoverIndividuals` build the children from both parents, and a draw
`d ≤ 100` with `d ≥ 100 * rate + 1/1000` makes `mutateIndividual` keep the gene and
`crossoverIndividuals` return the parents verbatim. The draws in between are the ones the
rounding of the product `rate * 100` decides; nothing is said of them, nor of the draw `0`.
So among the draws `1 .. 100` the number of those that select mutation (crossover) is at
least `⌊100 * rate⌋` and at most `⌊100 * rate + 1/1000⌋`, and when `100 * rate` is a whole
number `k` it is `k`, a proportion of the draws `1 .. 100` equal to the rate. -/
theorem gates_by_draw (g : Genetic) (hN : 0 < g.m_dimension)
    (hm0 : 0 ≤ g.m_mutationRate) (hm1 : g.m_mutationRate ≤ 1)
    (hc0 : 0 ≤ g.m_crossoverRate) (hc1 : g.m_crossoverRate ≤ 1) :
    (∀ (individual acc rest : List Nat) (d i : Nat), 1 ≤ d →
      (d : ℚ) ≤ g.m_mutationRate * 100 →
      g.mutateStep individual (acc, d :: rest) i
        = (acc ++ [(uniformInt 0 (g.m_dimension - 1) rest).1],
            (uniformInt 0 (g.m_dimension - 1) rest).2)) ∧
    (∀ (individual acc rest : List Nat) (d i : Nat), d ≤ 100 →
      g.m_mutationRate * 100 + 1 / 1000 ≤ (d : ℚ) →
      g.mutateStep individual (acc, d :: rest) i = (acc ++ [individual.getD i 0], rest)) ∧
    (∀ (a b rest : List Nat) (d : Nat), 1 ≤ d → (d : ℚ) ≤ g.m_crossoverRate * 100 →
      a.length = g.m_dimension → b.length = g.m_dimension →
      (g.crossoverIndividuals a b (d :: rest)).1.1
        = a.take (uniformInt 0 (g.m_dimension - 1) rest).1
            ++ b.drop (uniformInt 0 (g.m_dimension - 1) rest).1 ∧
      (g.crossoverIndividuals a b (d :: rest)).2
        = (uniformInt 0 (g.m_dimension - 1) rest).2) ∧
    (∀ (a b rest : List Nat) (d : Nat), d ≤ 100 →
      g.m_crossoverRate * 100 + 1 / 1000 ≤ (d : ℚ) →
      g.crossoverIndividuals a b (d :: rest) = ((a, b), rest)) ∧
    (⌊g.m_mutationRate * 100⌋₊
        ≤ ((Finset.Icc 1 100).filter (fun d => g.replacesGene d = true)).card ∧
      ((Finset.Icc 1 100).filter (fun d => g.replacesGene d = true)).card
        ≤ ⌊g.m_mutationRate * 100 + 1 / 1000⌋₊) ∧
    (⌊g.m_crossoverRate * 100⌋₊
        ≤ ((Finset.Icc 1 100).filter (fun d => g.performsCrossover d = true)).card ∧
      ((Finset.Icc 1 100).filter (fun d => g.performsCrossover d = true)).card
        ≤ ⌊g.m_crossoverRate * 100 + 1 / 1000⌋₊) ∧
    (∀ k : Nat, g.m_mutationRate * 100 = (k : ℚ) →
      ((Finset.Icc 1 100).filter (fun d => g.replacesGene d = true)).card = k ∧
      (((Finset.Icc 1 100).filter (fun d => g.replacesGene d = true)).card : ℚ) / 100
        = g.m_mutationRate) ∧
    (∀ k : Nat, g.m_crossoverRate * 100 = (k : ℚ) →
      ((Finset.Icc 1 100).filter (fun d => g.performsCrossover d = true)).card = k ∧
      (((Finset.Icc 1 100).filter (fun d => g.performsCrossover d = true)).card : ℚ) / 100
        = g.m_crossoverRate) := by
  have cm := card_replacesGene g hm0 hm1
  have cc := card_performsCrossover g hN hc0 hc1
  have hle100 : ∀ (r : ℚ) (d : Nat), r ≤ 1 → (d : ℚ) ≤ r * 100 → d ≤ 100 := by
    intro r d hr hd
    have h : (d : ℚ) ≤ 100 := by linarith
    exact_mod_cast h
  refine ⟨?_, ?_, ?_, ?_, ?_, ?_, ?_, ?_⟩
  · intro individual acc rest d i _ hd
    exact (mutateStep_of_draw g individual acc rest d i (hle100 _ d hm1 hd)).2 (not_lt.mpr hd)
  · intro individual acc rest d i hd hgt
    exact (mutateStep_of_draw g individual acc rest d i hd).1 (by linarith)
  · intro a b rest d _ hd ha hb
    have hd100 := hle100 _ d hc1 hd
    have hp : uniformInt 0 100 (d :: rest) = (d, rest) := uniformInt_cons_of_le 100 d rest hd100
    have hbr : ¬ (((uniformInt 0 100 (d :: rest)).1 : ℚ) > g.m_crossoverRate * 100) := by
      rw [hp]; exact not_lt.mpr hd
    have h1 := (crossoverIndividuals_branch g a b (d :: rest) ha hb hN hbr
      (uniformInt 0 (g.m_dimension - 1) rest).1 (by rw [hp])).2
    refine ⟨?_, ((crossover_of_draw g a b rest d hd100).2 (not_lt.mpr hd)).2⟩
    rw [h1]
  · intro a b rest d hd hgt
    exact (crossover_of_draw g a b rest d hd).1 (by linarith)
  · rw [cm]
    exact ⟨le_refl _, Nat.floor_mono (by linarith)⟩
  · rw [cc]
    exact ⟨le_refl _, Nat.floor_mono (by linarith)⟩
  · intro k hk
    rw [cm, hk, Nat.floor_natCast]
    refine ⟨rfl, ?_⟩
    rw [← hk]; ring
  · intro k hk
    rw [cc, hk, Nat.floor_natCast]
    refine ⟨rfl, ?_⟩
    rw [← hk]; ring

theorem default_rates_in_range :
    0 ≤ (Genetic.new 4).m_mutationRate ∧ (Genetic.new 4).m_mutationRate ≤ 1 ∧
    0 ≤ (Genetic.new 4).m_crossoverRate ∧ (Genetic.new 4).m_crossoverRate ≤ 1 := by
  unfold Genetic.new MUTATION_RATE CROSSOVER_RATE
  norm_num

theorem gates_by_draw_witness :
    0 < (Genetic.new 4).m_dimension ∧
    (0 ≤ (Genetic.new 4).m_mutationRate ∧ (Genetic.new 4).m_mutationRate ≤ 1 ∧
      0 ≤ (Genetic.new 4).m_crossoverRate ∧ (Genetic.new 4).m_crossoverRate ≤ 1) ∧
    (
    (∀ (individual acc rest : List Nat) (d i : Nat), 1 ≤ d →
      (d : ℚ) ≤ (Genetic.new 4).m_mutationRate * 100 →
      (Genetic.new 4).mutateStep individual (acc, d :: rest) i
        = (acc ++ [(uniformInt 0 ((Genetic.new 4).m_dimension - 1) rest).1],
            (uniformInt 0 ((Genetic.new 4).m_dimension - 1) rest).2)) ∧
    (∀ (individual acc rest : List Nat) (d i : Nat), d ≤ 100 →
      (Genetic.new 4).m_mutationRate * 100 + 1 / 1000 ≤ (d : ℚ) →
      (Genetic.new 4).mutateStep individual (acc, d :: rest) i = (acc ++ [individual.getD i 0], rest)) ∧
    (∀ (a b rest : List Nat) (d : Nat), 1 ≤ d → (d : ℚ) ≤ (Genetic.new 4).m_crossoverRate * 100 →
      a.length = (Genetic.new 4).m_dimension → b.length = (Genetic.new 4).m_dimension →
      ((Genetic.new 4).crossoverIndividuals a b (d :: rest)).1.1
        = a.take (uniformInt 0 ((Genetic.new 4).m_dimension - 1) rest).1
            ++ b.drop (uniformInt 0 ((Genetic.new 4).m_dimension - 1) rest).1 ∧
      ((Genetic.new 4).crossoverIndividuals a b (d :: rest)).2
        = (uniformInt 0 ((Genetic.new 4).m_dimension - 1) rest).2) ∧
    (∀ (a b rest : List Nat) (d : Nat), d ≤ 100 →
      (Genetic.new 4).m_crossoverRate * 100 + 1 / 1000 ≤ (d : ℚ) →
      (Genetic.new 4).crossoverIndividuals a b (d :: rest) = ((a, b), rest)) ∧
    (⌊(Genetic.new 4).m_mutationRate * 100⌋₊
        ≤ ((Finset.Icc 1 100).filter (fun d => (Genetic.new 4).replacesGene d = true)).card ∧
      ((Finset.Icc 1 100).filter (fun d => (Genetic.new 4).replacesGene d = true)).card
        ≤ ⌊(Genetic.new 4).m_mutationRate * 100 + 1 / 1000⌋₊) ∧
    (⌊(Genetic.new 4).m_crossoverRate * 100⌋₊
        ≤ ((Finset.Icc 1 100).filter (fun d => (Genetic.new 4).performsCrossover d = true)).card ∧
      ((Finset.Icc 1 100).filter (fun d => (Genetic.new 4).performsCrossover d = true)).card
        ≤ ⌊(Genetic.new 4).m_crossoverRate * 100 + 1 / 1000⌋₊) ∧
    (∀ k : Nat, (Genetic.new 4).m_mutationRate * 100 = (k : ℚ) →
      ((Finset.Icc 1 100).filter (fun d => (Genetic.new 4).replacesGene d = true)).card = k ∧
      (((Finset.Icc 1 100).filter (fun d => (Genetic.new 4).replacesGene d = true)).card : ℚ) / 100
        = (Genetic.new 4).m_mutationRate) ∧
    (∀ k : Nat, (Genetic.new 4).m_crossoverRate * 100 = (k : ℚ) →
      ((Finset.Icc 1 100).filter (fun d => (Genetic.new 4).performsCrossover d = true)).card = k ∧
      (((Finset.Icc 1 100).filter (fun d => (Genetic.new 4).performsCrossover d = true)).card : ℚ) / 100
        = (Genetic.new 4).m_crossoverRate)) :=
  ⟨by decide, default_rates_in_range,
    gates_by_draw (Genetic.new 4) (by decide) default_rates_in_range.1
      default_rates_in_range.2.1 default_rates_in_range.2.2.1 default_rates_in_range.2.2.2⟩

/-! ## No pair of rows is counted twice -/

theorem equal_columns_not_diagonal (individual : List Nat) (r1 r2 : Nat)
    (h1 : r1 < 2 ^ 31) (h2 : r2 < 2 ^ 31) (hne : r1 ≠ r2)
    (hcol : individual.getD r1 0 = individual.getD r2 0) :
    ¬ diagonalTest individual r1 r2 := by
  unfold diagonalTest
  rw [castInt_of_lt h1, castInt_of_lt h2, hcol, sub_self, Int.natAbs_zero]
  intro h
  have := Int.natAbs_eq_zero.mp h
  omega

theorem attackStep_le (individual : List Nat) (row i acc : Nat)
    (h1 : row < 2 ^ 31) (h2 : i < 2 ^ 31) :
    attackStep row individual acc i ≤ acc + 1 := by
  unfold attackStep
  by_cases hi : i = row
  · rw [if_pos hi]; omega
  · rw [if_neg hi]
    dsimp only
    by_cases hcol : individual.getD row 0 = individual.getD i 0
    · have hnd := equal_columns_not_diagonal individual row i h1 h2 (fun h => hi h.symm) hcol
      unfold diagonalTest at hnd
      rw [if_pos hcol, if_neg hnd]
    · rw [if_neg hcol]
      split <;> omega

theorem foldl_attackStep_le (individual : List Nat) (row : Nat) (h1 : row < 2 ^ 31) :
    ∀ (l : List Nat) (acc : Nat), (∀ i ∈ l, i < 2 ^ 31) →
      l.foldl (attackStep row individual) acc ≤ acc + l.length := by
  intro l
  induction l with
  | nil => intro acc _; simp
  | cons a l ih =>
    intro acc h
    rw [List.foldl_cons, List.length_cons]
    have hstep := attackStep_le individual row a acc h1 (h a (List.mem_cons_self _ _))
    have := ih (attackStep row individual acc a) (fun i hi => h i (List.mem_cons_of_mem _ hi))
    omega

theorem attackCount_le (individual : List Nat) (hN : individual.length ≤ 2 ^ 31) (row : Nat)
    (hrow : row < individual.length) :
    attackCount row individual ≤ individual.length - 1 - row := by
  unfold attackCount
  have hsplit : List.range' row (individual.length - row)
      = row :: List.range' (row + 1) (individual.length - row - 1) := by
    have : individual.length - row = (individual.length - row - 1) + 1 := by omega
    rw [this, List.range'_succ]
    simp
  rw [hsplit, List.foldl_cons]
  have h0 : attackStep row individual 0 row = 0 := by unfold attackStep; simp
  rw [h0]
  have := foldl_attackStep_le individual row (by omega)
    (List.range' (row + 1) (individual.length - row - 1)) 0
    (fun i hi => by rw [List.mem_range'_1] at hi; omega)
  rw [List.length_range'] at this
  omega

/-- C23: for an individual of length `N` (within the range of `int`), whatever its columns, a
pair of distinct rows with equal columns never passes the diagonal test, one pass of the loop
of `attackCount` adds at most `1`, and so `getFitness individual ≤ N * (N - 1) / 2`. -/
theorem getFitness_le_pairs (individual : List Nat) (hN : individual.length ≤ 2 ^ 31) :
    (∀ r1 r2, r1 < individual.length → r2 < individual.length → r1 ≠ r2 →
      individual.getD r1 0 = individual.getD r2 0 → ¬ diagonalTest individual r1 r2) ∧
    (∀ row i acc, row < individual.length → i < individual.length →
      attackStep row individual acc i ≤ acc + 1) ∧
    getFitness individual ≤ individual.length * (individual.length - 1) / 2 := by
  refine ⟨?_, ?_, ?_⟩
  · intro r1 r2 h1 h2 hne hcol
    exact equal_columns_not_diagonal individual r1 r2 (by omega) (by omega) hne hcol
  · intro row i acc h1 h2
    exact attackStep_le individual row i acc (by omega) (by omega)
  · have hsum : ∑ r in Finset.range individual.length, (individual.length - 1 - r)
        = individual.length * (individual.length - 1) / 2 := by
      rw [Finset.sum_range_reflect (fun r => r) individual.length, Finset.sum_range_id]
    rw [getFitness_eq_sum, ← hsum]
    exact Finset.sum_le_sum
      (fun r hr => attackCount_le individual hN r (Finset.mem_range.mp hr))

theorem getFitness_le_pairs_witness :
    [5, 5, 5, 5].length ≤ 2 ^ 31 ∧ getFitness [5, 5, 5, 5] = 6 ∧
    (∀ r1 r2, r1 < [5, 5, 5, 5].length → r2 < [5, 5, 5, 5].length → r1 ≠ r2 →
      [5, 5, 5, 5].getD r1 0 = [5, 5, 5, 5].getD r2 0 → ¬ diagonalTest [5, 5, 5, 5] r1 r2) ∧
    (∀ row i acc, row < [5, 5, 5, 5].length → i < [5, 5, 5, 5].length →
      attackStep row [5, 5, 5, 5] acc i ≤ acc + 1) ∧
    getFitness [5, 5, 5, 5] ≤ [5, 5, 5, 5].length * ([5, 5, 5, 5].length - 1) / 2 :=
  ⟨by decide, by decide, getFitness_le_pairs [5, 5, 5, 5] (by decide)⟩

/-! ## The best individual and the statistics -/

theorem getNBest_snd_perm (sort : List Individual → List Individual) (hs : SortContract sort)
    (g : Generation) (n : Nat) : (g.getNBest sort n).2.m_individuals.Perm g.m_individuals := by
  by_cases hn : n > g.m_individuals.length
  · rw [Generation.getNBest_of_gt sort g n hn]
  · exact (getNBest_members sort hs g n (by omega)).2.2

theorem fitnessBest_perm {g1 g2 : Generation} (h : g1.m_individuals.Perm g2.m_individuals) :
    g1.fitnessBest = g2.fitnessBest := by
  unfold Generation.fitnessBest
  refine h.foldl_eq' (fun x _ y _ z => ?_) DBL_MAX
  simp only [Nat.min_assoc, Nat.min_comm x.2 y.2]

theorem fitnessAverage_perm {g1 g2 : Generation} (h : g1.m_individuals.Perm g2.m_individuals) :
    g1.fitnessAverage = g2.fitnessAverage := by
  unfold Generation.fitnessAverage
  have hsum : g1.m_individuals.foldl (fun (sum : Nat) (value : Individual) => sum + value.2) 0
      = g2.m_individuals.foldl (fun (sum : Nat) (value : Individual) => sum + value.2) 0 :=
    h.foldl_eq' (fun x _ y _ z => by omega) 0
  dsimp only
  rw [hsum, h.length_eq]

/-- C22: on a non-empty generation built with `addIndividual` (every fitness a finite
`double`), `getNBest 1` returns a single encoding whose fitness is `fitnessBest()`, and a call
of `getNBest`, for any `n`, leaves the values of `fitnessBest()` and `fitnessAverage()` as they
were. -/
theorem getNBest_one_is_best (sort : List Individual → List Individual)
    (hs : SortContract sort) (g : Generation) (hg : g.Reachable sort)
    (hne : g.m_individuals ≠ []) (hfinite : ∀ p ∈ g.m_individuals, p.2 ≤ DBL_MAX) :
    (∃ e, (g.getNBest sort 1).1 = [e] ∧ getFitness e = g.fitnessBest) ∧
    (∀ n, (g.getNBest sort n).2.fitnessBest = g.fitnessBest ∧
      (g.getNBest sort n).2.fitnessAverage = g.fitnessAverage) := by
  refine ⟨?_, fun n => ⟨fitnessBest_perm (getNBest_snd_perm sort hs g n),
    fitnessAverage_perm (getNBest_snd_perm sort hs g n)⟩⟩
  have hinv := Generation.reachable_inv hs hg
  have hperm := Generation.ranked_perm sort hs g
  have hsorted := Generation.inv_ranked_sorted hs hinv
  have hlen : 1 ≤ g.m_individuals.length := List.length_pos.mpr hne
  rw [Generation.getNBest_of_le sort g 1 hlen hs]
  have hbest : g.fitnessBest
      = (Generation.ranked sort g).foldl (fun best value => min best value.2) DBL_MAX := by
    unfold Generation.fitnessBest
    exact (hperm.symm.foldl_eq' (fun x _ y _ z => by
      simp only [Nat.min_assoc, Nat.min_comm x.2 y.2]) DBL_MAX)
  obtain ⟨_, hle, hattained⟩ := foldl_min_spec (Generation.ranked sort g) DBL_MAX
  rw [← hbest] at hle hattained
  cases hr : Generation.ranked sort g with
  | nil =>
    rw [hr] at hperm
    exact absurd hperm.symm.eq_nil hne
  | cons p0 rest =>
    rw [hr] at hsorted hle hattained hperm
    refine ⟨p0.1, rfl, ?_⟩
    have hp0 : p0 ∈ g.m_individuals := hperm.mem_iff.mp (List.mem_cons_self _ _)
    rw [← hinv.2 p0 hp0]
    have h1 := hle p0 (List.mem_cons_self _ _)
    have hfirst := (List.pairwise_cons.mp hsorted).1
    rcases hattained with hmax | ⟨p, hp, hpe⟩
    · have := hfinite p0 hp0
      omega
    · rcases List.mem_cons.mp hp with rfl | hp
      · exact hpe
      · have := hfirst p hp
        omega

theorem getNBest_one_is_best_witness :
    SortContract tieReversingSort ∧
    Generation.Reachable tieReversingSort Generation.sample ∧
    Generation.sample.m_individuals ≠ [] ∧
    (∀ p ∈ Generation.sample.m_individuals, p.2 ≤ DBL_MAX) ∧
    (∃ e, (Generation.sample.getNBest tieReversingSort 1).1 = [e] ∧
      getFitness e = Generation.sample.fitnessBest) ∧
    (∀ n, (Generation.sample.getNBest tieReversingSort n).2.fitnessBest
        = Generation.sample.fitnessBest ∧
      (Generation.sample.getNBest tieReversingSort n).2.fitnessAverage
        = Generation.sample.fitnessAverage) :=
  ⟨tieReversingSort_contract,
    Generation.Reachable.addIndividual _ _
      (Generation.Reachable.addIndividual _ _ (Generation.Reachable.new 0 0 0)),
    by decide, sample_finite,
    getNBest_one_is_best tieReversingSort tieReversingSort_contract Generation.sample
      (Generation.Reachable.addIndividual _ _
        (Generation.Reachable.addIndividual _ _ (Generation.Reachable.new 0 0 0)))
      (by decide) sample_finite⟩

/-! ## Every vector read of `run` is in bounds -/

/-- A checked loop whose every step succeeds with the value of the unchecked step, as long as
an invariant `P` holds, succeeds with the value of the unchecked loop. -/
theorem foldlM_eq_some {σ α : Type} (P : σ → Prop) (f : σ → α → σ) (fc : σ → α → Option σ) :
    ∀ (l : List α) (s : σ), P s →
      (∀ s a, a ∈ l → P s → fc s a = some (f s a) ∧ P (f s a)) →
      l.foldlM fc s = some (l.foldl f s) := by
  intro l
  induction l with
  | nil => intro s _ _; rfl
  | cons a l ih =>
    intro s hs hstep
    obtain ⟨h1, h2⟩ := hstep s a (List.mem_cons_self _ _) hs
    rw [List.foldlM_cons, h1, List.foldl_cons]
    exact ih (f s a) h2 (fun s b hb hP => hstep s b (List.mem_cons_of_mem _ hb) hP)

theorem getElem?_eq_some_getD {α : Type} (l : List α) (i : Nat) (d : α) (h : i < l.length) :
    l[i]? = some (l.getD i d) := by
  rw [List.getD_eq_getElem _ _ h, List.getElem?_eq_getElem h]

theorem getNBestChecked_eq (sort : List Individual → List Individual) (hs : SortContract sort)
    (g : Generation) (n : Nat) : g.getNBestChecked sort n = some (g.getNBest sort n) := by
  unfold Generation.getNBestChecked Generation.getNBest
  by_cases hn : n > g.m_individuals.length
  · rw [if_pos hn, if_pos hn]
  · rw [if_neg hn, if_neg hn]
    dsimp only
    have key : ∀ l : List Individual, n ≤ l.length →
        (List.range n).foldlM
          (fun returnVector i => (l[i]?).map (fun p => returnVector ++ [p.1])) []
        = some ((List.range n).foldl
          (fun returnVector i => returnVector ++ [(l.getD i ([], 0)).1]) []) := by
      intro l hl
      refine foldlM_eq_some (fun _ => True) _ _ (List.range n) [] trivial ?_
      intro rv i hi _
      rw [List.mem_range] at hi
      rw [getElem?_eq_some_getD l i ([], 0) (by omega)]
      exact ⟨rfl, trivial⟩
    cases hsd : g.m_sorted
    · simp only [Bool.not_false, if_true]
      rw [key _ (by rw [(hs _).1.length_eq]; omega)]
      rfl
    · simp only [Bool.not_true, Bool.false_eq_true, if_false]
      rw [key _ (by omega)]
      rfl

theorem getRandomTournamentChecked_eq (g : Generation) (n : Nat) (rng : List Nat) :
    g.getRandomTournamentChecked n rng = some (g.getRandomTournament n rng) := by
  unfold Generation.getRandomTournamentChecked Generation.getRandomTournament
  by_cases h0 : g.m_individuals.length = 0
  · rw [if_pos h0, if_pos h0]
  · rw [if_neg h0, if_neg h0]
    dsimp only
    have pick : ∀ r : List Nat,
        g.m_individuals[(uniformInt 0 (g.m_individuals.length - 1) r).1]?
          = some (g.m_individuals.getD (uniformInt 0 (g.m_individuals.length - 1) r).1
              ([], 0)) := by
      intro r
      have hle := (uniformInt_le 0 (g.m_individuals.length - 1) (Nat.zero_le _) r).2
      exact getElem?_eq_some_getD _ _ _ (by omega)
    rw [pick rng, Option.some_bind]
    rw [foldlM_eq_some (fun _ => True) (g.tournamentStep) (g.tournamentStepChecked)
      (List.range' 1 (n - 1)) _ trivial]
    · rfl
    · intro st a _ _
      unfold Generation.tournamentStepChecked Generation.tournamentStep
      dsimp only
      rw [pick st.2]
      exact ⟨rfl, trivial⟩

theorem pushGenesChecked_eq (individual : List Nat) (start stop : Nat) (acc : List Nat)
    (h : stop ≤ individual.length) :
    Genetic.pushGenesChecked individual start stop acc
      = some (Genetic.pushGenes individual start stop acc) := by
  unfold Genetic.pushGenesChecked Genetic.pushGenes
  refine foldlM_eq_some (fun _ => True) _ _ _ acc trivial ?_
  intro a i hi _
  rw [List.mem_range'_1] at hi
  rw [getElem?_eq_some_getD individual i 0 (by omega)]
  exact ⟨rfl, trivial⟩

theorem crossoverIndividualsChecked_eq (g : Genetic) (a b : List Nat) (rng : List Nat)
    (hN : 0 < g.m_dimension) (ha : a.length = g.m_dimension) (hb : b.length = g.m_dimension) :
    g.crossoverIndividualsChecked a b rng = some (g.crossoverIndividuals a b rng) := by
  unfold Genetic.crossoverIndividualsChecked Genetic.crossoverIndividuals
  dsimp only
  by_cases hbranch : ((uniformInt 0 100 rng).1 : ℚ) > g.m_crossoverRate * 100
  · rw [if_pos hbranch, if_pos hbranch]
  · rw [if_neg hbranch, if_neg hbranch]
    have hc := (uniformInt_le 0 (g.m_dimension - 1) (Nat.zero_le _) (uniformInt 0 100 rng).2).2
    have e1 := pushGenesChecked_eq a 0
      (uniformInt 0 (g.m_dimension - 1) (uniformInt 0 100 rng).2).1 [] (by omega)
    have e2 := pushGenesChecked_eq b
      (uniformInt 0 (g.m_dimension - 1) (uniformInt 0 100 rng).2).1 g.m_dimension
      (Genetic.pushGenes a 0 (uniformInt 0 (g.m_dimension - 1) (uniformInt 0 100 rng).2).1 [])
      (by omega)
    simp only [e1, e2, Option.some_bind]

theorem mutateIndividualChecked_eq (g : Genetic) (individual : List Nat) (rng : List Nat)
    (hlen : individual.length = g.m_dimension) :
    g.mutateIndividualChecked individual rng = some (g.mutateIndividual individual rng) := by
  unfold Genetic.mutateIndividualChecked Genetic.mutateIndividual
  refine foldlM_eq_some (fun _ => True) _ _ _ _ trivial ?_
  intro st i hi _
  rw [List.mem_range] at hi
  unfold Genetic.mutateStepChecked Genetic.mutateStep
  dsimp only
  rw [getElem?_eq_some_getD individual i 0 (by omega)]
  refine ⟨?_, trivial⟩
  split <;> rfl

theorem eliteStepChecked_eq (g : Genetic) (st : Generation × List Nat) (individual : List Nat)
    (hv : ValidIndividual g.m_dimension individual) :
    g.eliteStepChecked st individual = some (g.eliteStep st individual) := by
  unfold Genetic.eliteStepChecked Genetic.eliteStep
  rw [mutateIndividualChecked_eq g individual st.2 hv.1]
  rfl

theorem addOffspringChecked_eq (g : Genetic) (hN : 0 < g.m_dimension) (a b : List Nat)
    (newGen : Generation) (rng : List Nat)
    (ha : ValidIndividual g.m_dimension a) (hb : ValidIndividual g.m_dimension b) :
    g.addOffspringChecked a b newGen rng = some (g.addOffspring a b newGen rng) := by
  unfold Genetic.addOffspringChecked Genetic.addOffspring
  obtain ⟨h1, h2⟩ := crossoverIndividuals_valid g a b rng hN ha hb
  rw [crossoverIndividualsChecked_eq g a b rng hN ha.1 hb.1, Option.some_bind,
    mutateIndividualChecked_eq g _ _ h1.1, Option.some_bind,
    mutateIndividualChecked_eq g _ _ h2.1, Option.some_bind]

theorem eliteCrossoverStepChecked_eq (g : Genetic) (hN : 0 < g.m_dimension)
    (individuals : List (List Nat)) (hlen : individuals.length = PREVIOUS_GEN_COUNT)
    (hv : ∀ e ∈ individuals, ValidIndividual g.m_dimension e)
    (st : Generation × List Nat) (j : Nat) :
    g.eliteCrossoverStepChecked individuals st j
      = some (g.eliteCrossoverStep individuals st j) := by
  unfold Genetic.eliteCrossoverStepChecked Genetic.eliteCrossoverStep
  dsimp only
  have hpos : 0 < PREVIOUS_GEN_COUNT := by unfold PREVIOUS_GEN_COUNT; omega
  have pick : ∀ r : List Nat,
      individuals[(uniformInt 0 (PREVIOUS_GEN_COUNT - 1) r).1]?
        = some (individuals.getD (uniformInt 0 (PREVIOUS_GEN_COUNT - 1) r).1 []) ∧
      ValidIndividual g.m_dimension
        (individuals.getD (uniformInt 0 (PREVIOUS_GEN_COUNT - 1) r).1 []) := by
    intro r
    have hle := (uniformInt_le 0 (PREVIOUS_GEN_COUNT - 1) (Nat.zero_le _) r).2
    have hlt : (uniformInt 0 (PREVIOUS_GEN_COUNT - 1) r).1 < individuals.length := by omega
    refine ⟨getElem?_eq_some_getD _ _ _ hlt, ?_⟩
    rw [List.getD_eq_getElem _ _ hlt]
    exact hv _ (List.getElem_mem _)
  rw [(pick _).1, Option.some_bind, (pick _).1, Option.some_bind]
  exact addOffspringChecked_eq g hN _ _ st.1 _ (pick _).2 (pick _).2

theorem tournamentFillStepChecked_eq (g : Genetic) (hN : 0 < g.m_dimension)
    (prevGen : Generation) (hne : prevGen.m_individuals ≠ [])
    (hprev : Genetic.AllValid g.m_dimension prevGen) (st : Generation × List Nat) (j : Nat) :
    g.tournamentFillStepChecked prevGen st j = some (g.tournamentFillStep prevGen st j) := by
  unfold Genetic.tournamentFillStepChecked Genetic.tournamentFillStep
  rw [getRandomTournamentChecked_eq, Option.some_bind, getRandomTournamentChecked_eq,
    Option.some_bind]
  exact addOffspringChecked_eq g hN _ _ st.1 _
    (getRandomTournament_valid prevGen _ _ hne hprev)
    (getRandomTournament_valid prevGen _ _ hne hprev)

theorem foldl_keeps {σ α : Type} (P : σ → Prop) (f : σ → α → σ) :
    ∀ (l : List α) (s : σ), P s → (∀ s a, a ∈ l → P s → P (f s a)) → P (l.foldl f s) := by
  intro l
  induction l with
  | nil => intro s h0 _; exact h0
  | cons a l ih =>
    intro s h0 hstep
    rw [List.foldl_cons]
    exact ih _ (hstep s a (List.mem_cons_self _ _) h0)
      (fun s b hb hP => hstep s b (List.mem_cons_of_mem _ hb) hP)

theorem evolveBodyChecked_eq (lib : StdLib) (hs : SortContract lib.sort) (g2 : Genetic)
    (hN : 0 < g2.m_dimension) (prevGen : Generation)
    (hsize : PREVIOUS_GEN_COUNT ≤ prevGen.m_individuals.length)
    (hvalid : Genetic.AllValid g2.m_dimension prevGen) (newGen : Generation)
    (hnew : Genetic.AllValid g2.m_dimension newGen) (rng : List Nat) :
    Genetic.evolveBodyChecked lib g2 prevGen newGen rng
      = some ((List.range
          (POPULATION_SIZE - 2 * PREVIOUS_GEN_COUNT
            - 2 * (PREVIOUS_GEN_CROSSOVER_COUNT / 2))).foldl
          (g2.tournamentFillStep
            ((prevGen.getNBest lib.sort PREVIOUS_GEN_COUNT).2.getNBest lib.sort
              PREVIOUS_GEN_COUNT).2)
          ((List.range (PREVIOUS_GEN_CROSSOVER_COUNT / 2)).foldl
            (g2.eliteCrossoverStep
              ((prevGen.getNBest lib.sort PREVIOUS_GEN_COUNT).2.getNBest lib.sort
                PREVIOUS_GEN_COUNT).1)
            ((prevGen.getNBest lib.sort PREVIOUS_GEN_COUNT).1.foldl (g2.eliteStep)
              (newGen, rng)))) := by
  have b1 := getNBest_members lib.sort hs prevGen PREVIOUS_GEN_COUNT hsize
  have b2 := getNBest_members lib.sort hs (prevGen.getNBest lib.sort PREVIOUS_GEN_COUNT).2
    PREVIOUS_GEN_COUNT (by rw [b1.2.2.length_eq]; exact hsize)
  have v1 : Genetic.AllValid g2.m_dimension (prevGen.getNBest lib.sort PREVIOUS_GEN_COUNT).2 :=
    allValid_of_perm b1.2.2 hvalid
  have v2 : Genetic.AllValid g2.m_dimension
      ((prevGen.getNBest lib.sort PREVIOUS_GEN_COUNT).2.getNBest lib.sort
        PREVIOUS_GEN_COUNT).2 := allValid_of_perm b2.2.2 v1
  have hne2 : ((prevGen.getNBest lib.sort PREVIOUS_GEN_COUNT).2.getNBest lib.sort
      PREVIOUS_GEN_COUNT).2.m_individuals ≠ [] := by
    intro he
    have hl := b2.2.2.length_eq
    rw [he, b1.2.2.length_eq] at hl
    have hpos : 0 < PREVIOUS_GEN_COUNT := by unfold PREVIOUS_GEN_COUNT; omega
    simp only [List.length_nil] at hl
    omega
  have e1 : ∀ e ∈ (prevGen.getNBest lib.sort PREVIOUS_GEN_COUNT).1,
      ValidIndividual g2.m_dimension e := by
    intro e he
    obtain ⟨p, hp, rfl⟩ := b1.2.1 e he
    exact (hvalid p hp).1
  have e2 : ∀ e ∈ ((prevGen.getNBest lib.sort PREVIOUS_GEN_COUNT).2.getNBest lib.sort
      PREVIOUS_GEN_COUNT).1, ValidIndividual g2.m_dimension e := by
    intro e he
    obtain ⟨p, hp, rfl⟩ := b2.2.1 e he
    exact (v1 p hp).1
  have step1 : ∀ (st : Generation × List Nat) (a : List Nat),
      a ∈ (prevGen.getNBest lib.sort PREVIOUS_GEN_COUNT).1 →
      Genetic.AllValid g2.m_dimension st.1 →
      Genetic.AllValid g2.m_dimension (g2.eliteStep st a).1 :=
    fun st a ha hst => (eliteStep_grow g2 st a (e1 a ha) hst).1
  have step2 : ∀ (st : Generation × List Nat) (j : Nat),
      j ∈ List.range (PREVIOUS_GEN_CROSSOVER_COUNT / 2) →
      Genetic.AllValid g2.m_dimension st.1 →
      Genetic.AllValid g2.m_dimension (g2.eliteCrossoverStep
        ((prevGen.getNBest lib.sort PREVIOUS_GEN_COUNT).2.getNBest lib.sort
          PREVIOUS_GEN_COUNT).1 st j).1 :=
    fun st j _ hst => (eliteCrossoverStep_grow g2 hN _ b2.1 e2 st j hst).1
  have a1 := foldl_keeps
    (fun st : Generation × List Nat => Genetic.AllValid g2.m_dimension st.1)
    (g2.eliteStep) (prevGen.getNBest lib.sort PREVIOUS_GEN_COUNT).1 (newGen, rng) hnew step1
  have a2 := foldl_keeps
    (fun st : Generation × List Nat => Genetic.AllValid g2.m_dimension st.1)
    (g2.eliteCrossoverStep ((prevGen.getNBest lib.sort PREVIOUS_GEN_COUNT).2.getNBest lib.sort
      PREVIOUS_GEN_COUNT).1) (List.range (PREVIOUS_GEN_CROSSOVER_COUNT / 2)) _ a1 step2
  unfold Genetic.evolveBodyChecked
  rw [getNBestChecked_eq lib.sort hs, Option.some_bind,
    foldlM_eq_some (fun st : Generation × List Nat => Genetic.AllValid g2.m_dimension st.1)
      (g2.eliteStep) (g2.eliteStepChecked) _ _ hnew
      (fun st a ha hst => ⟨eliteStepChecked_eq g2 st a (e1 a ha), step1 st a ha hst⟩),
    Option.some_bind, getNBestChecked_eq lib.sort hs, Option.some_bind,
    foldlM_eq_some (fun st : Generation × List Nat => Genetic.AllValid g2.m_dimension st.1)
      (g2.eliteCrossoverStep _) (g2.eliteCrossoverStepChecked _) _ _ a1
      (fun st j hj hst => ⟨eliteCrossoverStepChecked_eq g2 hN _ b2.1 e2 st j,
        step2 st j hj hst⟩),
    Option.some_bind,
    foldlM_eq_some (fun st : Generation × List Nat => Genetic.AllValid g2.m_dimension st.1)
      (g2.tournamentFillStep _) (g2.tournamentFillStepChecked _) _ _ a2
      (fun st j _ hst => ⟨tournamentFillStepChecked_eq g2 hN _ hne2 v2 st j,
        (tournamentFillStep_grow g2 hN _ hne2 v2 st j hst).1⟩)]

theorem evolveChecked_eq (lib : StdLib) (hs : SortContract lib.sort) (i : Nat) (g : Genetic)
    (rng : List Nat) (h : g.LoopInv) :
    Genetic.evolveChecked lib i g rng = some (Genetic.evolve lib i g rng) := by
  obtain ⟨hN, hidx, gens, last, hgens, hsize, hvalid⟩ := h
  have hprevD := loopInv_prevGen hidx hgens
  have hidxpos : g.m_generationIndex ≠ 0 := by rw [hidx, hgens]; simp
  have hprev : g.m_generations[g.m_generationIndex - 1]? = some last := by
    rw [hidx, hgens]; simp
  have hN2 : 0 < (Genetic.mk g.m_dimension (g.m_generationIndex + 1)
      (MUTATION_RATE * lib.expMutation i) (CROSSOVER_RATE * lib.expCrossover i)
      g.m_finished g.m_generations).m_dimension := hN
  have hempty : Genetic.AllValid g.m_dimension
      (Generation.new g.m_generationIndex (MUTATION_RATE * lib.expMutation i)
        (CROSSOVER_RATE * lib.expCrossover i)) := by
    intro p hp; cases hp
  unfold Genetic.evolveChecked Genetic.evolve
  dsimp only
  rw [if_neg hidxpos, hprev, Option.some_bind, hprevD,
    evolveBodyChecked_eq lib hs _ hN2 last hsize hvalid _ hempty rng]
  rfl

theorem runLoopChecked_eq (lib : StdLib) (hs : SortContract lib.sort) :
    ∀ (k i : Nat) (g : Genetic) (rng : List Nat), g.LoopInv →
      Genetic.runLoopChecked lib k i g rng = some (Genetic.runLoop lib k i g rng) := by
  intro k
  induction k with
  | zero => intro i g rng _; rfl
  | succ k ih =>
    intro i g rng hinv
    obtain ⟨hinv2, _, _⟩ := evolve_inv lib hs i g rng hinv
    rw [Genetic.runLoopChecked, Genetic.runLoop, evolveChecked_eq lib hs i g rng hinv,
      Option.some_bind]
    dsimp only
    by_cases hbest : (Genetic.evolve lib i g rng).2.1.fitnessBest = 0
    · rw [if_pos hbest, if_pos hbest]
    · rw [if_neg hbest, if_neg hbest]
      exact ih (i + 1) _ _ hinv2

/-- The checked reads do fail when an index is out of bounds: the loop body on an engine that
has published nothing, and a mutation (probability draws `50`, all genes kept) of an
individual shorter than the board. -/
theorem checked_reads_can_fail (lib : StdLib) (rng : List Nat) :
    Genetic.evolveChecked lib 1 (Genetic.new 4) rng = none ∧
    (Genetic.new 4).mutateIndividualChecked [1, 2] [50, 50, 50, 50] = none := by
  refine ⟨rfl, ?_⟩
  have hkeep : ((50 : Nat) : ℚ) > (Genetic.new 4).m_mutationRate * 100 := by
    unfold Genetic.new MUTATION_RATE
    norm_num
  have hr : List.range (Genetic.new 4).m_dimension = [0, 1, 2, 3] := by decide
  have hstep : ∀ (acc rest : List Nat) (i : Nat),
      (Genetic.new 4).mutateStepChecked [1, 2] (acc, 50 :: rest) i
        = ([1, 2][i]?).map (fun x => (acc ++ [x], rest)) := by
    intro acc rest i
    unfold Genetic.mutateStepChecked
    dsimp only
    rw [uniformInt_cons_of_le 100 50 rest (by decide), if_pos hkeep]
  unfold Genetic.mutateIndividualChecked
  rw [hr]
  simp [List.foldlM_cons, hstep]

/-- C21: under the compile-time configuration, for every board size `N ≥ 1` and every random
stream, `run` with every vector read checked (the previous generation
`m_generations[m_generationIndex - 1]`, the ranked individuals `m_individuals[i]`, the elite
picks `individuals[d]`, the tournament picks, and the parent genes read by
`crossoverIndividuals` and `mutateIndividual`) never meets an index out of bounds: it returns
what `run` returns. -/
theorem run_reads_in_bounds (lib : StdLib) (hs : SortContract lib.sort) (N : Nat)
    (hN : 1 ≤ N) (rng : List Nat) :
    Genetic.runChecked lib (Genetic.new N) rng = some (Genetic.run lib (Genetic.new N) rng) := by
  obtain ⟨hinv, _, _⟩ := seed_inv N hN rng
  rw [run_eq]
  unfold Genetic.runChecked
  exact runLoopChecked_eq lib hs (GENERATIONS - 1) 1 _ _ hinv

theorem run_reads_in_bounds_witness :
    SortContract insertionSortByFitness ∧ 1 ≤ 8 ∧
    Genetic.runChecked ⟨insertionSortByFitness, fun _ => 1, fun _ => 1⟩ (Genetic.new 8)
        [2, 7, 1, 8, 2, 8, 1, 8]
      = some (Genetic.run ⟨insertionSortByFitness, fun _ => 1, fun _ => 1⟩ (Genetic.new 8)
        [2, 7, 1, 8, 2, 8, 1, 8]) :=
  ⟨insertionSortByFitness_contract, by decide,
    run_reads_in_bounds ⟨insertionSortByFitness, fun _ => 1, fun _ => 1⟩
      insertionSortByFitness_contract 8 (by decide) [2, 7, 1, 8, 2, 8, 1, 8]⟩

/-! ## The value `run` returns -/

/-- C10: on a fresh engine for a board of size `N ≥ 1` and for every random stream, `run`
returns (no vector read is out of bounds), and it returns `true` exactly when some published
generation `k ≥ 1` has best fitness `0`, and then that generation is the only such one and the
last one published; it returns `false` exactly when it has published `GENERATIONS` generations
and none of the generations `1 .. GENERATIONS-1` has best fitness `0`. -/
theorem run_returns (lib : StdLib) (hs : SortContract lib.sort) (N : Nat) (hN : 1 ≤ N)
    (rng : List Nat) :
    Genetic.runChecked lib (Genetic.new N) rng
      = some (Genetic.run lib (Genetic.new N) rng) ∧
    ((Genetic.run lib (Genetic.new N) rng).1 = true ↔
      ∃ k gen, 1 ≤ k ∧
        (Genetic.run lib (Genetic.new N) rng).2.1.m_generations[k]? = some gen ∧
        gen.fitnessBest = 0) ∧
    ((Genetic.run lib (Genetic.new N) rng).1 = true →
      ∀ k gen, 1 ≤ k →
        (Genetic.run lib (Genetic.new N) rng).2.1.m_generations[k]? = some gen →
        (gen.fitnessBest = 0 ↔
          k + 1 = (Genetic.run lib (Genetic.new N) rng).2.1.m_generations.length)) ∧
    ((Genetic.run lib (Genetic.new N) rng).1 = false ↔
      (Genetic.run lib (Genetic.new N) rng).2.1.m_generations.length = GENERATIONS ∧
      ∀ k gen, 1 ≤ k → k < GENERATIONS →
        (Genetic.run lib (Genetic.new N) rng).2.1.m_generations[k]? = some gen →
        gen.fitnessBest ≠ 0) := by
  refine ⟨?_, run_returns_spec lib N rng⟩
  obtain ⟨hinv, _, _⟩ := seed_inv N hN rng
  rw [run_eq]
  unfold Genetic.runChecked
  exact runLoopChecked_eq lib hs (GENERATIONS - 1) 1 _ _ hinv

theorem run_returns_witness :
    SortContract insertionSortByFitness ∧ 1 ≤ 4 ∧
    (
    Genetic.runChecked ⟨insertionSortByFitness, fun _ => 1, fun _ => 1⟩ (Genetic.new 4) [1, 4, 1, 4, 2, 1, 3, 5]
      = some (Genetic.run ⟨insertionSortByFitness, fun _ => 1, fun _ => 1⟩ (Genetic.new 4) [1, 4, 1, 4, 2, 1, 3, 5]) ∧
    ((Genetic.run ⟨insertionSortByFitness, fun _ => 1, fun _ => 1⟩ (Genetic.new 4) [1, 4, 1, 4, 2, 1, 3, 5]).1 = true ↔
      ∃ k gen, 1 ≤ k ∧
        (Genetic.run ⟨insertionSortByFitness, fun _ => 1, fun _ => 1⟩ (Genetic.new 4) [1, 4, 1, 4, 2, 1, 3, 5]).2.1.m_generations[k]? = some gen ∧
        gen.fitnessBest = 0) ∧
    ((Genetic.run ⟨insertionSortByFitness, fun _ => 1, fun _ => 1⟩ (Genetic.new 4) [1, 4, 1, 4, 2, 1, 3, 5]).1 = true →
      ∀ k gen, 1 ≤ k →
        (Genetic.run ⟨insertionSortByFitness, fun _ => 1, fun _ => 1⟩ (Genetic.new 4) [1, 4, 1, 4, 2, 1, 3, 5]).2.1.m_generations[k]? = some gen →
        (gen.fitnessBest = 0 ↔
          k + 1 = (Genetic.run ⟨insertionSortByFitness, fun _ => 1, fun _ => 1⟩ (Genetic.new 4) [1, 4, 1, 4, 2, 1, 3, 5]).2.1.m_generations.length)) ∧
    ((Genetic.run ⟨insertionSortByFitness, fun _ => 1, fun _ => 1⟩ (Genetic.new 4) [1, 4, 1, 4, 2, 1, 3, 5]).1 = false ↔
      (Genetic.run ⟨insertionSortByFitness, fun _ => 1, fun _ => 1⟩ (Genetic.new 4) [1, 4, 1, 4, 2, 1, 3, 5]).2.1.m_generations.length = GENERATIONS ∧
      ∀ k gen, 1 ≤ k → k < GENERATIONS →
        (Genetic.run ⟨insertionSortByFitness, fun _ => 1, fun _ => 1⟩ (Genetic.new 4) [1, 4, 1, 4, 2, 1, 3, 5]).2.1.m_generations[k]? = some gen →
        gen.fitnessBest ≠ 0)) :=
  ⟨insertionSortByFitness_contract, by decide,
    run_returns ⟨insertionSortByFitness, fun _ => 1, fun _ => 1⟩
      insertionSortByFitness_contract 4 (by decide) [1, 4, 1, 4, 2, 1, 3, 5]⟩

end NQueens
